import Mathlib

set_option linter.unusedSectionVars false

/-!
Shallow embedding of `src/inc/MultiKeyMap.h` (`mkm::MultiKeyMapImpl<V, Keys...>`).

The embedding fixes the variadic template at the three-component instantiation
used throughout the spec and the tests (`MultiKeyMap<int, char, bool, float>`,
i.e. `N = 3` pairwise distinct key-component types), with the component types
and the value type kept generic.  The `shared_ptr` node graph is embedded as a
store: a list of node records addressed by their index ("node id"), with
`std::make_shared` embedded as appending a fresh record at the end of the list.
`Node::children` (a `std::tuple` of one `std::unordered_map<T, NodePtr>` per
key-component type) is embedded as three association lists with unique keys;
the unordered iteration order of `unordered_map` is embedded as the list
order, with new entries appended at the end.  `Node::parent` (a `NodePtr`,
null for the root) is embedded as `Option Nat`.  `m_size` is a `Nat`.

The stack-based `IteratorImpl` is embedded as a function on explicit stacks of
node ids (head of list = `std::stack::top`); since recursion through the
stored graph is not structural, the traversal functions take a fuel argument
counting stack pops, and the public operations run them with fuel that is
proved sufficient on all well-formed states.
-/

namespace MKMap

/-- Association-list lookup; embeds `children.count(k) != 0 ? children.at(k) : null`
on `std::unordered_map` (first matching entry wins; entries have unique keys
in all reachable stores). -/
def alook {κ : Type} [DecidableEq κ] : List (κ × Nat) → κ → Option Nat
  | [], _ => none
  | (k, v) :: t, x => if x = k then some v else alook t x

/-- Association-list insert-or-update; embeds `children[k] = ptr`. A fresh key
is appended at the end (the embedded `unordered_map` iteration order). -/
def aset {κ : Type} [DecidableEq κ] : List (κ × Nat) → κ → Nat → List (κ × Nat)
  | [], x, n => [(x, n)]
  | (k, v) :: t, x, n => if x = k then (x, n) :: t else (k, v) :: aset t x n

/-- Association-list removal of one key; embeds `children.erase(k)`. -/
def aerase {κ : Type} [DecidableEq κ] : List (κ × Nat) → κ → List (κ × Nat)
  | [], _ => []
  | (k, v) :: t, x => if x = k then t else (k, v) :: aerase t x

/-- The keys of an association list are pairwise distinct (an `unordered_map`
invariant). -/
def keysND {κ : Type} (l : List (κ × Nat)) : Prop := (l.map Prod.fst).Nodup

/-- The targets (stored node ids) of an association list are pairwise
distinct; holds in reachable stores because each child node is created
fresh for exactly one edge. -/
def tgtND {κ : Type} (l : List (κ × Nat)) : Prop := (l.map Prod.snd).Nodup

instance decKeysND {κ : Type} [DecidableEq κ] (l : List (κ × Nat)) : Decidable (keysND l) := by
  unfold keysND; infer_instance

instance decTgtND {κ : Type} (l : List (κ × Nat)) : Decidable (tgtND l) := by
  unfold tgtND; infer_instance

/-- Embedding of `MultiKeyMapImpl::Node` for key components `(α, β, γ)` and
value type `ν`: the three per-component-type children maps, the optional
`(full key, value)` payload, and the parent back-reference. -/
structure Node (α β γ ν : Type) where
  ch1 : List (α × Nat)
  ch2 : List (β × Nat)
  ch3 : List (γ × Nat)
  data : Option ((α × β × γ) × ν)
  parent : Option Nat
deriving DecidableEq

/-- Embedding of `MultiKeyMapImpl`: the node store (ids are list indices),
the id of `m_root`, and `m_size`. -/
structure MultiKeyMap (α β γ ν : Type) where
  nodes : List (Node α β γ ν)
  root : Nat
  size : Nat
deriving DecidableEq

variable {α β γ ν : Type} [DecidableEq α] [DecidableEq β] [DecidableEq γ]

/-- A freshly constructed node: `new Node{}` / `std::make_shared<Node>()`. -/
def emptyNode : Node α β γ ν := ⟨[], [], [], none, none⟩

/-- The default-constructed map: `m_root(new Node{}), m_size(0)`. -/
def mkEmpty : MultiKeyMap α β γ ν := ⟨[emptyNode], 0, 0⟩

/-- Dereference a node id in the store. -/
def getN (m : MultiKeyMap α β γ ν) (i : Nat) : Option (Node α β γ ν) := m.nodes[i]?

/-- Overwrite the record of node `i`. -/
def setN (m : MultiKeyMap α β γ ν) (i : Nat) (r : Node α β γ ν) : MultiKeyMap α β γ ν :=
  { m with nodes := m.nodes.set i r }

/-- Mutate the record of node `i` in place (no-op on a dangling id, which
never occurs in reachable states). -/
def modN (m : MultiKeyMap α β γ ν) (i : Nat) (f : Node α β γ ν → Node α β γ ν) :
    MultiKeyMap α β γ ν :=
  match getN m i with
  | none => m
  | some r => setN m i (f r)

/-- The slot-1 children map (`getChildrenTypeFromTuple<K1>(node->children)`). -/
def nCh1 (m : MultiKeyMap α β γ ν) (i : Nat) : List (α × Nat) :=
  ((getN m i).map Node.ch1).getD []

/-- The slot-2 children map (`getChildrenTypeFromTuple<K2>(node->children)`). -/
def nCh2 (m : MultiKeyMap α β γ ν) (i : Nat) : List (β × Nat) :=
  ((getN m i).map Node.ch2).getD []

/-- The slot-3 children map (`getChildrenTypeFromTuple<K3>(node->children)`). -/
def nCh3 (m : MultiKeyMap α β γ ν) (i : Nat) : List (γ × Nat) :=
  ((getN m i).map Node.ch3).getD []

/-- The payload of node `i` (`node->data`). -/
def dataQ (m : MultiKeyMap α β γ ν) (i : Nat) : Option ((α × β × γ) × ν) :=
  (getN m i).bind Node.data

/-- The key stored in the payload of node `i`. -/
def nKey (m : MultiKeyMap α β γ ν) (i : Nat) : Option (α × β × γ) :=
  (dataQ m i).map Prod.fst

/-- The parent back-reference of node `i` (`node->parent`). -/
def nParent (m : MultiKeyMap α β γ ν) (i : Nat) : Option Nat :=
  (getN m i).bind Node.parent

/-- One lookup step through the slot-1 children of node `i`. -/
def child1 (m : MultiKeyMap α β γ ν) (i : Nat) (a : α) : Option Nat := alook (nCh1 m i) a

/-- One lookup step through the slot-2 children of node `i`. -/
def child2 (m : MultiKeyMap α β γ ν) (i : Nat) (b : β) : Option Nat := alook (nCh2 m i) b

/-- One lookup step through the slot-3 children of node `i`. -/
def child3 (m : MultiKeyMap α β γ ν) (i : Nat) (c : γ) : Option Nat := alook (nCh3 m i) c

/-- A full or partial key: 1, 2 or 3 leading components of `(α, β, γ)`. -/
inductive PKey (α β γ : Type) where
  | k1 : α → PKey α β γ
  | k2 : α → β → PKey α β γ
  | k3 : α → β → γ → PKey α β γ
deriving DecidableEq

/-- The number of components provided by a partial key. -/
def plen : PKey α β γ → Nat
  | .k1 _ => 1
  | .k2 _ _ => 2
  | .k3 _ _ _ => 3

/-- View a full key as a `PKey`. -/
def fullK (k : α × β × γ) : PKey α β γ := PKey.k3 k.1 k.2.1 k.2.2

/-- The partial key matches (is a leading prefix of) the full key `k`. -/
def matchesK : PKey α β γ → (α × β × γ) → Prop
  | .k1 a, k => k.1 = a
  | .k2 a b, k => k.1 = a ∧ k.2.1 = b
  | .k3 a b c, k => k.1 = a ∧ k.2.1 = b ∧ k.2.2 = c

instance decMatchesK (p : PKey α β γ) (k : α × β × γ) : Decidable (matchesK p k) := by
  cases p <;> { unfold matchesK; infer_instance }

/-- Embedding of the lookup-mode walk `getNodeForKeyPrefixImpl(const Wrapper<KeyPrefix>&...)
const`: consume the provided components left to right, short-circuiting to
null (`Option.bind`) as soon as a component is absent. -/
def findNode (m : MultiKeyMap α β γ ν) : PKey α β γ → Option Nat
  | .k1 a => child1 m m.root a
  | .k2 a b => (child1 m m.root a).bind (fun i => child2 m i b)
  | .k3 a b c => ((child1 m m.root a).bind (fun i => child2 m i b)).bind (fun i => child3 m i c)

/-- Append a fresh node (with the given parent back-reference) to the store;
its id is the pre-append length of the store. -/
def newChild (m : MultiKeyMap α β γ ν) (par : Option Nat) : MultiKeyMap α β γ ν :=
  { m with nodes := m.nodes ++ [{ emptyNode with parent := par }] }

/-- Step 1 of the creating walk (`getNodeForKeyPrefixImpl` with
`createIfKeyDoesNotExist == true`).  The walk's local `parent` variable is
still its initial `nullptr` here, so a node created at depth 1 gets a null
parent back-reference even though it is created under the root (faithful to
the source). -/
def step1 (m : MultiKeyMap α β γ ν) (a : α) : MultiKeyMap α β γ ν × Nat :=
  match child1 m m.root a with
  | some j => (m, j)
  | none =>
    let nid := m.nodes.length
    (modN (newChild m none) m.root (fun r => { r with ch1 := aset r.ch1 a nid }), nid)

/-- Step 2 of the creating walk: by now the walk's `parent` variable holds the
depth-1 node `i`, so a created depth-2 node records `parent = some i`. -/
def step2 (m : MultiKeyMap α β γ ν) (i : Nat) (b : β) : MultiKeyMap α β γ ν × Nat :=
  match child2 m i b with
  | some j => (m, j)
  | none =>
    let nid := m.nodes.length
    (modN (newChild m (some i)) i (fun r => { r with ch2 := aset r.ch2 b nid }), nid)

/-- Step 3 of the creating walk: a created depth-3 node records its depth-2
parent. -/
def step3 (m : MultiKeyMap α β γ ν) (i : Nat) (c : γ) : MultiKeyMap α β γ ν × Nat :=
  match child3 m i c with
  | some j => (m, j)
  | none =>
    let nid := m.nodes.length
    (modN (newChild m (some i)) i (fun r => { r with ch3 := aset r.ch3 c nid }), nid)

/-- The creating walk for a full key, `getNodeForKeyPrefix<Keys...>(key, true)`:
three short-circuit steps, creating missing nodes along the way.  Returns the
updated store and the id of the node for the full key. -/
def walkCreate (m : MultiKeyMap α β γ ν) (a : α) (b : β) (c : γ) :
    MultiKeyMap α β γ ν × Nat :=
  let s1 := step1 m a
  let s2 := step2 s1.1 s1.2 b
  let s3 := step3 s2.1 s2.2 c
  s3

/-- Embedding of `MultiKeyMapImpl::insert(key, value)`: walk with creation,
then attach the payload only if the node has none; returns the new map and
whether the value was inserted. -/
def insert (m : MultiKeyMap α β γ ν) (k : α × β × γ) (v : ν) : MultiKeyMap α β γ ν × Bool :=
  let w := walkCreate m k.1 k.2.1 k.2.2
  match getN w.1 w.2 with
  | none => (w.1, false)
  | some r =>
    match r.data with
    | none => ({ setN w.1 w.2 { r with data := some (k, v) } with size := w.1.size + 1 }, true)
    | some _ => (w.1, false)

/-- Embedding of `map[key] = v`: `operator[]` walks with creation,
default-constructs and counts a fresh payload if the node has none, and the
assignment then overwrites the payload's value (`node->data->second = v`);
the stored key part of an existing payload is untouched. -/
def opIndexAssign (m : MultiKeyMap α β γ ν) (k : α × β × γ) (v : ν) : MultiKeyMap α β γ ν :=
  let w := walkCreate m k.1 k.2.1 k.2.2
  match getN w.1 w.2 with
  | none => w.1
  | some r =>
    match r.data with
    | none => { setN w.1 w.2 { r with data := some (k, v) } with size := w.1.size + 1 }
    | some kv => setN w.1 w.2 { r with data := some (kv.1, v) }

/-- All child node ids of node `i`, in the order `detail::forEach` visits the
children tuple inside `IteratorImpl::advance` (slot 1, then 2, then 3, each in
map order). -/
def chTargets (m : MultiKeyMap α β γ ν) (i : Nat) : List Nat :=
  (nCh1 m i).map Prod.snd ++ (nCh2 m i).map Prod.snd ++ (nCh3 m i).map Prod.snd

/-- One `IteratorImpl::advance()` applied to stack `i :: rest`: pop `i` and
push every child; pushing left to right leaves the last-pushed child on top,
so the new stack is the reversed child list in front of `rest`. -/
def pushKids (m : MultiKeyMap α β γ ν) (i : Nat) (rest : List Nat) : List Nat :=
  (chTargets m i).reverse ++ rest

/-- The full emission sequence of `IteratorImpl` run from a stack to
exhaustion: each step pops the top node, emits its payload if it has one, and
pushes its children (`advance`); nodes without payload are skipped exactly as
the constructor and `operator++` do.  Fuel bounds the number of pops. -/
def drainF (m : MultiKeyMap α β γ ν) : Nat → List Nat → List ((α × β × γ) × ν)
  | 0, _ => []
  | _ + 1, [] => []
  | f + 1, i :: rest =>
    match dataQ m i with
    | some kv => kv :: drainF m f (pushKids m i rest)
    | none => drainF m f (pushKids m i rest)

/-- The initial skip loop of the `IteratorImpl` constructor (and the tail loop
of `operator++`): advance until the top node has a payload or the stack is
empty.  Fuel bounds the number of pops. -/
def skipF (m : MultiKeyMap α β γ ν) : Nat → List Nat → List Nat
  | 0, st => st
  | _ + 1, [] => []
  | f + 1, i :: rest =>
    match dataQ m i with
    | some _ => i :: rest
    | none => skipF m f (pushKids m i rest)

/-- Pops needed to drain the subtree of a depth-2 node: itself plus its
depth-3 children. -/
def need2 (m : MultiKeyMap α β γ ν) (i : Nat) : Nat := 1 + (nCh3 m i).length

/-- Pops needed to drain the subtree of a depth-1 node. -/
def need1 (m : MultiKeyMap α β γ ν) (i : Nat) : Nat :=
  1 + ((nCh2 m i).map (fun e => need2 m e.2)).sum

/-- Pops needed to drain the whole trie from the root. -/
def need0 (m : MultiKeyMap α β γ ν) : Nat :=
  1 + ((nCh1 m m.root).map (fun e => need1 m e.2)).sum

/-- Fuel used by the public operations; proved sufficient to fully drain the
subtree of any node reachable in a well-formed state. -/
def iterFuel (m : MultiKeyMap α β γ ν) : Nat := need0 m + 1

/-- The payloads in the subtree of a depth-2 node, in emission order (the
iterator pushes children left to right onto a stack, so it consumes them in
reversed map order). -/
def elems2 (m : MultiKeyMap α β γ ν) (i : Nat) : List ((α × β × γ) × ν) :=
  (nCh3 m i).reverse.flatMap (fun e => (dataQ m e.2).toList)

/-- The payloads in the subtree of a depth-1 node, in emission order. -/
def elems1 (m : MultiKeyMap α β γ ν) (i : Nat) : List ((α × β × γ) × ν) :=
  (nCh2 m i).reverse.flatMap (fun e => elems2 m e.2)

/-- The payloads of the whole trie, in emission order. -/
def elems0 (m : MultiKeyMap α β γ ν) : List ((α × β × γ) × ν) :=
  (nCh1 m m.root).reverse.flatMap (fun e => elems1 m e.2)

/-- Embedding of full-map iteration `begin()` .. `end()`: the emission
sequence of `Iterator{m_root}`. -/
def rootElems (m : MultiKeyMap α β γ ν) : List ((α × β × γ) × ν) :=
  drainF m (iterFuel m) [m.root]

/-- Embedding of iterating `find(key)` to `end()`: the emission sequence of
the iterator built on the node resolved by the walk (empty when the walk
fails). -/
def findElems (m : MultiKeyMap α β γ ν) (p : PKey α β γ) : List ((α × β × γ) × ν) :=
  match findNode m p with
  | none => []
  | some i => drainF m (iterFuel m) [i]

/-- The node stack of the iterator returned by `find(key)` right after
construction; it is empty exactly when `find(key) == end()`. -/
def findStack (m : MultiKeyMap α β γ ν) (p : PKey α β γ) : List Nat :=
  match findNode m p with
  | none => []
  | some i => skipF m (iterFuel m) [i]

/-- Embedding of `at(key)`: run `find(key)`; `none` models throwing
`std::out_of_range` when the iterator equals `end()`, otherwise the
dereferenced value is returned.  The lookup walk never mutates the map, so
`at` is embedded as a pure function. -/
def atKey (m : MultiKeyMap α β γ ν) (p : PKey α β γ) : Option ν :=
  match findStack m p with
  | [] => none
  | i :: _ => (dataQ m i).map (fun kv => kv.2)

/-- Embedding of `count(key)`: walk the iterator from `find(key)` to `end()`,
counting one per emitted payload. -/
def count (m : MultiKeyMap α β γ ν) (p : PKey α β γ) : Nat := (findElems m p).length

/-- Embedding of `contains(key)`: `find(key) != end()`. -/
def contains (m : MultiKeyMap α β γ ν) (p : PKey α β γ) : Prop := findStack m p ≠ []

instance decContains (m : MultiKeyMap α β γ ν) (p : PKey α β γ) : Decidable (contains m p) := by
  unfold contains; infer_instance

/-- The value resolved for a full key by the structural lookup: walk the trie
and project the payload's value.  This is the "stored value at K" used in the
statements; it agrees with `atKey` on well-formed states. -/
def mlookup (m : MultiKeyMap α β γ ν) (k : α × β × γ) : Option ν :=
  ((findNode m (fullK k)).bind (dataQ m)).map (fun kv => kv.2)

/-- Embedding of `clear()`: `m_size = 0; m_root.reset(new Node)` — a fresh
store. -/
def clear (_m : MultiKeyMap α β γ ν) : MultiKeyMap α β γ ν := mkEmpty

/-- Embedding of `erase(key)`.  The source resolves the node without
creation, then — without any null check — decrements `m_size` once per
payload under the node, clears every children slot of the node, and removes
the edge from the parent's slot `|key| - 1` when the parent back-reference is
non-null.  When the walk fails the source dereferences a null `shared_ptr`
(undefined behaviour); this is modelled by returning `none`. -/
def erase (m : MultiKeyMap α β γ ν) (p : PKey α β γ) : Option (MultiKeyMap α β γ ν) :=
  match findNode m p with
  | none => none
  | some i =>
    let removed := (drainF m (iterFuel m) [i]).length
    let m1 : MultiKeyMap α β γ ν := { m with size := m.size - removed }
    let m2 := modN m1 i (fun r => { r with ch1 := [], ch2 := [], ch3 := [] })
    match nParent m2 i with
    | none => some m2
    | some par =>
      match p with
      | .k1 a => some (modN m2 par (fun r => { r with ch1 := aerase r.ch1 a }))
      | .k2 _ b => some (modN m2 par (fun r => { r with ch2 := aerase r.ch2 b }))
      | .k3 _ _ c => some (modN m2 par (fun r => { r with ch3 := aerase r.ch3 c }))

/-- Embedding of `operator==`: equal sizes, and every key/value pair
enumerated from `rhs` resolves in `*this` (via `find`/dereference, i.e.
`atKey`) to an equal value. -/
def mkmEq (x y : MultiKeyMap α β γ ν) : Prop :=
  x.size = y.size ∧ ∀ kv ∈ rootElems y, atKey x (fullK kv.1) = some kv.2

instance decMkmEq [DecidableEq ν] (x y : MultiKeyMap α β γ ν) : Decidable (mkmEq x y) := by
  unfold mkmEq; infer_instance

/-- The loop body of `merge(source)`, run over the emission sequence of
`source`.  The source iterates the live `source` map, but each `erase` of the
just-visited full key only detaches the already-visited leaf and edits its
already-popped parent, so the sequence of visited elements equals the
enumeration computed up front. -/
def mergeGo : MultiKeyMap α β γ ν → MultiKeyMap α β γ ν → List ((α × β × γ) × ν) →
    MultiKeyMap α β γ ν × MultiKeyMap α β γ ν
  | a, b, [] => (a, b)
  | a, b, kv :: rest =>
    let r := insert a kv.1 kv.2
    if r.2 then
      match erase b (fullK kv.1) with
      | some b' => mergeGo r.1 b' rest
      | none => mergeGo r.1 b rest
    else mergeGo a b rest

/-- Embedding of `merge(source)`: try to insert every element of `source`
into `*this`, erasing from `source` the elements actually inserted.  Returns
the updated `(*this, source)` pair. -/
def merge (a b : MultiKeyMap α β γ ν) : MultiKeyMap α β γ ν × MultiKeyMap α β γ ν :=
  mergeGo a b (rootElems b)

/-- Range construction (`MultiKeyMapImpl(first, last)` / initializer-list
construction): repeated `insert` starting from the empty map. -/
def ofList (l : List ((α × β × γ) × ν)) : MultiKeyMap α β γ ν :=
  l.foldl (fun m kv => (insert m kv.1 kv.2).1) mkEmpty

/-- First-occurrence association-list lookup, used to state what a map built
by repeated `insert` (which never overwrites) holds at each key. -/
def assocFind {K V : Type} [DecidableEq K] : List (K × V) → K → Option V
  | [], _ => none
  | (k, v) :: t, x => if x = k then some v else assocFind t x

/-- Well-formedness of a reachable depth-3 node `i` holding the full key
`(a, b, c)`: no children, parent back-reference to the depth-2 node `p` it
was created under, and a payload whose key equals the path. -/
def ok3 (m : MultiKeyMap α β γ ν) (p i : Nat) (a : α) (b : β) (c : γ) : Prop :=
  (getN m i).isSome = true ∧ nCh1 m i = [] ∧ nCh2 m i = [] ∧ nCh3 m i = [] ∧
  nParent m i = some p ∧ nKey m i = some (a, b, c)

instance decOk3 (m : MultiKeyMap α β γ ν) (p i : Nat) (a : α) (b : β) (c : γ) :
    Decidable (ok3 m p i a b c) := by
  unfold ok3; infer_instance

/-- Well-formedness of a reachable depth-2 node `i` on path `(a, b)`: only
slot 3 populated, no payload, parent back-reference to the depth-1 node `p`,
and well-formed depth-3 children. -/
def ok2 (m : MultiKeyMap α β γ ν) (p i : Nat) (a : α) (b : β) : Prop :=
  (getN m i).isSome = true ∧ nCh1 m i = [] ∧ nCh2 m i = [] ∧ (dataQ m i).isNone = true ∧
  nParent m i = some p ∧ keysND (nCh3 m i) ∧ ∀ e ∈ nCh3 m i, ok3 m i e.2 a b e.1

instance decOk2 (m : MultiKeyMap α β γ ν) (p i : Nat) (a : α) (b : β) :
    Decidable (ok2 m p i a b) := by
  unfold ok2; infer_instance

/-- Well-formedness of a reachable depth-1 node `i` on path `a`: only slot 2
populated, no payload, a null parent back-reference (faithful to the source:
the walk's `parent` variable is still null when a depth-1 node is created),
and well-formed depth-2 children reached by pairwise distinct edges. -/
def ok1 (m : MultiKeyMap α β γ ν) (i : Nat) (a : α) : Prop :=
  (getN m i).isSome = true ∧ nCh1 m i = [] ∧ nCh3 m i = [] ∧ (dataQ m i).isNone = true ∧
  nParent m i = none ∧ keysND (nCh2 m i) ∧ tgtND (nCh2 m i) ∧
  ∀ e ∈ nCh2 m i, ok2 m i e.2 a e.1

instance decOk1 (m : MultiKeyMap α β γ ν) (i : Nat) (a : α) : Decidable (ok1 m i a) := by
  unfold ok1; infer_instance

/-- Well-formedness of the root and, recursively, of the whole reachable
trie. -/
def ok0 (m : MultiKeyMap α β γ ν) : Prop :=
  (getN m m.root).isSome = true ∧ nCh2 m m.root = [] ∧ nCh3 m m.root = [] ∧
  (dataQ m m.root).isNone = true ∧ nParent m m.root = none ∧ keysND (nCh1 m m.root) ∧
  tgtND (nCh1 m m.root) ∧ ∀ e ∈ nCh1 m m.root, ok1 m e.2 e.1

instance decOk0 (m : MultiKeyMap α β γ ν) : Decidable (ok0 m) := by
  unfold ok0; infer_instance

/-- The state invariant of reachable maps: a well-formed trie and an `m_size`
equal to the number of payloads enumerated from the root. -/
def Inv (m : MultiKeyMap α β γ ν) : Prop :=
  ok0 m ∧ m.size = (elems0 m).length

instance decInv (m : MultiKeyMap α β γ ν) : Decidable (Inv m) := by
  unfold Inv; infer_instance

/-! Basic lemmas about the association-list operations. -/

section AListLemmas

variable {κ : Type} [DecidableEq κ]

theorem alook_mem {l : List (κ × Nat)} {k : κ} {j : Nat} (h : alook l k = some j) :
    (k, j) ∈ l := by
  induction l with
  | nil => simp [alook] at h
  | cons e t ih =>
    obtain ⟨k', j'⟩ := e
    by_cases hk : k = k'
    · subst hk
      simp [alook] at h
      simp [h]
    · simp [alook, hk] at h
      exact List.mem_cons_of_mem _ (ih h)

theorem mem_alook {l : List (κ × Nat)} (hnd : keysND l) {k : κ} {j : Nat}
    (h : (k, j) ∈ l) : alook l k = some j := by
  induction l with
  | nil => simp at h
  | cons e t ih =>
    obtain ⟨k', j'⟩ := e
    unfold keysND at hnd
    simp at hnd
    rcases List.mem_cons.mp h with h1 | h1
    · obtain ⟨h2, h3⟩ := Prod.mk.injEq .. ▸ h1
      subst h2; subst h3
      simp [alook]
    · have hk : k ≠ k' := by
        intro he
        subst he
        exact hnd.1 j (by simpa using h1)
      simp [alook, hk]
      exact ih hnd.2 h1

theorem alook_eq_none {l : List (κ × Nat)} {k : κ} :
    alook l k = none ↔ k ∉ l.map Prod.fst := by
  induction l with
  | nil => simp [alook]
  | cons e t ih =>
    obtain ⟨k', j'⟩ := e
    by_cases hk : k = k'
    · subst hk; simp [alook]
    · simp [alook, hk, ih, hk]

theorem alook_aset_self (l : List (κ × Nat)) (k : κ) (n : Nat) :
    alook (aset l k n) k = some n := by
  induction l with
  | nil => simp [aset, alook]
  | cons e t ih =>
    obtain ⟨k', j'⟩ := e
    by_cases hk : k = k'
    · subst hk; simp [aset, alook]
    · simp [aset, hk, alook, ih]

theorem alook_aset_ne (l : List (κ × Nat)) {x k : κ} (n : Nat) (h : x ≠ k) :
    alook (aset l k n) x = alook l x := by
  induction l with
  | nil => simp [aset, alook, h]
  | cons e t ih =>
    obtain ⟨k', j'⟩ := e
    by_cases hk : k = k'
    · subst hk; simp [aset, alook, h]
    · by_cases hx : x = k'
      · subst hx; simp [aset, alook, hk, h]
      · simp [aset, alook, hk, hx, ih]

theorem aset_of_none {l : List (κ × Nat)} {k : κ} (h : alook l k = none) (n : Nat) :
    aset l k n = l ++ [(k, n)] := by
  induction l with
  | nil => simp [aset]
  | cons e t ih =>
    obtain ⟨k', j'⟩ := e
    by_cases hk : k = k'
    · subst hk; simp [alook] at h
    · simp [alook, hk] at h
      simp [aset, hk, ih h]

theorem aerase_sublist (l : List (κ × Nat)) (k : κ) : (aerase l k).Sublist l := by
  induction l with
  | nil => simp [aerase]
  | cons e t ih =>
    obtain ⟨k', j'⟩ := e
    by_cases hk : k = k'
    · subst hk; simp [aerase]
    · simpa [aerase, hk] using ih

theorem mem_aerase {l : List (κ × Nat)} {k : κ} {e : κ × Nat} (h : e ∈ aerase l k) :
    e ∈ l := (aerase_sublist l k).mem h

theorem keysND_aerase {l : List (κ × Nat)} (hnd : keysND l) (k : κ) :
    keysND (aerase l k) := by
  unfold keysND at hnd ⊢
  exact (((aerase_sublist l k).map Prod.fst).nodup hnd)

theorem alook_aerase_ne (l : List (κ × Nat)) {x k : κ} (h : x ≠ k) :
    alook (aerase l k) x = alook l x := by
  induction l with
  | nil => simp [aerase]
  | cons e t ih =>
    obtain ⟨k', j'⟩ := e
    by_cases hk : k = k'
    · subst hk; simp [aerase, alook, h]
    · by_cases hx : x = k'
      · subst hx; simp [aerase, hk, alook]
      · simp [aerase, alook, hk, hx, ih]

theorem alook_aerase_self {l : List (κ × Nat)} (hnd : keysND l) (k : κ) :
    alook (aerase l k) k = none := by
  induction l with
  | nil => simp [aerase, alook]
  | cons e t ih =>
    obtain ⟨k', j'⟩ := e
    unfold keysND at hnd
    simp at hnd
    by_cases hk : k = k'
    · subst hk
      simp [aerase]
      rw [alook_eq_none]
      exact fun hm => by
        rcases List.mem_map.mp hm with ⟨e, he, hfst⟩
        exact hnd.1 e.2 (by simpa [← hfst] using he)
    · simp [aerase, hk, alook, ih hnd.2]

theorem mem_aset {l : List (κ × Nat)} {k : κ} {n : Nat} {e : κ × Nat}
    (h : e ∈ aset l k n) : e ∈ l ∨ e = (k, n) := by
  induction l with
  | nil => simpa [aset] using h
  | cons e' t ih =>
    obtain ⟨k', j'⟩ := e'
    by_cases hk : k = k'
    · subst hk
      simp [aset] at h
      rcases h with h | h
      · right; simp [h]
      · left; exact List.mem_cons_of_mem _ h
    · simp [aset, hk] at h
      rcases h with h | h
      · left; simp [h]
      · rcases ih h with h1 | h1
        · left; exact List.mem_cons_of_mem _ h1
        · right; exact h1

theorem aset_mem_of_mem {l : List (κ × Nat)} {e : κ × Nat} (h : e ∈ l) (k : κ) (n : Nat)
    (hne : e.1 ≠ k) : e ∈ aset l k n := by
  induction l with
  | nil => simp at h
  | cons e' t ih =>
    obtain ⟨k', j'⟩ := e'
    by_cases hk : k = k'
    · subst hk
      simp [aset]
      rcases List.mem_cons.mp h with h1 | h1
      · exact absurd (congrArg Prod.fst h1) hne
      · right; exact h1
    · simp [aset, hk]
      rcases List.mem_cons.mp h with h1 | h1
      · left; exact h1
      · right; exact ih h1

end AListLemmas

/-! Basic lemmas about the node store. -/

section StoreLemmas

variable {α β γ ν : Type} [DecidableEq α] [DecidableEq β] [DecidableEq γ]

theorem getN_lt {m : MultiKeyMap α β γ ν} {i : Nat} {r : Node α β γ ν}
    (h : getN m i = some r) : i < m.nodes.length := by
  unfold getN at h
  exact (List.getElem?_eq_some.mp h).1

theorem getN_setN_self {m : MultiKeyMap α β γ ν} {i : Nat} {r0 : Node α β γ ν}
    (h : getN m i = some r0) (r : Node α β γ ν) : getN (setN m i r) i = some r := by
  unfold getN setN
  simp [List.getElem?_set_self', getN_lt h]

theorem getN_setN_ne (m : MultiKeyMap α β γ ν) (r : Node α β γ ν) {i j : Nat}
    (h : i ≠ j) : getN (setN m i r) j = getN m j := by
  unfold getN setN
  simp [List.getElem?_set_ne h]

theorem setN_root (m : MultiKeyMap α β γ ν) (i : Nat) (r : Node α β γ ν) :
    (setN m i r).root = m.root := rfl

theorem setN_size (m : MultiKeyMap α β γ ν) (i : Nat) (r : Node α β γ ν) :
    (setN m i r).size = m.size := rfl

theorem setN_length (m : MultiKeyMap α β γ ν) (i : Nat) (r : Node α β γ ν) :
    (setN m i r).nodes.length = m.nodes.length := by
  unfold setN
  simp

theorem getN_newChild_old {m : MultiKeyMap α β γ ν} {j : Nat} {r : Node α β γ ν}
    (p : Option Nat) (h : getN m j = some r) : getN (newChild m p) j = some r := by
  have hl := getN_lt h
  unfold getN newChild
  unfold getN at h
  simpa [List.getElem?_append_left hl] using h

theorem getN_newChild_fresh (m : MultiKeyMap α β γ ν) (p : Option Nat) :
    getN (newChild m p) m.nodes.length = some { emptyNode with parent := p } := by
  unfold getN newChild
  rw [List.getElem?_append_right (Nat.le_refl _)]
  simp

theorem newChild_root (m : MultiKeyMap α β γ ν) (p : Option Nat) :
    (newChild m p).root = m.root := rfl

theorem newChild_size (m : MultiKeyMap α β γ ν) (p : Option Nat) :
    (newChild m p).size = m.size := rfl

theorem newChild_length (m : MultiKeyMap α β γ ν) (p : Option Nat) :
    (newChild m p).nodes.length = m.nodes.length + 1 := by
  unfold newChild
  simp

theorem getN_modN_self {m : MultiKeyMap α β γ ν} {i : Nat} {r : Node α β γ ν}
    (h : getN m i = some r) (f : Node α β γ ν → Node α β γ ν) :
    getN (modN m i f) i = some (f r) := by
  unfold modN
  rw [h]
  exact getN_setN_self h (f r)

theorem getN_modN_ne (m : MultiKeyMap α β γ ν) (f : Node α β γ ν → Node α β γ ν) {i j : Nat}
    (h : i ≠ j) : getN (modN m i f) j = getN m j := by
  unfold modN
  cases hg : getN m i with
  | none => rfl
  | some r => exact getN_setN_ne m (f r) h

theorem modN_root (m : MultiKeyMap α β γ ν) (i : Nat) (f : Node α β γ ν → Node α β γ ν) :
    (modN m i f).root = m.root := by
  unfold modN
  cases getN m i <;> rfl

theorem modN_size (m : MultiKeyMap α β γ ν) (i : Nat) (f : Node α β γ ν → Node α β γ ν) :
    (modN m i f).size = m.size := by
  unfold modN
  cases getN m i <;> rfl

theorem modN_length (m : MultiKeyMap α β γ ν) (i : Nat) (f : Node α β γ ν → Node α β γ ν) :
    (modN m i f).nodes.length = m.nodes.length := by
  unfold modN
  cases getN m i with
  | none => rfl
  | some r => exact setN_length m i (f r)

theorem nCh1_congr {m m' : MultiKeyMap α β γ ν} {i : Nat} (h : getN m' i = getN m i) :
    nCh1 m' i = nCh1 m i := by unfold nCh1; rw [h]

theorem nCh2_congr {m m' : MultiKeyMap α β γ ν} {i : Nat} (h : getN m' i = getN m i) :
    nCh2 m' i = nCh2 m i := by unfold nCh2; rw [h]

theorem nCh3_congr {m m' : MultiKeyMap α β γ ν} {i : Nat} (h : getN m' i = getN m i) :
    nCh3 m' i = nCh3 m i := by unfold nCh3; rw [h]

theorem dataQ_congr {m m' : MultiKeyMap α β γ ν} {i : Nat} (h : getN m' i = getN m i) :
    dataQ m' i = dataQ m i := by unfold dataQ; rw [h]

theorem nParent_congr {m m' : MultiKeyMap α β γ ν} {i : Nat} (h : getN m' i = getN m i) :
    nParent m' i = nParent m i := by unfold nParent; rw [h]

theorem nKey_congr {m m' : MultiKeyMap α β γ ν} {i : Nat} (h : getN m' i = getN m i) :
    nKey m' i = nKey m i := by unfold nKey; rw [dataQ_congr h]

theorem ok3_congr {m m' : MultiKeyMap α β γ ν} {p i : Nat} {a : α} {b : β} {c : γ}
    (h : getN m' i = getN m i) (hk : ok3 m p i a b c) : ok3 m' p i a b c := by
  unfold ok3 at hk ⊢
  rw [h, nCh1_congr h, nCh2_congr h, nCh3_congr h, nParent_congr h, nKey_congr h]
  exact hk

theorem ok2_congr {m m' : MultiKeyMap α β γ ν} {p i : Nat} {a : α} {b : β}
    (h : getN m' i = getN m i) (hc : ∀ e ∈ nCh3 m i, getN m' e.2 = getN m e.2)
    (hk : ok2 m p i a b) : ok2 m' p i a b := by
  unfold ok2 at hk ⊢
  rw [h, nCh1_congr h, nCh2_congr h, nCh3_congr h, nParent_congr h, dataQ_congr h]
  obtain ⟨h1, h2, h3, h4, h5, h6, h7⟩ := hk
  exact ⟨h1, h2, h3, h4, h5, h6, fun e he => ok3_congr (hc e he) (h7 e he)⟩

theorem ok1_congr {m m' : MultiKeyMap α β γ ν} {i : Nat} {a : α}
    (h : getN m' i = getN m i)
    (hc : ∀ e ∈ nCh2 m i, getN m' e.2 = getN m e.2 ∧
      ∀ e3 ∈ nCh3 m e.2, getN m' e3.2 = getN m e3.2)
    (hk : ok1 m i a) : ok1 m' i a := by
  unfold ok1 at hk ⊢
  rw [h, nCh1_congr h, nCh2_congr h, nCh3_congr h, nParent_congr h, dataQ_congr h]
  obtain ⟨h1, h2, h3, h4, h5, h6, h7, h8⟩ := hk
  exact ⟨h1, h2, h3, h4, h5, h6, h7,
    fun e he => ok2_congr (hc e he).1 (hc e he).2 (h8 e he)⟩

theorem elems2_congr {m m' : MultiKeyMap α β γ ν} {i : Nat}
    (h : getN m' i = getN m i) (hc : ∀ e ∈ nCh3 m i, getN m' e.2 = getN m e.2) :
    elems2 m' i = elems2 m i := by
  unfold elems2
  rw [nCh3_congr h]
  apply List.flatMap_congr  -- congruence over the reversed child list
  intro e he
  rw [dataQ_congr (hc e (List.mem_reverse.mp he))]

theorem elems1_congr {m m' : MultiKeyMap α β γ ν} {i : Nat}
    (h : getN m' i = getN m i)
    (hc : ∀ e ∈ nCh2 m i, getN m' e.2 = getN m e.2 ∧
      ∀ e3 ∈ nCh3 m e.2, getN m' e3.2 = getN m e3.2) :
    elems1 m' i = elems1 m i := by
  unfold elems1
  rw [nCh2_congr h]
  apply List.flatMap_congr
  intro e he
  exact elems2_congr (hc e (List.mem_reverse.mp he)).1 (hc e (List.mem_reverse.mp he)).2

end StoreLemmas

/-! Lemmas about the lookup walk and the iterator traversal. -/

section WalkLemmas

variable {α β γ ν : Type} [DecidableEq α] [DecidableEq β] [DecidableEq γ]

theorem chain1 {m : MultiKeyMap α β γ ν} (h0 : ok0 m) {a : α} {j : Nat}
    (h : child1 m m.root a = some j) : ok1 m j a := by
  obtain ⟨-, -, -, -, -, -, -, hall⟩ := h0
  exact hall (a, j) (alook_mem h)

theorem chain2 {m : MultiKeyMap α β γ ν} {j : Nat} {a : α} (h1 : ok1 m j a) {b : β} {k : Nat}
    (h : child2 m j b = some k) : ok2 m j k a b := by
  obtain ⟨-, -, -, -, -, -, -, hall⟩ := h1
  exact hall (b, k) (alook_mem h)

theorem chain3 {m : MultiKeyMap α β γ ν} {p k : Nat} {a : α} {b : β} (h2 : ok2 m p k a b)
    {c : γ} {l : Nat} (h : child3 m k c = some l) : ok3 m k l a b c := by
  obtain ⟨-, -, -, -, -, -, hall⟩ := h2
  exact hall (c, l) (alook_mem h)

theorem drainF_nil (m : MultiKeyMap α β γ ν) (f : Nat) : drainF m f [] = [] := by
  cases f <;> rfl

theorem drainF_succ_some {m : MultiKeyMap α β γ ν} {i : Nat} {kv : (α × β × γ) × ν}
    (h : dataQ m i = some kv) (f : Nat) (rest : List Nat) :
    drainF m (f + 1) (i :: rest) = kv :: drainF m f (pushKids m i rest) := by
  show (match dataQ m i with
    | some kv => kv :: drainF m f (pushKids m i rest)
    | none => drainF m f (pushKids m i rest)) = kv :: drainF m f (pushKids m i rest)
  rw [h]

theorem drainF_succ_none {m : MultiKeyMap α β γ ν} {i : Nat}
    (h : dataQ m i = none) (f : Nat) (rest : List Nat) :
    drainF m (f + 1) (i :: rest) = drainF m f (pushKids m i rest) := by
  show (match dataQ m i with
    | some kv => kv :: drainF m f (pushKids m i rest)
    | none => drainF m f (pushKids m i rest)) = drainF m f (pushKids m i rest)
  rw [h]

theorem skipF_nil (m : MultiKeyMap α β γ ν) (f : Nat) : skipF m f [] = [] := by
  cases f <;> rfl

theorem skipF_succ_some {m : MultiKeyMap α β γ ν} {i : Nat} {kv : (α × β × γ) × ν}
    (h : dataQ m i = some kv) (f : Nat) (rest : List Nat) :
    skipF m (f + 1) (i :: rest) = i :: rest := by
  show (match dataQ m i with
    | some _ => i :: rest
    | none => skipF m f (pushKids m i rest)) = i :: rest
  rw [h]

theorem skipF_succ_none {m : MultiKeyMap α β γ ν} {i : Nat}
    (h : dataQ m i = none) (f : Nat) (rest : List Nat) :
    skipF m (f + 1) (i :: rest) = skipF m f (pushKids m i rest) := by
  show (match dataQ m i with
    | some _ => i :: rest
    | none => skipF m f (pushKids m i rest)) = skipF m f (pushKids m i rest)
  rw [h]

theorem dataQ_of_ok3 {m : MultiKeyMap α β γ ν} {p i : Nat} {a : α} {b : β} {c : γ}
    (h : ok3 m p i a b c) : ∃ v, dataQ m i = some ((a, b, c), v) := by
  obtain ⟨-, -, -, -, -, hkey⟩ := h
  unfold nKey at hkey
  cases hd : dataQ m i with
  | none => rw [hd] at hkey; simp at hkey
  | some kv =>
    obtain ⟨k1, v⟩ := kv
    rw [hd] at hkey
    simp at hkey
    subst hkey
    exact ⟨v, rfl⟩

theorem chTargets_of_ok3 {m : MultiKeyMap α β γ ν} {p i : Nat} {a : α} {b : β} {c : γ}
    (h : ok3 m p i a b c) : chTargets m i = [] := by
  obtain ⟨-, h1, h2, h3, -, -⟩ := h
  unfold chTargets
  rw [h1, h2, h3]
  simp

theorem drain3 {m : MultiKeyMap α β γ ν} {p i : Nat} {a : α} {b : β} {c : γ}
    (h : ok3 m p i a b c) (f : Nat) (rest : List Nat) :
    drainF m (f + 1) (i :: rest) = (dataQ m i).toList ++ drainF m f rest := by
  obtain ⟨v, hv⟩ := dataQ_of_ok3 h
  rw [drainF_succ_some hv]
  unfold pushKids
  rw [chTargets_of_ok3 h, hv]
  simp

theorem drainSeq3 {m : MultiKeyMap α β γ ν} {q : Nat} {a : α} {b : β}
    {l : List (γ × Nat)} (hl : ∀ e ∈ l, ok3 m q e.2 a b e.1) (f : Nat) (rest : List Nat) :
    drainF m (l.length + f) (l.map Prod.snd ++ rest) =
      l.flatMap (fun e => (dataQ m e.2).toList) ++ drainF m f rest := by
  induction l with
  | nil => simp
  | cons e t ih =>
    have he := hl e (List.mem_cons_self e t)
    have ht : ∀ e' ∈ t, ok3 m q e'.2 a b e'.1 := fun e' h' => hl e' (List.mem_cons_of_mem _ h')
    simp only [List.map_cons, List.cons_append, List.length_cons, List.flatMap_cons]
    have harith : t.length + 1 + f = t.length + f + 1 := by omega
    rw [harith, drain3 he (t.length + f), ih ht]
    simp

theorem dataQ_of_ok2 {m : MultiKeyMap α β γ ν} {p i : Nat} {a : α} {b : β}
    (h : ok2 m p i a b) : dataQ m i = none := by
  obtain ⟨-, -, -, hd, -, -, -⟩ := h
  exact Option.isNone_iff_eq_none.mp hd

theorem chTargets_of_ok2 {m : MultiKeyMap α β γ ν} {p i : Nat} {a : α} {b : β}
    (h : ok2 m p i a b) : chTargets m i = (nCh3 m i).map Prod.snd := by
  obtain ⟨-, h1, h2, -, -, -, -⟩ := h
  unfold chTargets
  rw [h1, h2]
  simp

theorem drain2 {m : MultiKeyMap α β γ ν} {p i : Nat} {a : α} {b : β}
    (h : ok2 m p i a b) (f : Nat) (rest : List Nat) :
    drainF m (need2 m i + f) (i :: rest) = elems2 m i ++ drainF m f rest := by
  have hstep : need2 m i + f = ((nCh3 m i).reverse.length + f) + 1 := by
    unfold need2; simp; omega
  rw [hstep, drainF_succ_none (dataQ_of_ok2 h)]
  unfold pushKids
  rw [chTargets_of_ok2 h, ← List.map_reverse]
  have hrev : ∀ e ∈ (nCh3 m i).reverse, ok3 m i e.2 a b e.1 := by
    intro e he
    obtain ⟨-, -, -, -, -, -, hall⟩ := h
    exact hall e (List.mem_reverse.mp he)
  unfold elems2
  exact drainSeq3 hrev f rest

theorem drainSeq2 {m : MultiKeyMap α β γ ν} {q : Nat} {a : α}
    {l : List (β × Nat)} (hl : ∀ e ∈ l, ok2 m q e.2 a e.1) (f : Nat) (rest : List Nat) :
    drainF m ((l.map (fun e => need2 m e.2)).sum + f) (l.map Prod.snd ++ rest) =
      l.flatMap (fun e => elems2 m e.2) ++ drainF m f rest := by
  induction l with
  | nil => simp
  | cons e t ih =>
    have he := hl e (List.mem_cons_self e t)
    have ht : ∀ e' ∈ t, ok2 m q e'.2 a e'.1 := fun e' h' => hl e' (List.mem_cons_of_mem _ h')
    simp only [List.map_cons, List.cons_append, List.sum_cons, List.flatMap_cons]
    have harith : need2 m e.2 + (t.map (fun e => need2 m e.2)).sum + f =
        need2 m e.2 + ((t.map (fun e => need2 m e.2)).sum + f) := by omega
    rw [harith, drain2 he, ih ht]
    simp

theorem dataQ_of_ok1 {m : MultiKeyMap α β γ ν} {i : Nat} {a : α}
    (h : ok1 m i a) : dataQ m i = none := by
  obtain ⟨-, -, -, hd, -, -, -, -⟩ := h
  exact Option.isNone_iff_eq_none.mp hd

theorem chTargets_of_ok1 {m : MultiKeyMap α β γ ν} {i : Nat} {a : α}
    (h : ok1 m i a) : chTargets m i = (nCh2 m i).map Prod.snd := by
  obtain ⟨-, h1, h3, -, -, -, -, -⟩ := h
  unfold chTargets
  rw [h1, h3]
  simp

theorem drain1 {m : MultiKeyMap α β γ ν} {i : Nat} {a : α}
    (h : ok1 m i a) (f : Nat) (rest : List Nat) :
    drainF m (need1 m i + f) (i :: rest) = elems1 m i ++ drainF m f rest := by
  have hsum : ((nCh2 m i).reverse.map (fun e => need2 m e.2)).sum =
      ((nCh2 m i).map (fun e => need2 m e.2)).sum := by
    rw [List.map_reverse, List.sum_reverse]
  have hstep : need1 m i + f = (((nCh2 m i).reverse.map (fun e => need2 m e.2)).sum + f) + 1 := by
    unfold need1; rw [hsum]; omega
  rw [hstep, drainF_succ_none (dataQ_of_ok1 h)]
  unfold pushKids
  rw [chTargets_of_ok1 h, ← List.map_reverse]
  have hrev : ∀ e ∈ (nCh2 m i).reverse, ok2 m i e.2 a e.1 := by
    intro e he
    obtain ⟨-, -, -, -, -, -, -, hall⟩ := h
    exact hall e (List.mem_reverse.mp he)
  unfold elems1
  exact drainSeq2 hrev f rest

theorem drainSeq1 {m : MultiKeyMap α β γ ν}
    {l : List (α × Nat)} (hl : ∀ e ∈ l, ok1 m e.2 e.1) (f : Nat) (rest : List Nat) :
    drainF m ((l.map (fun e => need1 m e.2)).sum + f) (l.map Prod.snd ++ rest) =
      l.flatMap (fun e => elems1 m e.2) ++ drainF m f rest := by
  induction l with
  | nil => simp
  | cons e t ih =>
    have he := hl e (List.mem_cons_self e t)
    have ht : ∀ e' ∈ t, ok1 m e'.2 e'.1 := fun e' h' => hl e' (List.mem_cons_of_mem _ h')
    simp only [List.map_cons, List.cons_append, List.sum_cons, List.flatMap_cons]
    have harith : need1 m e.2 + (t.map (fun e => need1 m e.2)).sum + f =
        need1 m e.2 + ((t.map (fun e => need1 m e.2)).sum + f) := by omega
    rw [harith, drain1 he, ih ht]
    simp

theorem dataQ_of_ok0 {m : MultiKeyMap α β γ ν} (h : ok0 m) : dataQ m m.root = none := by
  obtain ⟨-, -, -, hd, -, -, -, -⟩ := h
  exact Option.isNone_iff_eq_none.mp hd

theorem chTargets_of_ok0 {m : MultiKeyMap α β γ ν} (h : ok0 m) :
    chTargets m m.root = (nCh1 m m.root).map Prod.snd := by
  obtain ⟨-, h2, h3, -, -, -, -, -⟩ := h
  unfold chTargets
  rw [h2, h3]
  simp

theorem drain0 {m : MultiKeyMap α β γ ν} (h : ok0 m) (f : Nat) (rest : List Nat) :
    drainF m (need0 m + f) (m.root :: rest) = elems0 m ++ drainF m f rest := by
  have hsum : ((nCh1 m m.root).reverse.map (fun e => need1 m e.2)).sum =
      ((nCh1 m m.root).map (fun e => need1 m e.2)).sum := by
    rw [List.map_reverse, List.sum_reverse]
  have hstep : need0 m + f =
      (((nCh1 m m.root).reverse.map (fun e => need1 m e.2)).sum + f) + 1 := by
    unfold need0; rw [hsum]; omega
  rw [hstep, drainF_succ_none (dataQ_of_ok0 h)]
  unfold pushKids
  rw [chTargets_of_ok0 h, ← List.map_reverse]
  have hrev : ∀ e ∈ (nCh1 m m.root).reverse, ok1 m e.2 e.1 := by
    intro e he
    obtain ⟨-, -, -, -, -, -, -, hall⟩ := h
    exact hall e (List.mem_reverse.mp he)
  unfold elems0
  exact drainSeq1 hrev f rest

theorem rootElems_eq {m : MultiKeyMap α β γ ν} (h : ok0 m) : rootElems m = elems0 m := by
  unfold rootElems iterFuel
  have := drain0 h 1 []
  rw [this, drainF_nil]
  simp

theorem need1_le_need0 {m : MultiKeyMap α β γ ν} {a : α} {j : Nat}
    (h : (a, j) ∈ nCh1 m m.root) : need1 m j ≤ need0 m := by
  unfold need0
  have : need1 m j ∈ (nCh1 m m.root).map (fun e => need1 m e.2) :=
    List.mem_map.mpr ⟨(a, j), h, rfl⟩
  have := List.single_le_sum (fun x _ => Nat.zero_le x) _ this
  omega

theorem need2_le_need1 {m : MultiKeyMap α β γ ν} {b : β} {j k : Nat}
    (h : (b, k) ∈ nCh2 m j) : need2 m k ≤ need1 m j := by
  unfold need1
  have : need2 m k ∈ (nCh2 m j).map (fun e => need2 m e.2) :=
    List.mem_map.mpr ⟨(b, k), h, rfl⟩
  have := List.single_le_sum (fun x _ => Nat.zero_le x) _ this
  omega

theorem drain_full1 {m : MultiKeyMap α β γ ν} {a : α} {j : Nat}
    (hj : (a, j) ∈ nCh1 m m.root) (h : ok1 m j a) :
    drainF m (iterFuel m) [j] = elems1 m j := by
  have hle : need1 m j ≤ iterFuel m :=
    Nat.le_trans (need1_le_need0 hj) (Nat.le_succ _)
  have harith : iterFuel m = need1 m j + (iterFuel m - need1 m j) :=
    (Nat.add_sub_cancel' hle).symm
  rw [harith]
  have := drain1 h (iterFuel m - need1 m j) []
  rw [this, drainF_nil]
  simp

theorem drain_full2 {m : MultiKeyMap α β γ ν} {a : α} {b : β} {j k : Nat}
    (hj : (a, j) ∈ nCh1 m m.root) (hk : (b, k) ∈ nCh2 m j) (h : ok2 m j k a b) :
    drainF m (iterFuel m) [k] = elems2 m k := by
  have hle : need2 m k ≤ iterFuel m :=
    Nat.le_trans (need2_le_need1 hk) (Nat.le_trans (need1_le_need0 hj) (Nat.le_succ _))
  have harith : iterFuel m = need2 m k + (iterFuel m - need2 m k) :=
    (Nat.add_sub_cancel' hle).symm
  rw [harith]
  have := drain2 h (iterFuel m - need2 m k) []
  rw [this, drainF_nil]
  simp

theorem drain_full3 {m : MultiKeyMap α β γ ν} {p i : Nat} {a : α} {b : β} {c : γ}
    (h : ok3 m p i a b c) : drainF m (iterFuel m) [i] = (dataQ m i).toList := by
  have h1 : iterFuel m = (iterFuel m - 1) + 1 := by
    unfold iterFuel; omega
  rw [h1, drain3 h (iterFuel m - 1) [], drainF_nil]
  simp

end WalkLemmas

/-! Characterization of the enumerations in terms of the structural lookup. -/

section MemLemmas

variable {α β γ ν : Type} [DecidableEq α] [DecidableEq β] [DecidableEq γ]

theorem key_of_dataQ {m : MultiKeyMap α β γ ν} {p i : Nat} {a : α} {b : β} {c : γ}
    {kv : (α × β × γ) × ν} (h : ok3 m p i a b c) (hd : dataQ m i = some kv) :
    kv.1 = (a, b, c) := by
  obtain ⟨v, hv⟩ := dataQ_of_ok3 h
  rw [hv] at hd
  cases hd
  rfl

theorem mem_elems2 {m : MultiKeyMap α β γ ν} {p i : Nat} {a : α} {b : β}
    (h : ok2 m p i a b) (kv : (α × β × γ) × ν) :
    kv ∈ elems2 m i ↔
      kv.1.1 = a ∧ kv.1.2.1 = b ∧ (child3 m i kv.1.2.2).bind (dataQ m) = some kv := by
  obtain ⟨-, -, -, -, -, hnd, hall⟩ := h
  unfold elems2
  rw [List.mem_flatMap]
  constructor
  · rintro ⟨e, he, hkv⟩
    have he' := List.mem_reverse.mp he
    have h3 := hall e he'
    have hd : dataQ m e.2 = some kv := by
      simpa using hkv
    have hk := key_of_dataQ h3 hd
    have ha : kv.1.1 = a := by rw [hk]
    have hb : kv.1.2.1 = b := by rw [hk]
    have hc : kv.1.2.2 = e.1 := by rw [hk]
    refine ⟨ha, hb, ?_⟩
    have hch : child3 m i kv.1.2.2 = some e.2 := by
      rw [hc]
      exact mem_alook hnd (by simpa using he')
    rw [hch]
    simpa using hd
  · rintro ⟨ha, hb, hch⟩
    rw [Option.bind_eq_some] at hch
    obtain ⟨l, hl, hd⟩ := hch
    refine ⟨(kv.1.2.2, l), List.mem_reverse.mpr (alook_mem hl), ?_⟩
    simpa using hd

theorem mem_elems1 {m : MultiKeyMap α β γ ν} {j : Nat} {a : α}
    (h : ok1 m j a) (kv : (α × β × γ) × ν) :
    kv ∈ elems1 m j ↔
      kv.1.1 = a ∧
        ((child2 m j kv.1.2.1).bind (fun k => child3 m k kv.1.2.2)).bind (dataQ m) =
          some kv := by
  obtain ⟨-, -, -, -, -, hnd, -, hall⟩ := h
  unfold elems1
  rw [List.mem_flatMap]
  constructor
  · rintro ⟨e, he, hkv⟩
    have he' := List.mem_reverse.mp he
    have h2 := hall e he'
    rw [mem_elems2 h2 kv] at hkv
    obtain ⟨ha, hb, hch⟩ := hkv
    refine ⟨ha, ?_⟩
    have hch2 : child2 m j kv.1.2.1 = some e.2 := by
      rw [hb]
      exact mem_alook hnd (by simpa using he')
    rw [hch2]
    simpa using hch
  · rintro ⟨ha, hch⟩
    rw [Option.bind_eq_some] at hch
    obtain ⟨l, hl, hd⟩ := hch
    rw [Option.bind_eq_some] at hl
    obtain ⟨k, hk, hl3⟩ := hl
    have he' : (kv.1.2.1, k) ∈ nCh2 m j := alook_mem hk
    have h2 := hall _ he'
    refine ⟨(kv.1.2.1, k), List.mem_reverse.mpr he', ?_⟩
    rw [mem_elems2 h2 kv]
    refine ⟨ha, rfl, ?_⟩
    rw [hl3]
    simpa using hd

theorem findNode_fullK (m : MultiKeyMap α β γ ν) (k : α × β × γ) :
    findNode m (fullK k) =
      ((child1 m m.root k.1).bind (fun i => child2 m i k.2.1)).bind
        (fun i => child3 m i k.2.2) := rfl

theorem mem_elems0 {m : MultiKeyMap α β γ ν} (h : ok0 m) (kv : (α × β × γ) × ν) :
    kv ∈ elems0 m ↔ (findNode m (fullK kv.1)).bind (dataQ m) = some kv := by
  have hnd : keysND (nCh1 m m.root) := by
    obtain ⟨-, -, -, -, -, hnd, -, -⟩ := h
    exact hnd
  have hall : ∀ e ∈ nCh1 m m.root, ok1 m e.2 e.1 := by
    obtain ⟨-, -, -, -, -, -, -, hall⟩ := h
    exact hall
  unfold elems0
  rw [List.mem_flatMap, findNode_fullK]
  constructor
  · rintro ⟨e, he, hkv⟩
    have he' := List.mem_reverse.mp he
    have h1 := hall e he'
    rw [mem_elems1 h1 kv] at hkv
    obtain ⟨ha, hch⟩ := hkv
    have hch1 : child1 m m.root kv.1.1 = some e.2 := by
      rw [ha]
      exact mem_alook hnd (by simpa using he')
    rw [hch1]
    simpa using hch
  · intro hch
    rw [Option.bind_eq_some] at hch
    obtain ⟨i3, hfi, hd⟩ := hch
    rw [Option.bind_eq_some] at hfi
    obtain ⟨k2, h12, h3⟩ := hfi
    rw [Option.bind_eq_some] at h12
    obtain ⟨j, h1c, h2c⟩ := h12
    have he' : (kv.1.1, j) ∈ nCh1 m m.root := alook_mem h1c
    have h1 := hall _ he'
    refine ⟨(kv.1.1, j), List.mem_reverse.mpr he', ?_⟩
    rw [mem_elems1 h1 kv]
    refine ⟨rfl, ?_⟩
    rw [Option.bind_eq_some]
    exact ⟨i3, by rw [Option.bind_eq_some]; exact ⟨k2, h2c, h3⟩, hd⟩

theorem findNode3_ok {m : MultiKeyMap α β γ ν} (h0 : ok0 m) {a : α} {b : β} {c : γ} {i : Nat}
    (h : findNode m (.k3 a b c) = some i) :
    ∃ j k, child1 m m.root a = some j ∧ child2 m j b = some k ∧ child3 m k c = some i ∧
      ok1 m j a ∧ ok2 m j k a b ∧ ok3 m k i a b c := by
  unfold findNode at h
  rw [Option.bind_eq_some] at h
  obtain ⟨k, hk, hd⟩ := h
  rw [Option.bind_eq_some] at hk
  obtain ⟨j, hj, hk2⟩ := hk
  have h1 := chain1 h0 hj
  have h2 := chain2 h1 hk2
  have h3 := chain3 h2 hd
  exact ⟨j, k, hj, hk2, hd, h1, h2, h3⟩

theorem bindChain_iff {m : MultiKeyMap α β γ ν} (h0 : ok0 m) (k : α × β × γ)
    (kv : (α × β × γ) × ν) :
    (findNode m (fullK k)).bind (dataQ m) = some kv ↔
      kv.1 = k ∧ mlookup m k = some kv.2 := by
  constructor
  · intro h
    rw [Option.bind_eq_some] at h
    obtain ⟨i, hi, hd⟩ := h
    obtain ⟨a0, b0, c0⟩ := k
    obtain ⟨j, kk, -, -, -, -, -, h3⟩ := findNode3_ok h0 hi
    have hk := key_of_dataQ h3 hd
    refine ⟨hk, ?_⟩
    unfold mlookup
    rw [hi]
    simp [hd]
  · rintro ⟨hk, hl⟩
    unfold mlookup at hl
    rw [Option.map_eq_some'] at hl
    obtain ⟨kv0, hch, hv⟩ := hl
    rw [Option.bind_eq_some] at hch
    obtain ⟨i, hi, hd⟩ := hch
    obtain ⟨a0, b0, c0⟩ := k
    obtain ⟨j, kk, -, -, -, -, -, h3⟩ := findNode3_ok h0 hi
    have hk0 := key_of_dataQ h3 hd
    have : kv0 = kv := by
      apply Prod.ext
      · rw [hk0, hk]
      · rw [hv]
    rw [Option.bind_eq_some]
    exact ⟨i, hi, by rw [hd, this]⟩

theorem mem_elems0_mlookup {m : MultiKeyMap α β γ ν} (h : ok0 m) (kv : (α × β × γ) × ν) :
    kv ∈ elems0 m ↔ mlookup m kv.1 = some kv.2 := by
  rw [mem_elems0 h kv, bindChain_iff h kv.1 kv]
  simp

theorem nodup_flatMap_tag {A B T T' : Type} (l : List A) (f : A → List B) (g : B → T)
    (pj : T → T') (tg : A → T')
    (hl : (l.map tg).Nodup)
    (hseg : ∀ a ∈ l, ∀ b ∈ f a, pj (g b) = tg a)
    (hnd : ∀ a ∈ l, ((f a).map g).Nodup) :
    ((l.flatMap f).map g).Nodup := by
  induction l with
  | nil => simp
  | cons x t ih =>
    simp only [List.flatMap_cons, List.map_append, List.map_cons] at *
    obtain ⟨hx, ht⟩ := List.nodup_cons.mp hl
    apply List.Nodup.append
    · exact hnd x (List.mem_cons_self x t)
    · exact ih ht (fun a ha => hseg a (List.mem_cons_of_mem _ ha))
        (fun a ha => hnd a (List.mem_cons_of_mem _ ha))
    · intro u hu1 hu2
      obtain ⟨b, hb, hgb⟩ := List.mem_map.mp hu1
      obtain ⟨b', hb', hgb'⟩ := List.mem_map.mp hu2
      rw [List.mem_flatMap] at hb'
      obtain ⟨a', ha', hbfa⟩ := hb'
      have e1 : pj (g b) = tg x := hseg x (List.mem_cons_self x t) b hb
      have e2 : pj (g b') = tg a' := hseg a' (List.mem_cons_of_mem _ ha') b' hbfa
      apply hx
      have : tg x = tg a' := by
        rw [← e1, ← e2, hgb, hgb']
      rw [this]
      exact List.mem_map.mpr ⟨a', ha', rfl⟩

theorem ndKeys2 {m : MultiKeyMap α β γ ν} {p i : Nat} {a : α} {b : β}
    (h : ok2 m p i a b) : ((elems2 m i).map Prod.fst).Nodup := by
  have hnd : keysND (nCh3 m i) := by
    obtain ⟨-, -, -, -, -, hnd, -⟩ := h
    exact hnd
  have hall : ∀ e ∈ nCh3 m i, ok3 m i e.2 a b e.1 := by
    obtain ⟨-, -, -, -, -, -, hall⟩ := h
    exact hall
  unfold elems2
  apply nodup_flatMap_tag _ _ _ (fun k : α × β × γ => k.2.2) (fun e => e.1)
  · rw [show (nCh3 m i).reverse.map (fun e => e.1) = ((nCh3 m i).map Prod.fst).reverse by
      rw [← List.map_reverse]]
    exact List.nodup_reverse.mpr hnd
  · intro e he kv hkv
    have he' := List.mem_reverse.mp he
    have h3 := hall e he'
    have hd : dataQ m e.2 = some kv := by simpa using hkv
    have hk := key_of_dataQ h3 hd
    rw [hk]
  · intro e he
    cases hd : dataQ m e.2 <;> simp

theorem ndKeys1 {m : MultiKeyMap α β γ ν} {j : Nat} {a : α}
    (h : ok1 m j a) : ((elems1 m j).map Prod.fst).Nodup := by
  have hnd : keysND (nCh2 m j) := by
    obtain ⟨-, -, -, -, -, hnd, -, -⟩ := h
    exact hnd
  have hall : ∀ e ∈ nCh2 m j, ok2 m j e.2 a e.1 := by
    obtain ⟨-, -, -, -, -, -, -, hall⟩ := h
    exact hall
  unfold elems1
  apply nodup_flatMap_tag _ _ _ (fun k : α × β × γ => k.2.1) (fun e => e.1)
  · rw [show (nCh2 m j).reverse.map (fun e => e.1) = ((nCh2 m j).map Prod.fst).reverse by
      rw [← List.map_reverse]]
    exact List.nodup_reverse.mpr hnd
  · intro e he kv hkv
    have he' := List.mem_reverse.mp he
    have h2 := hall e he'
    rw [mem_elems2 h2 kv] at hkv
    exact hkv.2.1
  · intro e he
    exact ndKeys2 (hall e (List.mem_reverse.mp he))

theorem ndKeys0 {m : MultiKeyMap α β γ ν} (h : ok0 m) :
    ((elems0 m).map Prod.fst).Nodup := by
  have hnd : keysND (nCh1 m m.root) := by
    obtain ⟨-, -, -, -, -, hnd, -, -⟩ := h
    exact hnd
  have hall : ∀ e ∈ nCh1 m m.root, ok1 m e.2 e.1 := by
    obtain ⟨-, -, -, -, -, -, -, hall⟩ := h
    exact hall
  unfold elems0
  apply nodup_flatMap_tag _ _ _ (fun k : α × β × γ => k.1) (fun e => e.1)
  · rw [show (nCh1 m m.root).reverse.map (fun e => e.1) =
        ((nCh1 m m.root).map Prod.fst).reverse by
      rw [← List.map_reverse]]
    exact List.nodup_reverse.mpr hnd
  · intro e he kv hkv
    have he' := List.mem_reverse.mp he
    have h1 := hall e he'
    rw [mem_elems1 h1 kv] at hkv
    exact hkv.1
  · intro e he
    exact ndKeys1 (hall e (List.mem_reverse.mp he))

theorem matchesK3_iff (a : α) (b : β) (c : γ) (k : α × β × γ) :
    matchesK (.k3 a b c) k ↔ k = (a, b, c) := by
  obtain ⟨x, y, z⟩ := k
  unfold matchesK
  simp only [Prod.mk.injEq]

theorem findNode_k1 (m : MultiKeyMap α β γ ν) (a : α) :
    findNode m (.k1 a) = child1 m m.root a := rfl

theorem findNode_k2 (m : MultiKeyMap α β γ ν) (a : α) (b : β) :
    findNode m (.k2 a b) = (child1 m m.root a).bind (fun i => child2 m i b) := rfl

theorem findNode_k3 (m : MultiKeyMap α β γ ν) (a : α) (b : β) (c : γ) :
    findNode m (.k3 a b c) =
      ((child1 m m.root a).bind (fun i => child2 m i b)).bind (fun i => child3 m i c) := rfl

theorem findElems_of_none {m : MultiKeyMap α β γ ν} {p : PKey α β γ}
    (h : findNode m p = none) : findElems m p = [] := by
  unfold findElems
  rw [h]

theorem findElems_of_some {m : MultiKeyMap α β γ ν} {p : PKey α β γ} {i : Nat}
    (h : findNode m p = some i) : findElems m p = drainF m (iterFuel m) [i] := by
  unfold findElems
  rw [h]

theorem findStack_of_none {m : MultiKeyMap α β γ ν} {p : PKey α β γ}
    (h : findNode m p = none) : findStack m p = [] := by
  unfold findStack
  rw [h]

theorem findStack_of_some {m : MultiKeyMap α β γ ν} {p : PKey α β γ} {i : Nat}
    (h : findNode m p = some i) : findStack m p = skipF m (iterFuel m) [i] := by
  unfold findStack
  rw [h]

/-- Membership in the enumeration of `find(p)`, in terms of the structural
lookup: exactly the stored pairs whose key has `p` as a leading prefix. -/
theorem mem_findElems {m : MultiKeyMap α β γ ν} (h0 : ok0 m) (p : PKey α β γ)
    (kv : (α × β × γ) × ν) :
    kv ∈ findElems m p ↔ mlookup m kv.1 = some kv.2 ∧ matchesK p kv.1 := by
  cases p with
  | k1 a =>
    cases hc : child1 m m.root a with
    | none =>
      rw [findElems_of_none (by rw [findNode_k1, hc])]
      simp only [List.not_mem_nil, false_iff]
      rintro ⟨hl, hm⟩
      unfold matchesK at hm
      unfold mlookup at hl
      rw [findNode_fullK, hm, hc] at hl
      simp at hl
    | some j =>
      have h1 := chain1 h0 hc
      have hj : (a, j) ∈ nCh1 m m.root := alook_mem hc
      rw [findElems_of_some (by rw [findNode_k1, hc]), drain_full1 hj h1, mem_elems1 h1 kv]
      unfold matchesK
      constructor
      · rintro ⟨ha, hch⟩
        have hroot : (findNode m (fullK kv.1)).bind (dataQ m) = some kv := by
          rw [findNode_fullK, ha, hc]
          simpa using hch
        exact ⟨((bindChain_iff h0 kv.1 kv).mp hroot).2, ha⟩
      · rintro ⟨hl, ha⟩
        refine ⟨ha, ?_⟩
        have hroot := (bindChain_iff h0 kv.1 kv).mpr ⟨rfl, hl⟩
        rw [findNode_fullK, ha, hc] at hroot
        simpa using hroot
  | k2 a b =>
    cases hc : child1 m m.root a with
    | none =>
      rw [findElems_of_none (by rw [findNode_k2, hc]; rfl)]
      simp only [List.not_mem_nil, false_iff]
      rintro ⟨hl, hm⟩
      obtain ⟨hma, hmb⟩ := hm
      unfold mlookup at hl
      rw [findNode_fullK, hma, hc] at hl
      simp at hl
    | some j =>
      have h1 := chain1 h0 hc
      cases hc2 : child2 m j b with
      | none =>
        rw [findElems_of_none (by rw [findNode_k2, hc]; simpa using hc2)]
        simp only [List.not_mem_nil, false_iff]
        rintro ⟨hl, hm⟩
        obtain ⟨hma, hmb⟩ := hm
        unfold mlookup at hl
        rw [findNode_fullK, hma, hmb, hc] at hl
        simp only [Option.some_bind] at hl
        rw [hc2] at hl
        simp at hl
      | some k =>
        have h2 := chain2 h1 hc2
        have hj : (a, j) ∈ nCh1 m m.root := alook_mem hc
        have hk : (b, k) ∈ nCh2 m j := alook_mem hc2
        rw [findElems_of_some (by rw [findNode_k2, hc]; simpa using hc2),
          drain_full2 hj hk h2, mem_elems2 h2 kv]
        unfold matchesK
        constructor
        · rintro ⟨ha, hb, hch⟩
          have hroot : (findNode m (fullK kv.1)).bind (dataQ m) = some kv := by
            rw [findNode_fullK, ha, hb, hc]
            simp only [Option.some_bind]
            rw [hc2]
            simpa using hch
          exact ⟨((bindChain_iff h0 kv.1 kv).mp hroot).2, ha, hb⟩
        · rintro ⟨hl, ha, hb⟩
          refine ⟨ha, hb, ?_⟩
          have hroot := (bindChain_iff h0 kv.1 kv).mpr ⟨rfl, hl⟩
          rw [findNode_fullK, ha, hb, hc] at hroot
          simp only [Option.some_bind] at hroot
          rw [hc2] at hroot
          simpa using hroot
  | k3 a b c =>
    cases hf : findNode m (.k3 a b c) with
    | none =>
      rw [findElems_of_none hf]
      simp only [List.not_mem_nil, false_iff]
      rintro ⟨hl, hm⟩
      rw [matchesK3_iff] at hm
      unfold mlookup at hl
      rw [show fullK kv.1 = PKey.k3 a b c by rw [hm]; rfl, hf] at hl
      simp at hl
    | some i =>
      obtain ⟨j, k, -, -, -, -, -, h3⟩ := findNode3_ok h0 hf
      rw [findElems_of_some hf, drain_full3 h3]
      constructor
      · intro hkv
        have hd : dataQ m i = some kv := by simpa using hkv
        have hk := key_of_dataQ h3 hd
        have hroot : (findNode m (fullK kv.1)).bind (dataQ m) = some kv := by
          rw [show fullK kv.1 = PKey.k3 a b c by rw [hk]; rfl, hf]
          simpa using hd
        exact ⟨((bindChain_iff h0 kv.1 kv).mp hroot).2, by rw [matchesK3_iff]; exact hk⟩
      · rintro ⟨hl, hm⟩
        rw [matchesK3_iff] at hm
        have hroot := (bindChain_iff h0 kv.1 kv).mpr ⟨rfl, hl⟩
        rw [show fullK kv.1 = PKey.k3 a b c by rw [hm]; rfl, hf] at hroot
        simpa using hroot

/-- The keys enumerated by `find(p)` are pairwise distinct. -/
theorem ndKeys_findElems {m : MultiKeyMap α β γ ν} (h0 : ok0 m) (p : PKey α β γ) :
    ((findElems m p).map Prod.fst).Nodup := by
  cases p with
  | k1 a =>
    cases hc : child1 m m.root a with
    | none =>
      rw [findElems_of_none (by rw [findNode_k1, hc])]
      simp
    | some j =>
      have h1 := chain1 h0 hc
      rw [findElems_of_some (by rw [findNode_k1, hc]), drain_full1 (alook_mem hc) h1]
      exact ndKeys1 h1
  | k2 a b =>
    cases hc : child1 m m.root a with
    | none =>
      rw [findElems_of_none (by rw [findNode_k2, hc]; rfl)]
      simp
    | some j =>
      have h1 := chain1 h0 hc
      cases hc2 : child2 m j b with
      | none =>
        rw [findElems_of_none (by rw [findNode_k2, hc]; simpa using hc2)]
        simp
      | some k =>
        have h2 := chain2 h1 hc2
        rw [findElems_of_some (by rw [findNode_k2, hc]; simpa using hc2),
          drain_full2 (alook_mem hc) (alook_mem hc2) h2]
        exact ndKeys2 h2
  | k3 a b c =>
    cases hf : findNode m (.k3 a b c) with
    | none =>
      rw [findElems_of_none hf]
      simp
    | some i =>
      obtain ⟨j, k, -, -, -, -, -, h3⟩ := findNode3_ok h0 hf
      rw [findElems_of_some hf, drain_full3 h3]
      cases dataQ m i <;> simp

end MemLemmas

/-! Lemmas about the creating walk and the states it produces. -/

section StepLemmas

variable {α β γ ν : Type} [DecidableEq α] [DecidableEq β] [DecidableEq γ]

theorem nCh1_of_getN {m : MultiKeyMap α β γ ν} {i : Nat} {r : Node α β γ ν}
    (h : getN m i = some r) : nCh1 m i = r.ch1 := by
  unfold nCh1
  rw [h]
  rfl

theorem nCh2_of_getN {m : MultiKeyMap α β γ ν} {i : Nat} {r : Node α β γ ν}
    (h : getN m i = some r) : nCh2 m i = r.ch2 := by
  unfold nCh2
  rw [h]
  rfl

theorem nCh3_of_getN {m : MultiKeyMap α β γ ν} {i : Nat} {r : Node α β γ ν}
    (h : getN m i = some r) : nCh3 m i = r.ch3 := by
  unfold nCh3
  rw [h]
  rfl

theorem dataQ_of_getN {m : MultiKeyMap α β γ ν} {i : Nat} {r : Node α β γ ν}
    (h : getN m i = some r) : dataQ m i = r.data := by
  unfold dataQ
  rw [h]
  rfl

theorem nParent_of_getN {m : MultiKeyMap α β γ ν} {i : Nat} {r : Node α β γ ν}
    (h : getN m i = some r) : nParent m i = r.parent := by
  unfold nParent
  rw [h]
  rfl

theorem getN_none_of_ge {m : MultiKeyMap α β γ ν} {i : Nat}
    (h : m.nodes.length ≤ i) : getN m i = none := by
  unfold getN
  exact List.getElem?_eq_none h

theorem getN_ne_len {m : MultiKeyMap α β γ ν} {i : Nat} {r : Node α β γ ν}
    (h : getN m i = some r) : i ≠ m.nodes.length :=
  Nat.ne_of_lt (getN_lt h)

theorem ne_of_nParent {m : MultiKeyMap α β γ ν} {x y : Nat}
    (h : nParent m x ≠ nParent m y) : x ≠ y := by
  intro he
  subst he
  exact h rfl

theorem isSome_getN {m : MultiKeyMap α β γ ν} {i : Nat}
    (h : (getN m i).isSome = true) : ∃ r, getN m i = some r := by
  cases hg : getN m i with
  | none => rw [hg] at h; simp at h
  | some r => exact ⟨r, rfl⟩

theorem keysND_aset_of_none {κ : Type} [DecidableEq κ] {l : List (κ × Nat)} {k : κ}
    (hnd : keysND l) (h : alook l k = none) (n : Nat) : keysND (aset l k n) := by
  rw [aset_of_none h]
  unfold keysND at hnd ⊢
  rw [List.map_append]
  simp only [List.map_cons, List.map_nil]
  rw [List.nodup_append]
  refine ⟨hnd, List.nodup_singleton k, ?_⟩
  intro x hx hk
  simp at hk
  subst hk
  exact (alook_eq_none.mp h) hx

theorem tgtND_aset_of_none {κ : Type} [DecidableEq κ] {l : List (κ × Nat)} {k : κ} {n : Nat}
    (hnd : tgtND l) (h : alook l k = none) (hfresh : ∀ e ∈ l, e.2 ≠ n) :
    tgtND (aset l k n) := by
  rw [aset_of_none h]
  unfold tgtND at hnd ⊢
  rw [List.map_append]
  simp only [List.map_cons, List.map_nil]
  rw [List.nodup_append]
  refine ⟨hnd, List.nodup_singleton n, ?_⟩
  intro x hx hn
  simp at hn
  subst hn
  obtain ⟨e, he, hx2⟩ := List.mem_map.mp hx
  exact hfresh e he hx2

theorem length_filter_add {A : Type} (l : List A) (p : A → Bool) :
    (l.filter p).length + (l.filter (fun x => ! p x)).length = l.length := by
  induction l with
  | nil => simp
  | cons x t ih =>
    cases hp : p x <;> simp [List.filter_cons, hp] <;> omega

theorem perm_of_mem_iff {A : Type} {l l' : List A} (h : l.Nodup) (h' : l'.Nodup)
    (hm : ∀ x, x ∈ l ↔ x ∈ l') : l.Perm l' :=
  (List.perm_ext_iff_of_nodup h h').mpr hm

theorem step1_of_some {m : MultiKeyMap α β γ ν} {a : α} {j : Nat}
    (h : child1 m m.root a = some j) : step1 m a = (m, j) := by
  unfold step1
  rw [h]

theorem step1_of_none {m : MultiKeyMap α β γ ν} {a : α}
    (h : child1 m m.root a = none) :
    step1 m a =
      (modN (newChild m none) m.root (fun r => { r with ch1 := aset r.ch1 a m.nodes.length }),
        m.nodes.length) := by
  unfold step1
  rw [h]

theorem step2_of_some {m : MultiKeyMap α β γ ν} {i : Nat} {b : β} {j : Nat}
    (h : child2 m i b = some j) : step2 m i b = (m, j) := by
  unfold step2
  rw [h]

theorem step2_of_none {m : MultiKeyMap α β γ ν} {i : Nat} {b : β}
    (h : child2 m i b = none) :
    step2 m i b =
      (modN (newChild m (some i)) i (fun r => { r with ch2 := aset r.ch2 b m.nodes.length }),
        m.nodes.length) := by
  unfold step2
  rw [h]

theorem step3_of_some {m : MultiKeyMap α β γ ν} {i : Nat} {c : γ} {j : Nat}
    (h : child3 m i c = some j) : step3 m i c = (m, j) := by
  unfold step3
  rw [h]

theorem step3_of_none {m : MultiKeyMap α β γ ν} {i : Nat} {c : γ}
    (h : child3 m i c = none) :
    step3 m i c =
      (modN (newChild m (some i)) i (fun r => { r with ch3 := aset r.ch3 c m.nodes.length }),
        m.nodes.length) := by
  unfold step3
  rw [h]

end StepLemmas

/-! Explicit descriptions of the states produced by `insert` in each of its
four branch shapes: full path present, or first missing component at step 3,
2 or 1. -/

section InsertState

variable {α β γ ν : Type} [DecidableEq α] [DecidableEq β] [DecidableEq γ]

theorem getN_sizeSet (m : MultiKeyMap α β γ ν) (s i : Nat) :
    getN { m with size := s } i = getN m i := rfl

theorem walkCreate3 {m : MultiKeyMap α β γ ν} {a : α} {b : β} {c : γ} {j k : Nat}
    (hc1 : child1 m m.root a = some j) (hc2 : child2 m j b = some k)
    (hc3 : child3 m k c = none) :
    walkCreate m a b c =
      (modN (newChild m (some k)) k (fun r => { r with ch3 := aset r.ch3 c m.nodes.length }),
        m.nodes.length) := by
  unfold walkCreate
  simp only [step1_of_some hc1, step2_of_some hc2, step3_of_none hc3]

theorem insert3_state {m : MultiKeyMap α β γ ν} {a : α} {b : β} {c : γ} (v : ν) {j k : Nat}
    {rk : Node α β γ ν}
    (hc1 : child1 m m.root a = some j) (hc2 : child2 m j b = some k)
    (hc3 : child3 m k c = none) (hrk : getN m k = some rk) :
    insert m (a, b, c) v =
      ({ setN (modN (newChild m (some k)) k
            (fun r => { r with ch3 := aset r.ch3 c m.nodes.length })) m.nodes.length
            ⟨[], [], [], some ((a, b, c), v), some k⟩ with
          size := m.size + 1 }, true) := by
  have hkl : k ≠ m.nodes.length := getN_ne_len hrk
  have hfresh : getN (modN (newChild m (some k)) k
      (fun r => { r with ch3 := aset r.ch3 c m.nodes.length })) m.nodes.length =
      some { emptyNode with parent := some k } := by
    rw [getN_modN_ne _ _ hkl]
    exact getN_newChild_fresh m (some k)
  have hsz : (modN (newChild m (some k)) k
      (fun r => { r with ch3 := aset r.ch3 c m.nodes.length })).size = m.size := by
    rw [modN_size, newChild_size]
  unfold insert
  simp only [walkCreate3 hc1 hc2 hc3, hfresh, hsz]
  rfl

theorem insert2_state {m : MultiKeyMap α β γ ν} {a : α} {b : β} (c : γ) (v : ν) {j : Nat}
    {rj : Node α β γ ν}
    (hc1 : child1 m m.root a = some j) (hc2 : child2 m j b = none)
    (hrj : getN m j = some rj) :
    insert m (a, b, c) v =
      ({ setN (modN (newChild (modN (newChild m (some j)) j
              (fun r => { r with ch2 := aset r.ch2 b m.nodes.length }))
              (some m.nodes.length)) m.nodes.length
            (fun r => { r with ch3 := aset r.ch3 c (m.nodes.length + 1) }))
            (m.nodes.length + 1)
            ⟨[], [], [], some ((a, b, c), v), some m.nodes.length⟩ with
          size := m.size + 1 }, true) := by
  have hjl : j ≠ m.nodes.length := getN_ne_len hrj
  set len := m.nodes.length with hlen
  set m2 := modN (newChild m (some j)) j
      (fun r => { r with ch2 := aset r.ch2 b len }) with hm2
  have hl2 : m2.nodes.length = len + 1 := by
    rw [hm2, modN_length, newChild_length]
  have hg2len : getN m2 len = some { emptyNode with parent := some j } := by
    rw [hm2, getN_modN_ne _ _ hjl]
    exact getN_newChild_fresh m (some j)
  have hc3' : child3 m2 len c = none := by
    unfold child3
    rw [nCh3_of_getN hg2len]
    rfl
  have hW : walkCreate m a b c =
      (modN (newChild m2 (some len)) len
        (fun r => { r with ch3 := aset r.ch3 c (len + 1) }), len + 1) := by
    unfold walkCreate
    simp only [step1_of_some hc1, step2_of_none hc2, ← hlen, ← hm2, step3_of_none hc3', hl2]
  have hll : len ≠ len + 1 := by omega
  have hfresh : getN (modN (newChild m2 (some len)) len
      (fun r => { r with ch3 := aset r.ch3 c (len + 1) })) (len + 1) =
      some { emptyNode with parent := some len } := by
    rw [getN_modN_ne _ _ hll, ← hl2]
    exact getN_newChild_fresh m2 (some len)
  have hsz : (modN (newChild m2 (some len)) len
      (fun r => { r with ch3 := aset r.ch3 c (len + 1) })).size = m.size := by
    rw [modN_size, newChild_size, hm2, modN_size, newChild_size]
  unfold insert
  simp only [hW, hfresh, hsz]
  rfl

theorem insert1_state {m : MultiKeyMap α β γ ν} {a : α} (b : β) (c : γ) (v : ν)
    {rr : Node α β γ ν}
    (hc1 : child1 m m.root a = none) (hrr : getN m m.root = some rr) :
    insert m (a, b, c) v =
      ({ setN (modN (newChild (modN (newChild (modN (newChild m none) m.root
              (fun r => { r with ch1 := aset r.ch1 a m.nodes.length }))
              (some m.nodes.length)) m.nodes.length
            (fun r => { r with ch2 := aset r.ch2 b (m.nodes.length + 1) }))
              (some (m.nodes.length + 1))) (m.nodes.length + 1)
            (fun r => { r with ch3 := aset r.ch3 c (m.nodes.length + 2) }))
            (m.nodes.length + 2)
            ⟨[], [], [], some ((a, b, c), v), some (m.nodes.length + 1)⟩ with
          size := m.size + 1 }, true) := by
  have hrl : m.root ≠ m.nodes.length := getN_ne_len hrr
  set len := m.nodes.length with hlen
  set m1 := modN (newChild m none) m.root
      (fun r => { r with ch1 := aset r.ch1 a len }) with hm1
  have hl1 : m1.nodes.length = len + 1 := by
    rw [hm1, modN_length, newChild_length]
  have hroot1 : m1.root = m.root := by
    rw [hm1, modN_root, newChild_root]
  have hg1len : getN m1 len = some { emptyNode with parent := none } := by
    rw [hm1, getN_modN_ne _ _ hrl]
    exact getN_newChild_fresh m none
  have hc2' : child2 m1 len b = none := by
    unfold child2
    rw [nCh2_of_getN hg1len]
    rfl
  set m2 := modN (newChild m1 (some len)) len
      (fun r => { r with ch2 := aset r.ch2 b (len + 1) }) with hm2
  have hl2 : m2.nodes.length = len + 2 := by
    rw [hm2, modN_length, newChild_length, hl1]
  have hll1 : len ≠ len + 1 := by omega
  have hg2l1 : getN m2 (len + 1) = some { emptyNode with parent := some len } := by
    rw [hm2, getN_modN_ne _ _ hll1, ← hl1]
    exact getN_newChild_fresh m1 (some len)
  have hc3' : child3 m2 (len + 1) c = none := by
    unfold child3
    rw [nCh3_of_getN hg2l1]
    rfl
  have hW : walkCreate m a b c =
      (modN (newChild m2 (some (len + 1))) (len + 1)
        (fun r => { r with ch3 := aset r.ch3 c (len + 2) }), len + 2) := by
    unfold walkCreate
    simp only [step1_of_none hc1, ← hlen, ← hm1, step2_of_none hc2', hl1, ← hm2,
      step3_of_none hc3', hl2]
  have hll2 : len + 1 ≠ len + 2 := by omega
  have hfresh : getN (modN (newChild m2 (some (len + 1))) (len + 1)
      (fun r => { r with ch3 := aset r.ch3 c (len + 2) })) (len + 2) =
      some { emptyNode with parent := some (len + 1) } := by
    rw [getN_modN_ne _ _ hll2, ← hl2]
    exact getN_newChild_fresh m2 (some (len + 1))
  have hsz : (modN (newChild m2 (some (len + 1))) (len + 1)
      (fun r => { r with ch3 := aset r.ch3 c (len + 2) })).size = m.size := by
    rw [modN_size, newChild_size, hm2, modN_size, newChild_size, hm1, modN_size,
      newChild_size]
  unfold insert
  simp only [hW, hfresh, hsz]
  rfl

theorem insert_found {m : MultiKeyMap α β γ ν} {a : α} {b : β} {c : γ} (v : ν) {i : Nat}
    {j k : Nat}
    (hc1 : child1 m m.root a = some j) (hc2 : child2 m j b = some k)
    (hc3 : child3 m k c = some i) {kv : (α × β × γ) × ν}
    (hd : dataQ m i = some kv) :
    insert m (a, b, c) v = (m, false) := by
  have hW : walkCreate m a b c = (m, i) := by
    unfold walkCreate
    simp only [step1_of_some hc1, step2_of_some hc2, step3_of_some hc3]
  unfold dataQ at hd
  rw [Option.bind_eq_some] at hd
  obtain ⟨r, hr, hrd⟩ := hd
  unfold insert
  simp only [hW, hr, hrd]

theorem opIndex_of_create {m : MultiKeyMap α β γ ν} (k : α × β × γ) (v : ν)
    (h : (insert m k v).2 = true) : opIndexAssign m k v = (insert m k v).1 := by
  unfold insert opIndexAssign at *
  cases hg : getN (walkCreate m k.1 k.2.1 k.2.2).1 (walkCreate m k.1 k.2.1 k.2.2).2 with
  | none => simp only [hg] at h ⊢
  | some r =>
    cases hd : r.data with
    | none => simp only [hg, hd] at h ⊢
    | some kv =>
      simp only [hg, hd] at h
      exact absurd h Bool.false_ne_true

theorem insert3_getN {m : MultiKeyMap α β γ ν} {a : α} {b : β} {c : γ} (v : ν) {j k : Nat}
    {rk : Node α β γ ν}
    (hc1 : child1 m m.root a = some j) (hc2 : child2 m j b = some k)
    (hc3 : child3 m k c = none) (hrk : getN m k = some rk) :
    (∀ x r, getN m x = some r → x ≠ k →
      getN (insert m (a, b, c) v).1 x = some r) ∧
    getN (insert m (a, b, c) v).1 k = some { rk with ch3 := aset rk.ch3 c m.nodes.length } ∧
    getN (insert m (a, b, c) v).1 m.nodes.length =
      some ⟨[], [], [], some ((a, b, c), v), some k⟩ ∧
    (insert m (a, b, c) v).1.root = m.root ∧
    (insert m (a, b, c) v).1.size = m.size + 1 ∧
    (insert m (a, b, c) v).2 = true := by
  have hkl : k ≠ m.nodes.length := getN_ne_len hrk
  have hgW : getN (modN (newChild m (some k)) k
      (fun r => { r with ch3 := aset r.ch3 c m.nodes.length })) m.nodes.length =
      some { emptyNode with parent := some k } := by
    rw [getN_modN_ne _ _ hkl]
    exact getN_newChild_fresh m (some k)
  rw [insert3_state v hc1 hc2 hc3 hrk]
  refine ⟨?_, ?_, ?_, ?_, rfl, rfl⟩
  · intro x r hx hxk
    have hxl : x ≠ m.nodes.length := getN_ne_len hx
    rw [getN_sizeSet, getN_setN_ne _ _ (Ne.symm hxl), getN_modN_ne _ _ (fun h => hxk h.symm),
      getN_newChild_old _ hx]
  · rw [getN_sizeSet, getN_setN_ne _ _ (Ne.symm hkl)]
    have : getN (newChild m (some k)) k = some rk := getN_newChild_old _ hrk
    rw [getN_modN_self this]
  · rw [getN_sizeSet]
    exact getN_setN_self hgW _
  · simp only [setN_root, modN_root, newChild_root]

theorem insert2_getN {m : MultiKeyMap α β γ ν} {a : α} {b : β} (c : γ) (v : ν) {j : Nat}
    {rj : Node α β γ ν}
    (hc1 : child1 m m.root a = some j) (hc2 : child2 m j b = none)
    (hrj : getN m j = some rj) :
    (∀ x r, getN m x = some r → x ≠ j →
      getN (insert m (a, b, c) v).1 x = some r) ∧
    getN (insert m (a, b, c) v).1 j = some { rj with ch2 := aset rj.ch2 b m.nodes.length } ∧
    getN (insert m (a, b, c) v).1 m.nodes.length =
      some ⟨[], [], [(c, m.nodes.length + 1)], none, some j⟩ ∧
    getN (insert m (a, b, c) v).1 (m.nodes.length + 1) =
      some ⟨[], [], [], some ((a, b, c), v), some m.nodes.length⟩ ∧
    (insert m (a, b, c) v).1.root = m.root ∧
    (insert m (a, b, c) v).1.size = m.size + 1 ∧
    (insert m (a, b, c) v).2 = true := by
  have hjl : j ≠ m.nodes.length := getN_ne_len hrj
  set len := m.nodes.length with hlen
  set m2 := modN (newChild m (some j)) j
      (fun r => { r with ch2 := aset r.ch2 b len }) with hm2
  have hl2 : m2.nodes.length = len + 1 := by
    rw [hm2, modN_length, newChild_length]
  have hg2len : getN m2 len = some { emptyNode with parent := some j } := by
    rw [hm2, getN_modN_ne _ _ hjl]
    exact getN_newChild_fresh m (some j)
  set mW := modN (newChild m2 (some len)) len
      (fun r => { r with ch3 := aset r.ch3 c (len + 1) }) with hmW
  have hll : len ≠ len + 1 := by omega
  have hfresh : getN mW (len + 1) = some { emptyNode with parent := some len } := by
    rw [hmW, getN_modN_ne _ _ hll, ← hl2]
    exact getN_newChild_fresh m2 (some len)
  rw [insert2_state c v hc1 hc2 hrj]
  rw [← hlen, ← hm2, ← hmW]
  refine ⟨?_, ?_, ?_, ?_, ?_, rfl, rfl⟩
  · intro x r hx hxj
    have hxl : x ≠ len := by rw [hlen]; exact getN_ne_len hx
    have hxl1 : x ≠ len + 1 := by
      have := getN_lt hx
      omega
    rw [getN_sizeSet, getN_setN_ne _ _ (Ne.symm hxl1), hmW,
      getN_modN_ne _ _ (fun h => hxl h.symm)]
    apply getN_newChild_old
    rw [hm2, getN_modN_ne _ _ (fun h => hxj h.symm)]
    exact getN_newChild_old _ hx
  · have hjl1 : j ≠ len + 1 := by
      have := getN_lt hrj
      rw [← hlen] at this
      omega
    rw [getN_sizeSet, getN_setN_ne _ _ (Ne.symm hjl1), hmW,
      getN_modN_ne _ _ (fun h => hjl h.symm)]
    apply getN_newChild_old
    rw [hm2]
    have : getN (newChild m (some j)) j = some rj := getN_newChild_old _ hrj
    rw [getN_modN_self this]
  · rw [getN_sizeSet, getN_setN_ne _ _ (Ne.symm hll)]
    have hin : getN (newChild m2 (some len)) len = some { emptyNode with parent := some j } :=
      getN_newChild_old _ hg2len
    rw [hmW, getN_modN_self hin]
    rfl
  · rw [getN_sizeSet]
    exact getN_setN_self hfresh _
  · simp only [setN_root, hmW, modN_root, newChild_root, hm2]

theorem insert1_getN {m : MultiKeyMap α β γ ν} {a : α} (b : β) (c : γ) (v : ν)
    {rr : Node α β γ ν}
    (hc1 : child1 m m.root a = none) (hrr : getN m m.root = some rr) :
    (∀ x r, getN m x = some r → x ≠ m.root →
      getN (insert m (a, b, c) v).1 x = some r) ∧
    getN (insert m (a, b, c) v).1 m.root =
      some { rr with ch1 := aset rr.ch1 a m.nodes.length } ∧
    getN (insert m (a, b, c) v).1 m.nodes.length =
      some ⟨[], [(b, m.nodes.length + 1)], [], none, none⟩ ∧
    getN (insert m (a, b, c) v).1 (m.nodes.length + 1) =
      some ⟨[], [], [(c, m.nodes.length + 2)], none, some m.nodes.length⟩ ∧
    getN (insert m (a, b, c) v).1 (m.nodes.length + 2) =
      some ⟨[], [], [], some ((a, b, c), v), some (m.nodes.length + 1)⟩ ∧
    (insert m (a, b, c) v).1.root = m.root ∧
    (insert m (a, b, c) v).1.size = m.size + 1 ∧
    (insert m (a, b, c) v).2 = true := by
  have hrl : m.root ≠ m.nodes.length := getN_ne_len hrr
  set len := m.nodes.length with hlen
  set m1 := modN (newChild m none) m.root
      (fun r => { r with ch1 := aset r.ch1 a len }) with hm1
  have hl1 : m1.nodes.length = len + 1 := by
    rw [hm1, modN_length, newChild_length]
  have hg1len : getN m1 len = some { emptyNode with parent := none } := by
    rw [hm1, getN_modN_ne _ _ hrl]
    exact getN_newChild_fresh m none
  set m2 := modN (newChild m1 (some len)) len
      (fun r => { r with ch2 := aset r.ch2 b (len + 1) }) with hm2
  have hl2 : m2.nodes.length = len + 2 := by
    rw [hm2, modN_length, newChild_length, hl1]
  have hll1 : len ≠ len + 1 := by omega
  have hg2l1 : getN m2 (len + 1) = some { emptyNode with parent := some len } := by
    rw [hm2, getN_modN_ne _ _ hll1, ← hl1]
    exact getN_newChild_fresh m1 (some len)
  set mW := modN (newChild m2 (some (len + 1))) (len + 1)
      (fun r => { r with ch3 := aset r.ch3 c (len + 2) }) with hmW
  have hll2 : len + 1 ≠ len + 2 := by omega
  have hfresh : getN mW (len + 2) = some { emptyNode with parent := some (len + 1) } := by
    rw [hmW, getN_modN_ne _ _ hll2, ← hl2]
    exact getN_newChild_fresh m2 (some (len + 1))
  rw [insert1_state b c v hc1 hrr]
  rw [← hlen, ← hm1, ← hm2, ← hmW]
  have hr1 : m.root ≠ len + 1 := by
    have := getN_lt hrr
    rw [← hlen] at this
    omega
  have hr2 : m.root ≠ len + 2 := by
    have := getN_lt hrr
    rw [← hlen] at this
    omega
  refine ⟨?_, ?_, ?_, ?_, ?_, ?_, rfl, rfl⟩
  · intro x r hx hxr
    have hxl : x ≠ len := by rw [hlen]; exact getN_ne_len hx
    have hxl1 : x ≠ len + 1 := by
      have := getN_lt hx
      rw [← hlen] at this
      omega
    have hxl2 : x ≠ len + 2 := by
      have := getN_lt hx
      rw [← hlen] at this
      omega
    rw [getN_sizeSet, getN_setN_ne _ _ (Ne.symm hxl2), hmW,
      getN_modN_ne _ _ (fun h => hxl1 h.symm)]
    apply getN_newChild_old
    rw [hm2, getN_modN_ne _ _ (fun h => hxl h.symm)]
    apply getN_newChild_old
    rw [hm1, getN_modN_ne _ _ (fun h => hxr h.symm)]
    exact getN_newChild_old _ hx
  · rw [getN_sizeSet, getN_setN_ne _ _ (Ne.symm hr2), hmW,
      getN_modN_ne _ _ (fun h => hr1 h.symm)]
    apply getN_newChild_old
    rw [hm2, getN_modN_ne _ _ (fun h => hrl h.symm)]
    apply getN_newChild_old
    rw [hm1]
    have : getN (newChild m none) m.root = some rr := getN_newChild_old _ hrr
    rw [getN_modN_self this]
  · have hlne2 : len ≠ len + 2 := by omega
    rw [getN_sizeSet, getN_setN_ne _ _ (Ne.symm hlne2), hmW,
      getN_modN_ne _ _ (fun h => hll1 h.symm)]
    apply getN_newChild_old
    rw [hm2]
    have : getN (newChild m1 (some len)) len = some { emptyNode with parent := none } :=
      getN_newChild_old _ hg1len
    rw [getN_modN_self this]
    rfl
  · rw [getN_sizeSet, getN_setN_ne _ _ (Ne.symm hll2), hmW]
    have : getN (newChild m2 (some (len + 1))) (len + 1) =
        some { emptyNode with parent := some len } :=
      getN_newChild_old _ hg2l1
    rw [getN_modN_self this]
    rfl
  · rw [getN_sizeSet]
    exact getN_setN_self hfresh _
  · simp only [setN_root, hmW, modN_root, newChild_root, hm2, hm1]

end InsertState

/-! Transfer of well-formedness across edits that avoid a subtree. -/

section Shield

variable {α β γ ν : Type} [DecidableEq α] [DecidableEq β] [DecidableEq γ]

theorem entry_eq_of_key {κ : Type} [DecidableEq κ] {l : List (κ × Nat)} (hnd : keysND l)
    {e1 e2 : κ × Nat} (h1 : e1 ∈ l) (h2 : e2 ∈ l) (hk : e1.1 = e2.1) : e1 = e2 :=
  List.inj_on_of_nodup_map hnd h1 h2 hk

theorem entry_eq_of_tgt {κ : Type} {l : List (κ × Nat)} (hnd : tgtND l)
    {e1 e2 : κ × Nat} (h1 : e1 ∈ l) (h2 : e2 ∈ l) (ht : e1.2 = e2.2) : e1 = e2 :=
  List.inj_on_of_nodup_map hnd h1 h2 ht

theorem getN_eq_of_keep {m m' : MultiKeyMap α β γ ν} {x : Nat} {r : Node α β γ ν}
    (hx : getN m x = some r) (h' : getN m' x = some r) : getN m' x = getN m x := by
  rw [hx, h']

theorem ok3_parent {m : MultiKeyMap α β γ ν} {p i : Nat} {a : α} {b : β} {c : γ}
    (h : ok3 m p i a b c) : nParent m i = some p := h.2.2.2.2.1

theorem ok2_parent {m : MultiKeyMap α β γ ν} {p i : Nat} {a : α} {b : β}
    (h : ok2 m p i a b) : nParent m i = some p := h.2.2.2.2.1

theorem ok1_parent {m : MultiKeyMap α β γ ν} {i : Nat} {a : α}
    (h : ok1 m i a) : nParent m i = none := h.2.2.2.2.1

theorem ok0_parent {m : MultiKeyMap α β γ ν} (h : ok0 m) : nParent m m.root = none :=
  h.2.2.2.2.1

theorem ok2_shield {m m' : MultiKeyMap α β γ ν} {p i : Nat} {a : α} {b : β}
    (bad : Nat → Prop)
    (h2 : ok2 m p i a b)
    (H : ∀ x r, getN m x = some r → ¬ bad x → getN m' x = some r)
    (hi : ¬ bad i)
    (hd : ∀ x, nParent m x = some i → ¬ bad x) :
    ok2 m' p i a b := by
  obtain ⟨ri, hri⟩ := isSome_getN h2.1
  have hgi : getN m' i = getN m i := getN_eq_of_keep hri (H i ri hri hi)
  apply ok2_congr hgi _ h2
  intro e he
  have h3 := h2.2.2.2.2.2.2 e he
  obtain ⟨re, hre⟩ := isSome_getN h3.1
  exact getN_eq_of_keep hre (H e.2 re hre (hd e.2 (ok3_parent h3)))

theorem ok1_shield {m m' : MultiKeyMap α β γ ν} {j : Nat} {a : α}
    (bad : Nat → Prop)
    (h1 : ok1 m j a)
    (H : ∀ x r, getN m x = some r → ¬ bad x → getN m' x = some r)
    (hj : ¬ bad j)
    (hd2 : ∀ x, nParent m x = some j → ¬ bad x)
    (hd3 : ∀ x q, nParent m x = some q → nParent m q = some j → ¬ bad x) :
    ok1 m' j a := by
  obtain ⟨rj, hrj⟩ := isSome_getN h1.1
  have hgj : getN m' j = getN m j := getN_eq_of_keep hrj (H j rj hrj hj)
  apply ok1_congr hgj _ h1
  intro e he
  have h2 := h1.2.2.2.2.2.2.2 e he
  obtain ⟨re, hre⟩ := isSome_getN h2.1
  have hbe : ¬ bad e.2 := hd2 e.2 (ok2_parent h2)
  refine ⟨getN_eq_of_keep hre (H e.2 re hre hbe), ?_⟩
  intro e3 he3
  have h3 := h2.2.2.2.2.2.2 e3 he3
  obtain ⟨re3, hre3⟩ := isSome_getN h3.1
  exact getN_eq_of_keep hre3
    (H e3.2 re3 hre3 (hd3 e3.2 e.2 (ok3_parent h3) (ok2_parent h2)))

end Shield

/-! Effect of `insert` on well-formedness and on the structural lookup. -/

section InsertEffect

variable {α β γ ν : Type} [DecidableEq α] [DecidableEq β] [DecidableEq γ]

theorem insert3_ok0 {m : MultiKeyMap α β γ ν} {a : α} {b : β} {c : γ} (v : ν) {j k : Nat}
    (h0 : ok0 m)
    (hc1 : child1 m m.root a = some j) (hc2 : child2 m j b = some k)
    (hc3 : child3 m k c = none) :
    ok0 (insert m (a, b, c) v).1 := by
  have h1 := chain1 h0 hc1
  have h2 := chain2 h1 hc2
  obtain ⟨rk, hrk⟩ := isSome_getN h2.1
  obtain ⟨Hold, Hk, Hnew, Hroot, -, -⟩ := insert3_getN v hc1 hc2 hc3 hrk
  have hpj : nParent m j = none := ok1_parent h1
  have hpk : nParent m k = some j := ok2_parent h2
  have hproot : nParent m m.root = none := ok0_parent h0
  have hkroot : m.root ≠ k := by
    intro he
    rw [← he] at hpk
    rw [hproot] at hpk
    cases hpk
  have hjk : j ≠ k := by
    intro he
    rw [← he] at hpk
    rw [hpj] at hpk
    cases hpk
  obtain ⟨hS, hc2r, hc3r, hdr, hpr, hknd, htnd, hall⟩ := h0
  obtain ⟨rr, hrr⟩ := isSome_getN hS
  have hgroot : getN (insert m (a, b, c) v).1 m.root = getN m m.root :=
    getN_eq_of_keep hrr (Hold _ _ hrr hkroot)
  unfold ok0
  rw [Hroot, hgroot, nCh1_congr hgroot, nCh2_congr hgroot, nCh3_congr hgroot,
    dataQ_congr hgroot, nParent_congr hgroot]
  refine ⟨hS, hc2r, hc3r, hdr, hpr, hknd, htnd, ?_⟩
  intro e he
  by_cases hea : e.1 = a
  · have heq : e = (a, j) := entry_eq_of_key hknd he (alook_mem hc1) (by rw [hea])
    rw [heq]
    -- the branch that contains the edited node k
    obtain ⟨jS, jch1, jch3, jdata, jpar, jknd, jtnd, jall⟩ := h1
    obtain ⟨rj, hrj⟩ := isSome_getN jS
    have hgj : getN (insert m (a, b, c) v).1 j = getN m j :=
      getN_eq_of_keep hrj (Hold _ _ hrj hjk)
    unfold ok1
    rw [hgj, nCh1_congr hgj, nCh2_congr hgj, nCh3_congr hgj, dataQ_congr hgj,
      nParent_congr hgj]
    refine ⟨jS, jch1, jch3, jdata, jpar, jknd, jtnd, ?_⟩
    intro e2 he2
    by_cases heb : e2.1 = b
    · have heq2 : e2 = (b, k) := entry_eq_of_key jknd he2 (alook_mem hc2) (by rw [heb])
      rw [heq2]
      -- the edited depth-2 node itself
      have hrkch1 : rk.ch1 = [] := by rw [← nCh1_of_getN hrk]; exact h2.2.1
      have hrkch2 : rk.ch2 = [] := by rw [← nCh2_of_getN hrk]; exact h2.2.2.1
      have hrkdata : rk.data = none := by
        rw [← dataQ_of_getN hrk]
        exact Option.isNone_iff_eq_none.mp h2.2.2.2.1
      have hrkpar : rk.parent = some j := by rw [← nParent_of_getN hrk]; exact hpk
      have hrknd : keysND rk.ch3 := by rw [← nCh3_of_getN hrk]; exact h2.2.2.2.2.2.1
      have hcnone : alook rk.ch3 c = none := by
        rw [← nCh3_of_getN hrk]
        exact hc3
      refine ⟨?_, ?_, ?_, ?_, ?_, ?_, ?_⟩
      · rw [Hk]; rfl
      · rw [nCh1_of_getN Hk]; exact hrkch1
      · rw [nCh2_of_getN Hk]; exact hrkch2
      · rw [dataQ_of_getN Hk]; rw [hrkdata]; rfl
      · rw [nParent_of_getN Hk]; exact hrkpar
      · rw [nCh3_of_getN Hk]
        exact keysND_aset_of_none hrknd hcnone m.nodes.length
      · rw [nCh3_of_getN Hk]
        intro e3 he3
        rcases mem_aset he3 with h3m | h3m
        · have h3 := h2.2.2.2.2.2.2 e3 (by rw [nCh3_of_getN hrk]; exact h3m)
          have hne3 : e3.2 ≠ k := by
            intro he3k
            have := ok3_parent h3
            rw [he3k, hpk] at this
            cases this
            exact hjk rfl
          obtain ⟨r3, hr3⟩ := isSome_getN h3.1
          exact ok3_congr (getN_eq_of_keep hr3 (Hold _ _ hr3 hne3)) h3
        · rw [h3m]
          refine ⟨?_, ?_, ?_, ?_, ?_, ?_⟩
          · rw [Hnew]; rfl
          · rw [nCh1_of_getN Hnew]
          · rw [nCh2_of_getN Hnew]
          · rw [nCh3_of_getN Hnew]
          · rw [nParent_of_getN Hnew]
          · unfold nKey
            rw [dataQ_of_getN Hnew]
            rfl
    · have h2' := jall e2 he2
      apply ok2_shield (fun x => x = k) h2' Hold
      · intro he2k
        have := entry_eq_of_tgt jtnd he2 (alook_mem hc2) (by rw [he2k])
        exact heb (by rw [this])
      · intro x hxp hxk
        rw [hxk, hpk] at hxp
        have hje : j = e2.2 := Option.some.inj hxp
        have hp2 := ok2_parent h2'
        rw [← hje, hpj] at hp2
        cases hp2
  · have h1' := hall e he
    apply ok1_shield (fun x => x = k) h1' Hold
    · intro he2
      have := ok1_parent h1'
      rw [he2, hpk] at this
      cases this
    · intro x hxp hxk
      rw [hxk, hpk] at hxp
      have hje : j = e.2 := Option.some.inj hxp
      have hee : e = (a, j) := entry_eq_of_tgt htnd he (alook_mem hc1) hje.symm
      exact hea (by rw [hee])
    · intro x q hx hq hxk
      rw [hxk, hpk] at hx
      have hjq : j = q := Option.some.inj hx
      rw [← hjq, hpj] at hq
      cases hq

theorem child1_congr {m m' : MultiKeyMap α β γ ν} {i : Nat} (h : getN m' i = getN m i)
    (a : α) : child1 m' i a = child1 m i a := by
  unfold child1
  rw [nCh1_congr h]

theorem child2_congr {m m' : MultiKeyMap α β γ ν} {i : Nat} (h : getN m' i = getN m i)
    (b : β) : child2 m' i b = child2 m i b := by
  unfold child2
  rw [nCh2_congr h]

theorem child3_congr {m m' : MultiKeyMap α β γ ν} {i : Nat} (h : getN m' i = getN m i)
    (c : γ) : child3 m' i c = child3 m i c := by
  unfold child3
  rw [nCh3_congr h]

theorem mlookup_expand (m : MultiKeyMap α β γ ν) (x : α) (y : β) (z : γ) :
    mlookup m (x, y, z) =
      ((((child1 m m.root x).bind (fun i => child2 m i y)).bind
        (fun i => child3 m i z)).bind (dataQ m)).map (fun kv => kv.2) := rfl

theorem insert3_mlookup {m : MultiKeyMap α β γ ν} {a : α} {b : β} {c : γ} (v : ν) {j k : Nat}
    (h0 : ok0 m)
    (hc1 : child1 m m.root a = some j) (hc2 : child2 m j b = some k)
    (hc3 : child3 m k c = none) :
    mlookup (insert m (a, b, c) v).1 (a, b, c) = some v ∧
    (∀ k' : α × β × γ, k' ≠ (a, b, c) →
      mlookup (insert m (a, b, c) v).1 k' = mlookup m k') := by
  have h1 := chain1 h0 hc1
  have h2 := chain2 h1 hc2
  obtain ⟨rk, hrk⟩ := isSome_getN h2.1
  obtain ⟨Hold, Hk, Hnew, Hroot, -, -⟩ := insert3_getN v hc1 hc2 hc3 hrk
  obtain ⟨m', hm'⟩ : ∃ mm, (insert m (a, b, c) v).1 = mm := ⟨_, rfl⟩
  rw [hm'] at Hold Hk Hnew Hroot ⊢
  have hpj : nParent m j = none := ok1_parent h1
  have hpk : nParent m k = some j := ok2_parent h2
  have hproot : nParent m m.root = none := ok0_parent h0
  have hkroot : m.root ≠ k := by
    intro he
    rw [← he] at hpk
    rw [hproot] at hpk
    cases hpk
  have hjk : j ≠ k := by
    intro he
    rw [← he] at hpk
    rw [hpj] at hpk
    cases hpk
  obtain ⟨rr, hrr⟩ := isSome_getN h0.1
  have hgroot : getN m' m.root = getN m m.root :=
    getN_eq_of_keep hrr (Hold _ _ hrr hkroot)
  obtain ⟨rj, hrj⟩ := isSome_getN h1.1
  have hgj : getN m' j = getN m j :=
    getN_eq_of_keep hrj (Hold _ _ hrj hjk)
  have hch1 : ∀ x : α, child1 m' m'.root x = child1 m m.root x := by
    intro x
    rw [Hroot]
    exact child1_congr hgroot x
  have hch3k : nCh3 m' k = aset rk.ch3 c m.nodes.length :=
    nCh3_of_getN Hk
  constructor
  · rw [mlookup_expand, hch1, hc1]
    simp only [Option.some_bind]
    rw [child2_congr hgj b, hc2]
    simp only [Option.some_bind]
    unfold child3
    rw [hch3k, alook_aset_self]
    simp only [Option.some_bind]
    rw [dataQ_of_getN Hnew]
    rfl
  · rintro ⟨x, y, z⟩ hne
    rw [mlookup_expand, mlookup_expand, hch1]
    by_cases hxa : x = a
    · subst hxa
      rw [hc1]
      simp only [Option.some_bind]
      rw [child2_congr hgj y]
      by_cases hyb : y = b
      · subst hyb
        rw [hc2]
        simp only [Option.some_bind]
        have hzc : z ≠ c := by
          intro he
          exact hne (by rw [he])
        unfold child3
        rw [hch3k, alook_aset_ne _ _ hzc, ← nCh3_of_getN hrk]
        cases hl : alook (nCh3 m k) z with
        | none => rfl
        | some l =>
          simp only [Option.some_bind]
          have h3 := chain3 h2 (show child3 m k z = some l from hl)
          have hlk : l ≠ k := by
            intro he
            have := ok3_parent h3
            rw [he, hpk] at this
            cases this
            exact hjk rfl
          obtain ⟨rl, hrl⟩ := isSome_getN h3.1
          rw [dataQ_congr (getN_eq_of_keep hrl (Hold _ _ hrl hlk))]
      · cases hk2 : child2 m j y with
        | none => rfl
        | some k2 =>
          simp only [Option.some_bind]
          have h2' := chain2 h1 hk2
          have hk2k : k2 ≠ k := by
            intro he
            have := entry_eq_of_tgt h1.2.2.2.2.2.2.1 (alook_mem hk2) (alook_mem hc2)
              (by rw [he])
            exact hyb (congrArg Prod.fst this)
          obtain ⟨rk2, hrk2⟩ := isSome_getN h2'.1
          have hgk2 : getN m' k2 = getN m k2 :=
            getN_eq_of_keep hrk2 (Hold _ _ hrk2 hk2k)
          rw [child3_congr hgk2 z]
          cases hl : child3 m k2 z with
          | none => rfl
          | some l =>
            simp only [Option.some_bind]
            have h3 := chain3 h2' hl
            have hlk : l ≠ k := by
              intro he
              have hpl := ok3_parent h3
              rw [he, hpk] at hpl
              have : j = k2 := Option.some.inj hpl
              have hpk2 := ok2_parent h2'
              rw [← this, hpj] at hpk2
              cases hpk2
            obtain ⟨rl, hrl⟩ := isSome_getN h3.1
            rw [dataQ_congr (getN_eq_of_keep hrl (Hold _ _ hrl hlk))]
    · cases hj2 : child1 m m.root x with
      | none => rfl
      | some j2 =>
        simp only [Option.some_bind]
        have h1' := chain1 h0 hj2
        have hj2k : j2 ≠ k := by
          intro he
          have := ok1_parent h1'
          rw [he, hpk] at this
          cases this
        have hj2j : j2 ≠ j := by
          intro he
          have := entry_eq_of_tgt h0.2.2.2.2.2.2.1 (alook_mem hj2) (alook_mem hc1)
            (by rw [he])
          exact hxa (congrArg Prod.fst this)
        obtain ⟨rj2, hrj2⟩ := isSome_getN h1'.1
        have hgj2 : getN m' j2 = getN m j2 :=
          getN_eq_of_keep hrj2 (Hold _ _ hrj2 hj2k)
        rw [child2_congr hgj2 y]
        cases hk2 : child2 m j2 y with
        | none => rfl
        | some k2 =>
          simp only [Option.some_bind]
          have h2' := chain2 h1' hk2
          have hk2k : k2 ≠ k := by
            intro he
            have hp2 := ok2_parent h2'
            rw [he, hpk] at hp2
            have : j = j2 := Option.some.inj hp2
            exact hj2j this.symm
          obtain ⟨rk2, hrk2⟩ := isSome_getN h2'.1
          have hgk2 : getN m' k2 = getN m k2 :=
            getN_eq_of_keep hrk2 (Hold _ _ hrk2 hk2k)
          rw [child3_congr hgk2 z]
          cases hl : child3 m k2 z with
          | none => rfl
          | some l =>
            simp only [Option.some_bind]
            have h3 := chain3 h2' hl
            have hlk : l ≠ k := by
              intro he
              have hpl := ok3_parent h3
              rw [he, hpk] at hpl
              have : j = k2 := Option.some.inj hpl
              have hpk2 := ok2_parent h2'
              rw [← this, hpj] at hpk2
              cases hpk2
            obtain ⟨rl, hrl⟩ := isSome_getN h3.1
            rw [dataQ_congr (getN_eq_of_keep hrl (Hold _ _ hrl hlk))]

theorem insert2_ok0 {m : MultiKeyMap α β γ ν} {a : α} {b : β} (c : γ) (v : ν) {j : Nat}
    (h0 : ok0 m)
    (hc1 : child1 m m.root a = some j) (hc2 : child2 m j b = none) :
    ok0 (insert m (a, b, c) v).1 := by
  have h1 := chain1 h0 hc1
  obtain ⟨rj, hrj⟩ := isSome_getN h1.1
  obtain ⟨Hold, Hj, Hn2, Hn3, Hroot, -, -⟩ := insert2_getN c v hc1 hc2 hrj
  obtain ⟨m', hm'⟩ : ∃ mm, (insert m (a, b, c) v).1 = mm := ⟨_, rfl⟩
  rw [hm'] at Hold Hj Hn2 Hn3 Hroot ⊢
  have hpj : nParent m j = none := ok1_parent h1
  have hproot : nParent m m.root = none := ok0_parent h0
  obtain ⟨hS, hc2r, hc3r, hdr, hpr, hknd, htnd, hall⟩ := h0
  have hrootj : m.root ≠ j := by
    intro he
    have hmem : (a, j) ∈ nCh1 m m.root := alook_mem hc1
    rw [he] at hmem
    rw [h1.2.1] at hmem
    simp at hmem
  obtain ⟨rr, hrr⟩ := isSome_getN hS
  have hgroot : getN m' m.root = getN m m.root :=
    getN_eq_of_keep hrr (Hold _ _ hrr hrootj)
  unfold ok0
  rw [Hroot, hgroot, nCh1_congr hgroot, nCh2_congr hgroot, nCh3_congr hgroot,
    dataQ_congr hgroot, nParent_congr hgroot]
  refine ⟨hS, hc2r, hc3r, hdr, hpr, hknd, htnd, ?_⟩
  intro e he
  by_cases hea : e.1 = a
  · have heq : e = (a, j) := entry_eq_of_key hknd he (alook_mem hc1) (by rw [hea])
    rw [heq]
    -- the reattached depth-1 node with its fresh depth-2/3 chain
    have hrjch1 : rj.ch1 = [] := by rw [← nCh1_of_getN hrj]; exact h1.2.1
    have hrjch3 : rj.ch3 = [] := by rw [← nCh3_of_getN hrj]; exact h1.2.2.1
    have hrjdata : rj.data = none := by
      rw [← dataQ_of_getN hrj]
      exact Option.isNone_iff_eq_none.mp h1.2.2.2.1
    have hrjpar : rj.parent = none := by rw [← nParent_of_getN hrj]; exact hpj
    have hrjknd : keysND rj.ch2 := by rw [← nCh2_of_getN hrj]; exact h1.2.2.2.2.2.1
    have hrjtnd : tgtND rj.ch2 := by rw [← nCh2_of_getN hrj]; exact h1.2.2.2.2.2.2.1
    have hbnone : alook rj.ch2 b = none := by
      rw [← nCh2_of_getN hrj]
      exact hc2
    refine ⟨?_, ?_, ?_, ?_, ?_, ?_, ?_, ?_⟩
    · rw [Hj]; rfl
    · rw [nCh1_of_getN Hj]; exact hrjch1
    · rw [nCh3_of_getN Hj]; exact hrjch3
    · rw [dataQ_of_getN Hj]; rw [hrjdata]; rfl
    · rw [nParent_of_getN Hj]; exact hrjpar
    · rw [nCh2_of_getN Hj]
      exact keysND_aset_of_none hrjknd hbnone m.nodes.length
    · rw [nCh2_of_getN Hj]
      apply tgtND_aset_of_none hrjtnd hbnone
      intro e2 he2
      have h2 := h1.2.2.2.2.2.2.2 e2 (by rw [nCh2_of_getN hrj]; exact he2)
      obtain ⟨r2, hr2⟩ := isSome_getN h2.1
      exact getN_ne_len hr2
    · rw [nCh2_of_getN Hj]
      intro e2 he2
      rcases mem_aset he2 with h2m | h2m
      · have h2 := h1.2.2.2.2.2.2.2 e2 (by rw [nCh2_of_getN hrj]; exact h2m)
        apply ok2_shield (fun x => x = j) h2 Hold
        · intro he2j
          have := ok2_parent h2
          rw [he2j, hpj] at this
          cases this
        · intro x hxp hxj
          rw [hxj] at hxp
          rw [hpj] at hxp
          cases hxp
      · rw [h2m]
        refine ⟨?_, ?_, ?_, ?_, ?_, ?_, ?_⟩
        · rw [Hn2]; rfl
        · rw [nCh1_of_getN Hn2]
        · rw [nCh2_of_getN Hn2]
        · rw [dataQ_of_getN Hn2]; rfl
        · rw [nParent_of_getN Hn2]
        · rw [nCh3_of_getN Hn2]
          unfold keysND
          simp
        · rw [nCh3_of_getN Hn2]
          intro e3 he3
          simp at he3
          rw [he3]
          refine ⟨?_, ?_, ?_, ?_, ?_, ?_⟩
          · rw [Hn3]; rfl
          · rw [nCh1_of_getN Hn3]
          · rw [nCh2_of_getN Hn3]
          · rw [nCh3_of_getN Hn3]
          · rw [nParent_of_getN Hn3]
          · unfold nKey
            rw [dataQ_of_getN Hn3]
            rfl
  · have h1' := hall e he
    apply ok1_shield (fun x => x = j) h1' Hold
    · intro hej
      have := entry_eq_of_tgt htnd he (alook_mem hc1) (by rw [hej])
      exact hea (congrArg Prod.fst this)
    · intro x hxp hxj
      rw [hxj] at hxp
      rw [hpj] at hxp
      cases hxp
    · intro x q hx hq hxj
      rw [hxj] at hx
      rw [hpj] at hx
      cases hx

theorem insert2_mlookup {m : MultiKeyMap α β γ ν} {a : α} {b : β} (c : γ) (v : ν) {j : Nat}
    (h0 : ok0 m)
    (hc1 : child1 m m.root a = some j) (hc2 : child2 m j b = none) :
    mlookup (insert m (a, b, c) v).1 (a, b, c) = some v ∧
    (∀ k' : α × β × γ, k' ≠ (a, b, c) →
      mlookup (insert m (a, b, c) v).1 k' = mlookup m k') := by
  have h1 := chain1 h0 hc1
  obtain ⟨rj, hrj⟩ := isSome_getN h1.1
  obtain ⟨Hold, Hj, Hn2, Hn3, Hroot, -, -⟩ := insert2_getN c v hc1 hc2 hrj
  obtain ⟨m', hm'⟩ : ∃ mm, (insert m (a, b, c) v).1 = mm := ⟨_, rfl⟩
  rw [hm'] at Hold Hj Hn2 Hn3 Hroot ⊢
  have hpj : nParent m j = none := ok1_parent h1
  have hproot : nParent m m.root = none := ok0_parent h0
  have hrootj : m.root ≠ j := by
    intro he
    have hmem : (a, j) ∈ nCh1 m m.root := alook_mem hc1
    rw [he] at hmem
    rw [h1.2.1] at hmem
    simp at hmem
  obtain ⟨rr, hrr⟩ := isSome_getN h0.1
  have hgroot : getN m' m.root = getN m m.root :=
    getN_eq_of_keep hrr (Hold _ _ hrr hrootj)
  have hch1 : ∀ x : α, child1 m' m'.root x = child1 m m.root x := by
    intro x
    rw [Hroot]
    exact child1_congr hgroot x
  have hch2j : nCh2 m' j = aset rj.ch2 b m.nodes.length := nCh2_of_getN Hj
  constructor
  · rw [mlookup_expand, hch1, hc1]
    simp only [Option.some_bind]
    unfold child2
    rw [hch2j, alook_aset_self]
    simp only [Option.some_bind]
    unfold child3
    rw [nCh3_of_getN Hn2]
    show (((alook [(c, m.nodes.length + 1)] c).bind (dataQ m')).map fun kv => kv.2) = some v
    rw [show alook [(c, m.nodes.length + 1)] c = some (m.nodes.length + 1) from by
      simp [alook]]
    simp only [Option.some_bind]
    rw [dataQ_of_getN Hn3]
    rfl
  · rintro ⟨x, y, z⟩ hne
    rw [mlookup_expand, mlookup_expand, hch1]
    by_cases hxa : x = a
    · subst hxa
      rw [hc1]
      simp only [Option.some_bind]
      by_cases hyb : y = b
      · have hzc : z ≠ c := by
          intro he
          exact hne (by rw [hyb, he])
        unfold child2
        rw [hch2j, hyb, alook_aset_self, show alook (nCh2 m j) b = none from hc2]
        simp only [Option.some_bind, Option.none_bind]
        unfold child3
        rw [nCh3_of_getN Hn2, show alook [(c, m.nodes.length + 1)] z = none from by
          simp [alook, hzc]]
        rfl
      · unfold child2
        rw [hch2j, alook_aset_ne _ _ hyb, ← nCh2_of_getN hrj]
        cases hk2 : alook (nCh2 m j) y with
        | none => rfl
        | some k2 =>
          simp only [Option.some_bind]
          have h2' := chain2 h1 (show child2 m j y = some k2 from hk2)
          have hk2j : k2 ≠ j := by
            intro he
            have := ok2_parent h2'
            rw [he, hpj] at this
            cases this
          obtain ⟨rk2, hrk2⟩ := isSome_getN h2'.1
          have hgk2 : getN m' k2 = getN m k2 :=
            getN_eq_of_keep hrk2 (Hold _ _ hrk2 hk2j)
          rw [child3_congr hgk2 z]
          cases hl : child3 m k2 z with
          | none => rfl
          | some l =>
            simp only [Option.some_bind]
            have h3 := chain3 h2' hl
            have hlj : l ≠ j := by
              intro he
              have := ok3_parent h3
              rw [he, hpj] at this
              cases this
            obtain ⟨rl, hrl⟩ := isSome_getN h3.1
            rw [dataQ_congr (getN_eq_of_keep hrl (Hold _ _ hrl hlj))]
    · cases hj2 : child1 m m.root x with
      | none => rfl
      | some j2 =>
        simp only [Option.some_bind]
        have h1' := chain1 h0 hj2
        have hj2j : j2 ≠ j := by
          intro he
          have := entry_eq_of_tgt h0.2.2.2.2.2.2.1 (alook_mem hj2) (alook_mem hc1)
            (by rw [he])
          exact hxa (congrArg Prod.fst this)
        obtain ⟨rj2, hrj2⟩ := isSome_getN h1'.1
        have hgj2 : getN m' j2 = getN m j2 :=
          getN_eq_of_keep hrj2 (Hold _ _ hrj2 hj2j)
        rw [child2_congr hgj2 y]
        cases hk2 : child2 m j2 y with
        | none => rfl
        | some k2 =>
          simp only [Option.some_bind]
          have h2' := chain2 h1' hk2
          have hk2j : k2 ≠ j := by
            intro he
            have := ok2_parent h2'
            rw [he, hpj] at this
            cases this
          obtain ⟨rk2, hrk2⟩ := isSome_getN h2'.1
          have hgk2 : getN m' k2 = getN m k2 :=
            getN_eq_of_keep hrk2 (Hold _ _ hrk2 hk2j)
          rw [child3_congr hgk2 z]
          cases hl : child3 m k2 z with
          | none => rfl
          | some l =>
            simp only [Option.some_bind]
            have h3 := chain3 h2' hl
            have hlj : l ≠ j := by
              intro he
              have := ok3_parent h3
              rw [he, hpj] at this
              cases this
            obtain ⟨rl, hrl⟩ := isSome_getN h3.1
            rw [dataQ_congr (getN_eq_of_keep hrl (Hold _ _ hrl hlj))]

theorem insert1_ok0 {m : MultiKeyMap α β γ ν} {a : α} (b : β) (c : γ) (v : ν)
    (h0 : ok0 m)
    (hc1 : child1 m m.root a = none) :
    ok0 (insert m (a, b, c) v).1 := by
  obtain ⟨rr, hrr⟩ := isSome_getN h0.1
  obtain ⟨Hold, Hr, Hn1, Hn2, Hn3, Hroot, -, -⟩ := insert1_getN b c v hc1 hrr
  obtain ⟨m', hm'⟩ : ∃ mm, (insert m (a, b, c) v).1 = mm := ⟨_, rfl⟩
  rw [hm'] at Hold Hr Hn1 Hn2 Hn3 Hroot ⊢
  have hproot : nParent m m.root = none := ok0_parent h0
  obtain ⟨hS, hc2r, hc3r, hdr, hpr, hknd, htnd, hall⟩ := h0
  have hrrch2 : rr.ch2 = [] := by rw [← nCh2_of_getN hrr]; exact hc2r
  have hrrch3 : rr.ch3 = [] := by rw [← nCh3_of_getN hrr]; exact hc3r
  have hrrdata : rr.data = none := by
    rw [← dataQ_of_getN hrr]
    exact Option.isNone_iff_eq_none.mp hdr
  have hrrpar : rr.parent = none := by rw [← nParent_of_getN hrr]; exact hpr
  have hrrknd : keysND rr.ch1 := by rw [← nCh1_of_getN hrr]; exact hknd
  have hrrtnd : tgtND rr.ch1 := by rw [← nCh1_of_getN hrr]; exact htnd
  have hanone : alook rr.ch1 a = none := by
    rw [← nCh1_of_getN hrr]
    exact hc1
  unfold ok0
  rw [Hroot]
  refine ⟨?_, ?_, ?_, ?_, ?_, ?_, ?_, ?_⟩
  · rw [Hr]; rfl
  · rw [nCh2_of_getN Hr]; exact hrrch2
  · rw [nCh3_of_getN Hr]; exact hrrch3
  · rw [dataQ_of_getN Hr]; rw [hrrdata]; rfl
  · rw [nParent_of_getN Hr]; exact hrrpar
  · rw [nCh1_of_getN Hr]
    exact keysND_aset_of_none hrrknd hanone m.nodes.length
  · rw [nCh1_of_getN Hr]
    apply tgtND_aset_of_none hrrtnd hanone
    intro e he
    have h1 := hall e (by rw [nCh1_of_getN hrr]; exact he)
    obtain ⟨re, hre⟩ := isSome_getN h1.1
    exact getN_ne_len hre
  · rw [nCh1_of_getN Hr]
    intro e he
    rcases mem_aset he with h1m | h1m
    · have h1 := hall e (by rw [nCh1_of_getN hrr]; exact h1m)
      have hjroot : e.2 ≠ m.root := by
        intro hee
        have hmem : e ∈ nCh1 m m.root := by rw [nCh1_of_getN hrr]; exact h1m
        rw [← hee] at hmem
        rw [h1.2.1] at hmem
        simp at hmem
      apply ok1_shield (fun x => x = m.root) h1 Hold
      · exact hjroot
      · intro x hxp hxr
        rw [hxr] at hxp
        rw [hproot] at hxp
        cases hxp
      · intro x q hx hq hxr
        rw [hxr] at hx
        rw [hproot] at hx
        cases hx
    · rw [h1m]
      refine ⟨?_, ?_, ?_, ?_, ?_, ?_, ?_, ?_⟩
      · rw [Hn1]; rfl
      · rw [nCh1_of_getN Hn1]
      · rw [nCh3_of_getN Hn1]
      · rw [dataQ_of_getN Hn1]; rfl
      · rw [nParent_of_getN Hn1]
      · rw [nCh2_of_getN Hn1]
        unfold keysND
        simp
      · rw [nCh2_of_getN Hn1]
        unfold tgtND
        simp
      · rw [nCh2_of_getN Hn1]
        intro e2 he2
        simp at he2
        rw [he2]
        refine ⟨?_, ?_, ?_, ?_, ?_, ?_, ?_⟩
        · rw [Hn2]; rfl
        · rw [nCh1_of_getN Hn2]
        · rw [nCh2_of_getN Hn2]
        · rw [dataQ_of_getN Hn2]; rfl
        · rw [nParent_of_getN Hn2]
        · rw [nCh3_of_getN Hn2]
          unfold keysND
          simp
        · rw [nCh3_of_getN Hn2]
          intro e3 he3
          simp at he3
          rw [he3]
          refine ⟨?_, ?_, ?_, ?_, ?_, ?_⟩
          · rw [Hn3]; rfl
          · rw [nCh1_of_getN Hn3]
          · rw [nCh2_of_getN Hn3]
          · rw [nCh3_of_getN Hn3]
          · rw [nParent_of_getN Hn3]
          · unfold nKey
            rw [dataQ_of_getN Hn3]
            rfl

theorem insert1_mlookup {m : MultiKeyMap α β γ ν} {a : α} (b : β) (c : γ) (v : ν)
    (h0 : ok0 m)
    (hc1 : child1 m m.root a = none) :
    mlookup (insert m (a, b, c) v).1 (a, b, c) = some v ∧
    (∀ k' : α × β × γ, k' ≠ (a, b, c) →
      mlookup (insert m (a, b, c) v).1 k' = mlookup m k') := by
  obtain ⟨rr, hrr⟩ := isSome_getN h0.1
  obtain ⟨Hold, Hr, Hn1, Hn2, Hn3, Hroot, -, -⟩ := insert1_getN b c v hc1 hrr
  obtain ⟨m', hm'⟩ : ∃ mm, (insert m (a, b, c) v).1 = mm := ⟨_, rfl⟩
  rw [hm'] at Hold Hr Hn1 Hn2 Hn3 Hroot ⊢
  have hproot : nParent m m.root = none := ok0_parent h0
  have hanone : alook rr.ch1 a = none := by
    rw [← nCh1_of_getN hrr]
    exact hc1
  have hch1' : ∀ x : α, child1 m' m'.root x = alook (aset rr.ch1 a m.nodes.length) x := by
    intro x
    rw [Hroot]
    unfold child1
    rw [nCh1_of_getN Hr]
  constructor
  · rw [mlookup_expand, hch1', alook_aset_self]
    simp only [Option.some_bind]
    unfold child2
    rw [nCh2_of_getN Hn1, show alook [(b, m.nodes.length + 1)] b = some (m.nodes.length + 1)
      from by simp [alook]]
    simp only [Option.some_bind]
    unfold child3
    rw [nCh3_of_getN Hn2, show alook [(c, m.nodes.length + 2)] c = some (m.nodes.length + 2)
      from by simp [alook]]
    simp only [Option.some_bind]
    rw [dataQ_of_getN Hn3]
    rfl
  · rintro ⟨x, y, z⟩ hne
    rw [mlookup_expand, mlookup_expand, hch1']
    by_cases hxa : x = a
    · subst hxa
      rw [alook_aset_self, hc1]
      simp only [Option.some_bind, Option.none_bind]
      by_cases hyb : y = b
      · have hzc : z ≠ c := by
          intro he
          exact hne (by rw [hyb, he])
        unfold child2
        rw [nCh2_of_getN Hn1, hyb, show alook [(b, m.nodes.length + 1)] b =
          some (m.nodes.length + 1) from by simp [alook]]
        simp only [Option.some_bind]
        unfold child3
        rw [nCh3_of_getN Hn2, show alook [(c, m.nodes.length + 2)] z = none from by
          simp [alook, hzc]]
        rfl
      · unfold child2
        rw [nCh2_of_getN Hn1, show alook [(b, m.nodes.length + 1)] y = none from by
          simp [alook, hyb]]
        rfl
    · rw [alook_aset_ne _ _ hxa, show alook rr.ch1 x = child1 m m.root x from by
        unfold child1; rw [nCh1_of_getN hrr]]
      cases hj2 : child1 m m.root x with
      | none => rfl
      | some j2 =>
        simp only [Option.some_bind]
        have h1' := chain1 h0 hj2
        have hj2r : j2 ≠ m.root := by
          intro he
          have hmem : (x, j2) ∈ nCh1 m m.root := alook_mem hj2
          rw [← he] at hmem
          rw [h1'.2.1] at hmem
          simp at hmem
        obtain ⟨rj2, hrj2⟩ := isSome_getN h1'.1
        have hgj2 : getN m' j2 = getN m j2 :=
          getN_eq_of_keep hrj2 (Hold _ _ hrj2 hj2r)
        rw [child2_congr hgj2 y]
        cases hk2 : child2 m j2 y with
        | none => rfl
        | some k2 =>
          simp only [Option.some_bind]
          have h2' := chain2 h1' hk2
          have hk2r : k2 ≠ m.root := by
            intro he
            have := ok2_parent h2'
            rw [he, hproot] at this
            cases this
          obtain ⟨rk2, hrk2⟩ := isSome_getN h2'.1
          have hgk2 : getN m' k2 = getN m k2 :=
            getN_eq_of_keep hrk2 (Hold _ _ hrk2 hk2r)
          rw [child3_congr hgk2 z]
          cases hl : child3 m k2 z with
          | none => rfl
          | some l =>
            simp only [Option.some_bind]
            have h3 := chain3 h2' hl
            have hlr : l ≠ m.root := by
              intro he
              have := ok3_parent h3
              rw [he, hproot] at this
              cases this
            obtain ⟨rl, hrl⟩ := isSome_getN h3.1
            rw [dataQ_congr (getN_eq_of_keep hrl (Hold _ _ hrl hlr))]

/-- Consolidated effect of `insert` on an absent key: the walk creates the
missing part of the path, the payload is attached, the flag is `true`, the
size grows by one, well-formedness is preserved and no other key's value
changes. -/
theorem insert_of_absent {m : MultiKeyMap α β γ ν} (h0 : ok0 m) {k : α × β × γ}
    (hk : mlookup m k = none) (v : ν) :
    (insert m k v).2 = true ∧ (insert m k v).1.size = m.size + 1 ∧
    (insert m k v).1.root = m.root ∧ ok0 (insert m k v).1 ∧
    mlookup (insert m k v).1 k = some v ∧
    (∀ k' ≠ k, mlookup (insert m k v).1 k' = mlookup m k') := by
  obtain ⟨a, b, c⟩ := k
  cases hc1 : child1 m m.root a with
  | none =>
    obtain ⟨rr, hrr⟩ := isSome_getN h0.1
    obtain ⟨-, -, -, -, -, hroot, hsize, hflag⟩ := insert1_getN b c v hc1 hrr
    obtain ⟨hml, hfr⟩ := insert1_mlookup b c v h0 hc1
    exact ⟨hflag, hsize, hroot, insert1_ok0 b c v h0 hc1, hml, fun k' h => hfr k' h⟩
  | some j =>
    have h1 := chain1 h0 hc1
    cases hc2 : child2 m j b with
    | none =>
      obtain ⟨rj, hrj⟩ := isSome_getN h1.1
      obtain ⟨-, -, -, -, hroot, hsize, hflag⟩ := insert2_getN c v hc1 hc2 hrj
      obtain ⟨hml, hfr⟩ := insert2_mlookup c v h0 hc1 hc2
      exact ⟨hflag, hsize, hroot, insert2_ok0 c v h0 hc1 hc2, hml, fun k' h => hfr k' h⟩
    | some kk =>
      have h2 := chain2 h1 hc2
      cases hc3 : child3 m kk c with
      | none =>
        obtain ⟨rk, hrk⟩ := isSome_getN h2.1
        obtain ⟨-, -, -, hroot, hsize, hflag⟩ := insert3_getN v hc1 hc2 hc3 hrk
        obtain ⟨hml, hfr⟩ := insert3_mlookup v h0 hc1 hc2 hc3
        exact ⟨hflag, hsize, hroot, insert3_ok0 v h0 hc1 hc2 hc3, hml, fun k' h => hfr k' h⟩
      | some i =>
        exfalso
        have h3 := chain3 h2 hc3
        obtain ⟨w, hw⟩ := dataQ_of_ok3 h3
        unfold mlookup at hk
        rw [findNode_fullK] at hk
        simp only [hc1, Option.some_bind] at hk
        rw [hc2] at hk
        simp only [Option.some_bind] at hk
        rw [hc3] at hk
        simp only [Option.some_bind] at hk
        rw [hw] at hk
        simp at hk

/-- Effect of `insert` on a present key: the map is unchanged and the flag is
`false` (`insert` never overwrites). -/
theorem insert_of_present {m : MultiKeyMap α β γ ν} (h0 : ok0 m) {k : α × β × γ} {w : ν}
    (hk : mlookup m k = some w) (v : ν) :
    insert m k v = (m, false) := by
  obtain ⟨a, b, c⟩ := k
  unfold mlookup at hk
  rw [Option.map_eq_some'] at hk
  obtain ⟨kv, hch, -⟩ := hk
  rw [Option.bind_eq_some] at hch
  obtain ⟨i, hfi, hd⟩ := hch
  obtain ⟨j, kk, hc1, hc2, hc3, -, -, -⟩ := findNode3_ok h0 hfi
  exact insert_found v hc1 hc2 hc3 hd

theorem length_elems0_insert {m m' : MultiKeyMap α β γ ν} (h0 : ok0 m) (h0' : ok0 m')
    {k : α × β × γ} {v : ν}
    (hnone : mlookup m k = none) (hsome : mlookup m' k = some v)
    (hfr : ∀ k' ≠ k, mlookup m' k' = mlookup m k') :
    (elems0 m').length = (elems0 m).length + 1 := by
  have hnd' : (elems0 m').Nodup := (ndKeys0 h0').of_map
  have hknotin : (k, v) ∉ elems0 m := by
    intro hmem
    rw [mem_elems0_mlookup h0 (k, v)] at hmem
    rw [hnone] at hmem
    cases hmem
  have hnd2 : ((k, v) :: elems0 m).Nodup :=
    List.nodup_cons.mpr ⟨hknotin, (ndKeys0 h0).of_map⟩
  have hperm : (elems0 m').Perm ((k, v) :: elems0 m) := by
    apply perm_of_mem_iff hnd' hnd2
    intro kv
    rw [mem_elems0_mlookup h0' kv, List.mem_cons, mem_elems0_mlookup h0 kv]
    constructor
    · intro hm
      by_cases hkk : kv.1 = k
      · left
        rw [hkk, hsome] at hm
        exact Prod.ext hkk (Option.some.inj hm).symm
      · right
        rw [← hfr kv.1 hkk]
        exact hm
    · intro hm
      rcases hm with hm | hm
      · rw [hm]
        exact hsome
      · by_cases hkk : kv.1 = k
        · rw [hkk, hnone] at hm
          cases hm
        · rw [hfr kv.1 hkk]
          exact hm
  rw [hperm.length_eq]
  simp

theorem length_elems0_update {m m' : MultiKeyMap α β γ ν} (h0 : ok0 m) (h0' : ok0 m')
    {k : α × β × γ} {w v : ν}
    (hsomeOld : mlookup m k = some w) (hsomeNew : mlookup m' k = some v)
    (hfr : ∀ k' ≠ k, mlookup m' k' = mlookup m k') :
    (elems0 m').length = (elems0 m).length := by
  have hnd' : (elems0 m').Nodup := (ndKeys0 h0').of_map
  have hnd : (elems0 m).Nodup := (ndKeys0 h0).of_map
  have hfilnd : ((elems0 m).filter (fun kv => decide ¬(kv.1 = k))).Nodup :=
    hnd.filter _
  have hkfil : ∀ v', (k, v') ∉ (elems0 m).filter (fun kv => decide ¬(kv.1 = k)) := by
    intro v' hmem
    have := (List.mem_filter.mp hmem).2
    simp at this
  have hpermOld : (elems0 m).Perm
      ((k, w) :: (elems0 m).filter (fun kv => decide ¬(kv.1 = k))) := by
    apply perm_of_mem_iff hnd (List.nodup_cons.mpr ⟨hkfil w, hfilnd⟩)
    intro kv
    rw [List.mem_cons, List.mem_filter]
    constructor
    · intro hm
      by_cases hkk : kv.1 = k
      · left
        have := (mem_elems0_mlookup h0 kv).mp hm
        rw [hkk, hsomeOld] at this
        exact Prod.ext hkk (Option.some.inj this).symm
      · right
        exact ⟨hm, by simp [hkk]⟩
    · intro hm
      rcases hm with hm | hm
      · rw [hm]
        exact (mem_elems0_mlookup h0 (k, w)).mpr hsomeOld
      · exact hm.1
  have hpermNew : (elems0 m').Perm
      ((k, v) :: (elems0 m).filter (fun kv => decide ¬(kv.1 = k))) := by
    apply perm_of_mem_iff hnd' (List.nodup_cons.mpr ⟨hkfil v, hfilnd⟩)
    intro kv
    rw [List.mem_cons, List.mem_filter, mem_elems0_mlookup h0' kv]
    constructor
    · intro hm
      by_cases hkk : kv.1 = k
      · left
        rw [hkk, hsomeNew] at hm
        exact Prod.ext hkk (Option.some.inj hm).symm
      · right
        rw [hfr kv.1 hkk] at hm
        exact ⟨(mem_elems0_mlookup h0 kv).mpr hm, by simp [hkk]⟩
    · intro hm
      rcases hm with hm | hm
      · rw [hm]
        exact hsomeNew
      · have hkk : kv.1 ≠ k := by
          have := hm.2
          simp at this
          exact this
        rw [hfr kv.1 hkk]
        exact (mem_elems0_mlookup h0 kv).mp hm.1
  rw [hpermNew.length_eq, hpermOld.length_eq]
  simp

/-- The invariant is preserved by `insert`. -/
theorem insert_Inv {m : MultiKeyMap α β γ ν} (hI : Inv m) (k : α × β × γ) (v : ν) :
    Inv (insert m k v).1 := by
  obtain ⟨h0, hsz⟩ := hI
  cases hk : mlookup m k with
  | none =>
    obtain ⟨-, hsize, -, h0', hml, hfr⟩ := insert_of_absent h0 hk v
    refine ⟨h0', ?_⟩
    rw [hsize, hsz, length_elems0_insert h0 h0' hk hml hfr]
  | some w =>
    rw [insert_of_present h0 hk v]
    exact ⟨h0, hsz⟩

theorem ok3_acc {m m' : MultiKeyMap α β γ ν}
    (H : ∀ x, (getN m' x).isSome = (getN m x).isSome ∧ nCh1 m' x = nCh1 m x ∧
      nCh2 m' x = nCh2 m x ∧ nCh3 m' x = nCh3 m x ∧ nParent m' x = nParent m x ∧
      nKey m' x = nKey m x ∧ (dataQ m' x).isNone = (dataQ m x).isNone)
    {p i : Nat} {a : α} {b : β} {c : γ} (h : ok3 m p i a b c) : ok3 m' p i a b c := by
  obtain ⟨hs, h1, h2, h3, hp, hk, hd⟩ := H i
  obtain ⟨g0, g1, g2, g3, g4, g5⟩ := h
  exact ⟨by rw [hs]; exact g0, by rw [h1]; exact g1, by rw [h2]; exact g2,
    by rw [h3]; exact g3, by rw [hp]; exact g4, by rw [hk]; exact g5⟩

theorem ok2_acc {m m' : MultiKeyMap α β γ ν}
    (H : ∀ x, (getN m' x).isSome = (getN m x).isSome ∧ nCh1 m' x = nCh1 m x ∧
      nCh2 m' x = nCh2 m x ∧ nCh3 m' x = nCh3 m x ∧ nParent m' x = nParent m x ∧
      nKey m' x = nKey m x ∧ (dataQ m' x).isNone = (dataQ m x).isNone)
    {p i : Nat} {a : α} {b : β} (h : ok2 m p i a b) : ok2 m' p i a b := by
  obtain ⟨hs, h1, h2, h3, hp, hk, hd⟩ := H i
  obtain ⟨g0, g1, g2, g3, g4, g5, g6⟩ := h
  refine ⟨by rw [hs]; exact g0, by rw [h1]; exact g1, by rw [h2]; exact g2,
    by rw [hd]; exact g3, by rw [hp]; exact g4, by rw [h3]; exact g5, ?_⟩
  rw [h3]
  intro e he
  exact ok3_acc H (g6 e he)

theorem ok1_acc {m m' : MultiKeyMap α β γ ν}
    (H : ∀ x, (getN m' x).isSome = (getN m x).isSome ∧ nCh1 m' x = nCh1 m x ∧
      nCh2 m' x = nCh2 m x ∧ nCh3 m' x = nCh3 m x ∧ nParent m' x = nParent m x ∧
      nKey m' x = nKey m x ∧ (dataQ m' x).isNone = (dataQ m x).isNone)
    {i : Nat} {a : α} (h : ok1 m i a) : ok1 m' i a := by
  obtain ⟨hs, h1, h2, h3, hp, hk, hd⟩ := H i
  obtain ⟨g0, g1, g2, g3, g4, g5, g6, g7⟩ := h
  refine ⟨by rw [hs]; exact g0, by rw [h1]; exact g1, by rw [h3]; exact g2,
    by rw [hd]; exact g3, by rw [hp]; exact g4, by rw [h2]; exact g5,
    by rw [h2]; exact g6, ?_⟩
  rw [h2]
  intro e he
  exact ok2_acc H (g7 e he)

theorem ok0_acc {m m' : MultiKeyMap α β γ ν}
    (H : ∀ x, (getN m' x).isSome = (getN m x).isSome ∧ nCh1 m' x = nCh1 m x ∧
      nCh2 m' x = nCh2 m x ∧ nCh3 m' x = nCh3 m x ∧ nParent m' x = nParent m x ∧
      nKey m' x = nKey m x ∧ (dataQ m' x).isNone = (dataQ m x).isNone)
    (hroot : m'.root = m.root) (h : ok0 m) : ok0 m' := by
  obtain ⟨hs, h1, h2, h3, hp, hk, hd⟩ := H m.root
  obtain ⟨g0, g1, g2, g3, g4, g5, g6, g7⟩ := h
  rw [show ok0 m' = ((getN m' m.root).isSome = true ∧ nCh2 m' m.root = [] ∧
      nCh3 m' m.root = [] ∧ (dataQ m' m.root).isNone = true ∧ nParent m' m.root = none ∧
      keysND (nCh1 m' m.root) ∧ tgtND (nCh1 m' m.root) ∧
      ∀ e ∈ nCh1 m' m.root, ok1 m' e.2 e.1) from by rw [ok0, hroot]]
  refine ⟨by rw [hs]; exact g0, by rw [h2]; exact g1, by rw [h3]; exact g2,
    by rw [hd]; exact g3, by rw [hp]; exact g4, by rw [h1]; exact g5,
    by rw [h1]; exact g6, ?_⟩
  rw [h1]
  intro e he
  exact ok1_acc H (g7 e he)

theorem findNode_acc {m m' : MultiKeyMap α β γ ν}
    (H : ∀ x, nCh1 m' x = nCh1 m x ∧ nCh2 m' x = nCh2 m x ∧ nCh3 m' x = nCh3 m x)
    (hroot : m'.root = m.root) (p : PKey α β γ) : findNode m' p = findNode m p := by
  have hc1 : ∀ i a, child1 m' i a = child1 m i a := by
    intro i a
    unfold child1
    rw [(H i).1]
  have hc2 : ∀ i b, child2 m' i b = child2 m i b := by
    intro i b
    unfold child2
    rw [(H i).2.1]
  have hc3 : ∀ i c, child3 m' i c = child3 m i c := by
    intro i c
    unfold child3
    rw [(H i).2.2]
  cases p with
  | k1 a => rw [findNode_k1, findNode_k1, hroot, hc1]
  | k2 a b =>
    rw [findNode_k2, findNode_k2, hroot, hc1]
    cases child1 m m.root a with
    | none => rfl
    | some j => simp only [Option.some_bind, hc2]
  | k3 a b c =>
    rw [findNode_k3, findNode_k3, hroot, hc1]
    cases child1 m m.root a with
    | none => rfl
    | some j =>
      simp only [Option.some_bind, hc2]
      cases child2 m j b with
      | none => rfl
      | some k => simp only [Option.some_bind, hc3]

theorem opIndex_present_state {m : MultiKeyMap α β γ ν} {a : α} {b : β} {c : γ} (v : ν)
    {i j k : Nat}
    (hc1 : child1 m m.root a = some j) (hc2 : child2 m j b = some k)
    (hc3 : child3 m k c = some i) {r : Node α β γ ν} (hr : getN m i = some r)
    {kv : (α × β × γ) × ν} (hd : r.data = some kv) :
    opIndexAssign m (a, b, c) v = setN m i { r with data := some (kv.1, v) } := by
  have hW : walkCreate m a b c = (m, i) := by
    unfold walkCreate
    simp only [step1_of_some hc1, step2_of_some hc2, step3_of_some hc3]
  unfold opIndexAssign
  simp only [hW, hr, hd]

/-- Effect of `map[k] = v` on a key already present: only the payload's value
at the resolved node changes. -/
theorem opIndex_present {m : MultiKeyMap α β γ ν} (h0 : ok0 m) {k : α × β × γ} {w : ν}
    (hk : mlookup m k = some w) (v : ν) :
    ok0 (opIndexAssign m k v) ∧ (opIndexAssign m k v).size = m.size ∧
    (opIndexAssign m k v).root = m.root ∧
    mlookup (opIndexAssign m k v) k = some v ∧
    (∀ k' ≠ k, mlookup (opIndexAssign m k v) k' = mlookup m k') := by
  obtain ⟨a, b, c⟩ := k
  have hkex := hk
  unfold mlookup at hkex
  rw [Option.map_eq_some'] at hkex
  obtain ⟨kv, hch, hv⟩ := hkex
  rw [Option.bind_eq_some] at hch
  obtain ⟨i, hfi, hdq⟩ := hch
  obtain ⟨j, kk, hc1, hc2, hc3, -, -, h3⟩ := findNode3_ok h0 hfi
  have hkey : kv.1 = (a, b, c) := key_of_dataQ h3 hdq
  unfold dataQ at hdq
  rw [Option.bind_eq_some] at hdq
  obtain ⟨r, hr, hrd⟩ := hdq
  rw [opIndex_present_state v hc1 hc2 hc3 hr hrd]
  have hgself : getN (setN m i { r with data := some (kv.1, v) }) i =
      some { r with data := some (kv.1, v) } := getN_setN_self hr _
  have hgne : ∀ x, x ≠ i → getN (setN m i { r with data := some (kv.1, v) }) x = getN m x :=
    fun x hx => getN_setN_ne m _ (fun h => hx h.symm)
  have H : ∀ x, (getN (setN m i { r with data := some (kv.1, v) }) x).isSome =
      (getN m x).isSome ∧
      nCh1 (setN m i { r with data := some (kv.1, v) }) x = nCh1 m x ∧
      nCh2 (setN m i { r with data := some (kv.1, v) }) x = nCh2 m x ∧
      nCh3 (setN m i { r with data := some (kv.1, v) }) x = nCh3 m x ∧
      nParent (setN m i { r with data := some (kv.1, v) }) x = nParent m x ∧
      nKey (setN m i { r with data := some (kv.1, v) }) x = nKey m x ∧
      (dataQ (setN m i { r with data := some (kv.1, v) }) x).isNone =
        (dataQ m x).isNone := by
    intro x
    by_cases hx : x = i
    · subst hx
      refine ⟨?_, ?_, ?_, ?_, ?_, ?_, ?_⟩
      · rw [hgself, hr]
        rfl
      · rw [nCh1_of_getN hgself, nCh1_of_getN hr]
      · rw [nCh2_of_getN hgself, nCh2_of_getN hr]
      · rw [nCh3_of_getN hgself, nCh3_of_getN hr]
      · rw [nParent_of_getN hgself, nParent_of_getN hr]
      · unfold nKey
        rw [dataQ_of_getN hgself, dataQ_of_getN hr, hrd]
        rfl
      · rw [dataQ_of_getN hgself, dataQ_of_getN hr, hrd]
        rfl
    · have hg := hgne x hx
      exact ⟨by rw [hg], nCh1_congr hg, nCh2_congr hg, nCh3_congr hg, nParent_congr hg,
        nKey_congr hg, by rw [dataQ_congr hg]⟩
  have hroot : (setN m i { r with data := some (kv.1, v) }).root = m.root := setN_root m i _
  have hfn : ∀ p, findNode (setN m i { r with data := some (kv.1, v) }) p = findNode m p :=
    findNode_acc (fun x => ⟨(H x).2.1, (H x).2.2.1, (H x).2.2.2.1⟩) hroot
  refine ⟨ok0_acc H hroot h0, setN_size m i _, hroot, ?_, ?_⟩
  · unfold mlookup
    rw [hfn, hfi]
    simp only [Option.some_bind]
    rw [dataQ_of_getN hgself]
    simp
  · intro k' hne
    unfold mlookup
    rw [hfn]
    cases hfi' : findNode m (fullK k') with
    | none => rfl
    | some i' =>
      simp only [Option.some_bind]
      have hii : i' ≠ i := by
        intro he
        obtain ⟨x', y', z'⟩ := k'
        obtain ⟨j', kk', -, -, -, -, -, h3'⟩ := findNode3_ok h0 hfi'
        rw [he] at h3'
        have hk2 : nKey m i = some (x', y', z') := h3'.2.2.2.2.2
        have hk1 : nKey m i = some kv.1 := by
          unfold nKey dataQ
          rw [hr]
          simp [hrd]
        rw [hk1] at hk2
        have := Option.some.inj hk2
        rw [hkey] at this
        exact hne this.symm
      rw [dataQ_congr (hgne i' hii)]

/-- Full effect of `operator[]` assignment: the key ends up bound to the new
value, other keys are untouched, the size grows exactly when the key was
absent, and the invariant is preserved. -/
theorem opIndex_effect {m : MultiKeyMap α β γ ν} (hI : Inv m) (k : α × β × γ) (v : ν) :
    Inv (opIndexAssign m k v) ∧
    mlookup (opIndexAssign m k v) k = some v ∧
    (∀ k' ≠ k, mlookup (opIndexAssign m k v) k' = mlookup m k') ∧
    (opIndexAssign m k v).size =
      (if (mlookup m k).isNone then m.size + 1 else m.size) := by
  obtain ⟨h0, hsz⟩ := hI
  cases hk : mlookup m k with
  | none =>
    obtain ⟨hflag, hsize, -, h0', hml, hfr⟩ := insert_of_absent h0 hk v
    rw [opIndex_of_create k v hflag]
    refine ⟨⟨h0', ?_⟩, hml, hfr, by simp [hsize, hk]⟩
    rw [hsize, hsz, length_elems0_insert h0 h0' hk hml hfr]
  | some w =>
    obtain ⟨h0', hsize, -, hml, hfr⟩ := opIndex_present h0 hk v
    refine ⟨⟨h0', ?_⟩, hml, hfr, by simp [hsize, hk]⟩
    rw [hsize, hsz, length_elems0_update h0 h0' hk hml hfr]

end InsertEffect

/-! Effect of `erase` on well-formed states. -/

section EraseEffect

variable {α β γ ν : Type} [DecidableEq α] [DecidableEq β] [DecidableEq γ]

theorem tgtND_aerase {κ : Type} [DecidableEq κ] {l : List (κ × Nat)} (hnd : tgtND l)
    (k : κ) : tgtND (aerase l k) := by
  unfold tgtND at hnd ⊢
  exact ((aerase_sublist l k).map Prod.snd).nodup hnd

theorem not_mem_of_alook_none {κ : Type} [DecidableEq κ] {l : List (κ × Nat)} {k : κ}
    (h : alook l k = none) (v : Nat) : (k, v) ∉ l := by
  induction l with
  | nil => simp
  | cons e t ih =>
    obtain ⟨ek, ev⟩ := e
    by_cases hk : k = ek
    · subst hk
      simp [alook] at h
    · simp only [alook, if_neg hk] at h
      simp only [List.mem_cons, Prod.mk.injEq]
      rintro (⟨h1, -⟩ | hm)
      · exact hk h1
      · exact ih h hm

/-- What erasing all matches of a prefix does to the length of the full
enumeration: the enumeration loses exactly `count` entries. -/
theorem length_elems0_erase {m m' : MultiKeyMap α β γ ν} (h0 : ok0 m) (h0' : ok0 m')
    (p : PKey α β γ)
    (hgone : ∀ k', matchesK p k' → mlookup m' k' = none)
    (hfr : ∀ k', ¬ matchesK p k' → mlookup m' k' = mlookup m k') :
    (elems0 m').length + count m p = (elems0 m).length := by
  have hnd' : (elems0 m').Nodup := (ndKeys0 h0').of_map
  have hnd : (elems0 m).Nodup := (ndKeys0 h0).of_map
  have hndf : (findElems m p).Nodup := (ndKeys_findElems h0 p).of_map
  have hperm1 : (elems0 m').Perm
      ((elems0 m).filter (fun kv => ! decide (matchesK p kv.1))) := by
    refine perm_of_mem_iff hnd' (hnd.filter _) ?_
    intro kv
    rw [List.mem_filter, mem_elems0_mlookup h0' kv, mem_elems0_mlookup h0 kv]
    by_cases hm : matchesK p kv.1
    · rw [hgone kv.1 hm]
      simp [hm]
    · rw [hfr kv.1 hm]
      simp [hm]
  have hperm2 : (findElems m p).Perm
      ((elems0 m).filter (fun kv => decide (matchesK p kv.1))) := by
    refine perm_of_mem_iff hndf (hnd.filter _) ?_
    intro kv
    rw [List.mem_filter, mem_findElems h0 p kv, mem_elems0_mlookup h0 kv]
    simp [and_comm]
  have hadd := length_filter_add (elems0 m) (fun kv => decide (matchesK p kv.1))
  unfold count
  rw [hperm1.length_eq, hperm2.length_eq]
  omega

theorem count_le_length {m : MultiKeyMap α β γ ν} (h0 : ok0 m) (p : PKey α β γ) :
    count m p ≤ (elems0 m).length := by
  have hndf : (findElems m p).Nodup := (ndKeys_findElems h0 p).of_map
  have hnd : (elems0 m).Nodup := (ndKeys0 h0).of_map
  have hperm : (findElems m p).Perm
      ((elems0 m).filter (fun kv => decide (matchesK p kv.1))) := by
    refine perm_of_mem_iff hndf (hnd.filter _) ?_
    intro kv
    rw [List.mem_filter, mem_findElems h0 p kv, mem_elems0_mlookup h0 kv]
    simp [and_comm]
  unfold count
  rw [hperm.length_eq]
  exact List.length_filter_le _ _

theorem erase3_state {m : MultiKeyMap α β γ ν} {a : α} {b : β} {c : γ} {i k : Nat}
    (hf : findNode m (.k3 a b c) = some i) {ri : Node α β γ ν}
    (hri : getN m i = some ri) (hpk : ri.parent = some k) :
    erase m (.k3 a b c) =
      some (modN (modN { m with size := m.size - (drainF m (iterFuel m) [i]).length }
        i (fun r => { r with ch1 := [], ch2 := [], ch3 := [] }))
        k (fun r => { r with ch3 := aerase r.ch3 c })) := by
  have hri1 : getN { m with size := m.size - (drainF m (iterFuel m) [i]).length } i =
      some ri := hri
  have hpar : nParent (modN { m with size := m.size - (drainF m (iterFuel m) [i]).length }
      i (fun r => { r with ch1 := [], ch2 := [], ch3 := [] })) i = some k := by
    rw [nParent_of_getN (getN_modN_self hri1 _)]
    exact hpk
  unfold erase
  rw [hf]
  show (match nParent (modN { m with size := m.size - (drainF m (iterFuel m) [i]).length }
      i (fun r => { r with ch1 := [], ch2 := [], ch3 := [] })) i with
    | none => some (modN { m with size := m.size - (drainF m (iterFuel m) [i]).length }
        i (fun r => { r with ch1 := [], ch2 := [], ch3 := [] }))
    | some par => some (modN (modN
        { m with size := m.size - (drainF m (iterFuel m) [i]).length }
        i (fun r => { r with ch1 := [], ch2 := [], ch3 := [] }))
        par (fun r => { r with ch3 := aerase r.ch3 c }))) = _
  rw [hpar]

theorem erase2_state {m : MultiKeyMap α β γ ν} {a : α} {b : β} {i k : Nat}
    (hf : findNode m (.k2 a b) = some i) {ri : Node α β γ ν}
    (hri : getN m i = some ri) (hpk : ri.parent = some k) :
    erase m (.k2 a b) =
      some (modN (modN { m with size := m.size - (drainF m (iterFuel m) [i]).length }
        i (fun r => { r with ch1 := [], ch2 := [], ch3 := [] }))
        k (fun r => { r with ch2 := aerase r.ch2 b })) := by
  have hri1 : getN { m with size := m.size - (drainF m (iterFuel m) [i]).length } i =
      some ri := hri
  have hpar : nParent (modN { m with size := m.size - (drainF m (iterFuel m) [i]).length }
      i (fun r => { r with ch1 := [], ch2 := [], ch3 := [] })) i = some k := by
    rw [nParent_of_getN (getN_modN_self hri1 _)]
    exact hpk
  unfold erase
  rw [hf]
  show (match nParent (modN { m with size := m.size - (drainF m (iterFuel m) [i]).length }
      i (fun r => { r with ch1 := [], ch2 := [], ch3 := [] })) i with
    | none => some (modN { m with size := m.size - (drainF m (iterFuel m) [i]).length }
        i (fun r => { r with ch1 := [], ch2 := [], ch3 := [] }))
    | some par => some (modN (modN
        { m with size := m.size - (drainF m (iterFuel m) [i]).length }
        i (fun r => { r with ch1 := [], ch2 := [], ch3 := [] }))
        par (fun r => { r with ch2 := aerase r.ch2 b }))) = _
  rw [hpar]

theorem erase1_state {m : MultiKeyMap α β γ ν} {a : α} {i : Nat}
    (hf : findNode m (.k1 a) = some i) {ri : Node α β γ ν}
    (hri : getN m i = some ri) (hpk : ri.parent = none) :
    erase m (.k1 a) =
      some (modN { m with size := m.size - (drainF m (iterFuel m) [i]).length }
        i (fun r => { r with ch1 := [], ch2 := [], ch3 := [] })) := by
  have hri1 : getN { m with size := m.size - (drainF m (iterFuel m) [i]).length } i =
      some ri := hri
  have hpar : nParent (modN { m with size := m.size - (drainF m (iterFuel m) [i]).length }
      i (fun r => { r with ch1 := [], ch2 := [], ch3 := [] })) i = none := by
    rw [nParent_of_getN (getN_modN_self hri1 _)]
    exact hpk
  unfold erase
  rw [hf]
  show (match nParent (modN { m with size := m.size - (drainF m (iterFuel m) [i]).length }
      i (fun r => { r with ch1 := [], ch2 := [], ch3 := [] })) i with
    | none => some (modN { m with size := m.size - (drainF m (iterFuel m) [i]).length }
        i (fun r => { r with ch1 := [], ch2 := [], ch3 := [] }))
    | some par => some (modN (modN
        { m with size := m.size - (drainF m (iterFuel m) [i]).length }
        i (fun r => { r with ch1 := [], ch2 := [], ch3 := [] }))
        par (fun r => { r with ch1 := aerase r.ch1 a }))) = _
  rw [hpar]

theorem erase_of_absent {m : MultiKeyMap α β γ ν} {p : PKey α β γ}
    (h : findNode m p = none) : erase m p = none := by
  unfold erase
  rw [h]

/-- Effect of `erase` on a full (length-3) key that resolves: one payload is
removed, the leaf's edge is detached from its depth-2 parent, and nothing
else changes. -/
theorem erase3_effect {m : MultiKeyMap α β γ ν} (hI : Inv m) {a : α} {b : β} {c : γ}
    {i : Nat} (hf : findNode m (.k3 a b c) = some i) :
    ∃ m', erase m (.k3 a b c) = some m' ∧ Inv m' ∧
      m'.size + count m (.k3 a b c) = m.size ∧ m'.root = m.root ∧
      findNode m' (.k3 a b c) = none ∧
      (∀ k', matchesK (.k3 a b c) k' → mlookup m' k' = none) ∧
      (∀ k', ¬ matchesK (.k3 a b c) k' → mlookup m' k' = mlookup m k') := by
  obtain ⟨h0, hsz⟩ := hI
  obtain ⟨j, k, hc1, hc2, hc3, h1, h2, h3⟩ := findNode3_ok h0 hf
  obtain ⟨ri, hri⟩ := isSome_getN h3.1
  obtain ⟨rk, hrk⟩ := isSome_getN h2.1
  have hpi : nParent m i = some k := h3.2.2.2.2.1
  have hpk : nParent m k = some j := h2.2.2.2.2.1
  have hpj : nParent m j = none := h1.2.2.2.2.1
  have hproot : nParent m m.root = none := h0.2.2.2.2.1
  have hkj : k ≠ j := ne_of_nParent (by rw [hpk, hpj]; simp)
  have hik : i ≠ k := by
    intro he
    rw [he, hpk] at hpi
    exact hkj (Option.some.inj hpi).symm
  have hij : i ≠ j := ne_of_nParent (by rw [hpi, hpj]; simp)
  have hrootk : m.root ≠ k := ne_of_nParent (by rw [hproot, hpk]; simp)
  have hrooti : m.root ≠ i := ne_of_nParent (by rw [hproot, hpi]; simp)
  have hstate := erase3_state hf hri (by rw [← nParent_of_getN hri]; exact hpi)
  obtain ⟨m', hm'⟩ : ∃ mm,
      modN (modN { m with size := m.size - (drainF m (iterFuel m) [i]).length }
        i (fun r => { r with ch1 := [], ch2 := [], ch3 := [] }))
        k (fun r => { r with ch3 := aerase r.ch3 c }) = mm := ⟨_, rfl⟩
  rw [hm'] at hstate
  have hKeep : ∀ x, x ≠ k → x ≠ i → getN m' x = getN m x := by
    intro x hxk hxi
    rw [← hm', getN_modN_ne _ _ (Ne.symm hxk), getN_modN_ne _ _ (Ne.symm hxi)]
    rfl
  have hri1 : getN { m with size := m.size - (drainF m (iterFuel m) [i]).length } i =
      some ri := hri
  have hrk2 : getN (modN { m with size := m.size - (drainF m (iterFuel m) [i]).length }
      i (fun r => { r with ch1 := [], ch2 := [], ch3 := [] })) k = some rk := by
    rw [getN_modN_ne _ _ hik]
    exact hrk
  have hAtK : getN m' k = some { rk with ch3 := aerase rk.ch3 c } := by
    rw [← hm']
    exact getN_modN_self hrk2 _
  have hroot' : m'.root = m.root := by
    rw [← hm', modN_root, modN_root]
  have hcount : count m (.k3 a b c) = 1 := by
    unfold count
    rw [findElems_of_some hf, drain_full3 h3]
    obtain ⟨v, hv⟩ := dataQ_of_ok3 h3
    rw [hv]
    rfl
  have hsize' : m'.size = m.size - 1 := by
    rw [← hm', modN_size, modN_size]
    show m.size - (drainF m (iterFuel m) [i]).length = m.size - 1
    rw [drain_full3 h3]
    obtain ⟨v, hv⟩ := dataQ_of_ok3 h3
    rw [hv]
    rfl
  have hch3k : nCh3 m' k = aerase (nCh3 m k) c := by
    rw [nCh3_of_getN hAtK, nCh3_of_getN hrk]
  have hch1k : nCh1 m' k = nCh1 m k := by rw [nCh1_of_getN hAtK, nCh1_of_getN hrk]
  have hch2k : nCh2 m' k = nCh2 m k := by rw [nCh2_of_getN hAtK, nCh2_of_getN hrk]
  have hdk : dataQ m' k = dataQ m k := by rw [dataQ_of_getN hAtK, dataQ_of_getN hrk]
  have hpk' : nParent m' k = nParent m k := by
    rw [nParent_of_getN hAtK, nParent_of_getN hrk]
  have hknd3 : keysND (nCh3 m k) := h2.2.2.2.2.2.1
  have hKeepJ : getN m' j = getN m j := hKeep j (Ne.symm hkj) (fun h => hij h.symm)
  have hchild1' : ∀ x, child1 m' m.root x = child1 m m.root x := by
    intro x
    unfold child1
    rw [nCh1_congr (hKeep m.root hrootk hrooti)]
  have hchild2j : ∀ y, child2 m' j y = child2 m j y := by
    intro y
    unfold child2
    rw [nCh2_congr hKeepJ]
  have hc3' : child3 m' k c = none := by
    unfold child3
    rw [hch3k]
    exact alook_aerase_self hknd3 c
  have hfind' : findNode m' (.k3 a b c) = none := by
    rw [findNode_k3, hroot', hchild1', hc1]
    simp only [Option.some_bind]
    rw [hchild2j, hc2]
    simp only [Option.some_bind]
    exact hc3'
  have hgone : ∀ k', matchesK (.k3 a b c) k' → mlookup m' k' = none := by
    intro k' hmk
    rw [matchesK3_iff] at hmk
    subst hmk
    unfold mlookup
    rw [show findNode m' (fullK (a, b, c)) = findNode m' (.k3 a b c) from rfl, hfind']
    rfl
  have hfr : ∀ k', ¬ matchesK (.k3 a b c) k' → mlookup m' k' = mlookup m k' := by
    intro k' hmk
    rw [matchesK3_iff] at hmk
    obtain ⟨x, y, z⟩ := k'
    rw [mlookup_expand, mlookup_expand, hroot', hchild1']
    cases hj' : child1 m m.root x with
    | none => rfl
    | some j' =>
      simp only [Option.some_bind]
      have h1' := chain1 h0 hj'
      have hpj' : nParent m j' = none := h1'.2.2.2.2.1
      have hj'k : j' ≠ k := ne_of_nParent (by rw [hpj', hpk]; simp)
      have hj'i : j' ≠ i := ne_of_nParent (by rw [hpj', hpi]; simp)
      have hKj' : getN m' j' = getN m j' := hKeep j' hj'k hj'i
      have hch2j' : ∀ y', child2 m' j' y' = child2 m j' y' := by
        intro y'
        unfold child2
        rw [nCh2_congr hKj']
      rw [hch2j']
      cases hk' : child2 m j' y with
      | none => rfl
      | some k'' =>
        simp only [Option.some_bind]
        have h2' := chain2 h1' hk'
        have hpk'' : nParent m k'' = some j' := h2'.2.2.2.2.1
        by_cases hkk : k'' = k
        · have hj'j : j' = j := by
            rw [hkk, hpk] at hpk''
            exact (Option.some.inj hpk'').symm
          rw [hkk] at hk' h2' ⊢
          rw [hj'j] at hj' hk' h1' h2'
          have hxa : x = a := by
            have e1 : (x, j) ∈ nCh1 m m.root := alook_mem hj'
            have e2 : (a, j) ∈ nCh1 m m.root := alook_mem hc1
            have htnd : tgtND (nCh1 m m.root) := h0.2.2.2.2.2.2.1
            exact congrArg Prod.fst (entry_eq_of_tgt htnd e1 e2 rfl)
          have hyb : y = b := by
            have e1 : (y, k) ∈ nCh2 m j := alook_mem hk'
            have e2 : (b, k) ∈ nCh2 m j := alook_mem hc2
            have htnd : tgtND (nCh2 m j) := h1.2.2.2.2.2.2.1
            exact congrArg Prod.fst (entry_eq_of_tgt htnd e1 e2 rfl)
          have hzc : z ≠ c := by
            intro he
            exact hmk (by rw [hxa, hyb, he])
          have hch3eq : child3 m' k z = child3 m k z := by
            unfold child3
            rw [hch3k]
            exact alook_aerase_ne _ hzc
          rw [hch3eq]
          cases hl : child3 m k z with
          | none => rfl
          | some l =>
            simp only [Option.some_bind]
            have h3' := chain3 h2' hl
            have hpl : nParent m l = some k := h3'.2.2.2.2.1
            have hlk : l ≠ k := by
              intro he
              rw [he, hpk] at hpl
              exact hkj (Option.some.inj hpl).symm
            have hli : l ≠ i := by
              intro he
              have hk1 : nKey m l = some (x, y, z) := h3'.2.2.2.2.2
              have hk2 : nKey m i = some (a, b, c) := h3.2.2.2.2.2
              rw [he, hk2] at hk1
              exact hmk (Option.some.inj hk1).symm
            rw [dataQ_congr (hKeep l hlk hli)]
        · have hk''i : k'' ≠ i := by
            intro he
            rw [he, hpi] at hpk''
            exact hj'k (Option.some.inj hpk'').symm
          have hch3eq : ∀ z', child3 m' k'' z' = child3 m k'' z' := by
            intro z'
            unfold child3
            rw [nCh3_congr (hKeep k'' hkk hk''i)]
          rw [hch3eq]
          cases hl : child3 m k'' z with
          | none => rfl
          | some l =>
            simp only [Option.some_bind]
            have h3' := chain3 h2' hl
            have hpl : nParent m l = some k'' := h3'.2.2.2.2.1
            have hlk : l ≠ k := by
              intro he
              rw [he, hpk] at hpl
              have hj'' := (Option.some.inj hpl).symm
              rw [hj''] at hpk''
              rw [hpj] at hpk''
              exact Option.noConfusion hpk''
            have hli : l ≠ i := by
              intro he
              rw [he, hpi] at hpl
              exact hkk (Option.some.inj hpl).symm
            rw [dataQ_congr (hKeep l hlk hli)]
  have hok0' : ok0 m' := by
    have hKr : getN m' m.root = getN m m.root := hKeep m.root hrootk hrooti
    obtain ⟨g0, g1, g2, g3, g4, g5, g6, g7⟩ := h0
    rw [show ok0 m' = ((getN m' m.root).isSome = true ∧ nCh2 m' m.root = [] ∧
        nCh3 m' m.root = [] ∧ (dataQ m' m.root).isNone = true ∧ nParent m' m.root = none ∧
        keysND (nCh1 m' m.root) ∧ tgtND (nCh1 m' m.root) ∧
        ∀ e ∈ nCh1 m' m.root, ok1 m' e.2 e.1) from by rw [ok0, hroot']]
    refine ⟨by rw [hKr]; exact g0, by rw [nCh2_congr hKr]; exact g1,
      by rw [nCh3_congr hKr]; exact g2, by rw [dataQ_congr hKr]; exact g3,
      by rw [nParent_congr hKr]; exact g4, by rw [nCh1_congr hKr]; exact g5,
      by rw [nCh1_congr hKr]; exact g6, ?_⟩
    rw [nCh1_congr hKr]
    intro e he
    by_cases hej : e.2 = j
    · have heaj : e = (a, j) := entry_eq_of_tgt g6 he (alook_mem hc1) (by rw [hej])
      rw [heaj]
      show ok1 m' j a
      obtain ⟨f0, f1, f2, f3, f4, f5, f6, f7⟩ := h1
      refine ⟨by rw [hKeepJ]; exact f0, by rw [nCh1_congr hKeepJ]; exact f1,
        by rw [nCh3_congr hKeepJ]; exact f2, by rw [dataQ_congr hKeepJ]; exact f3,
        by rw [nParent_congr hKeepJ]; exact f4, by rw [nCh2_congr hKeepJ]; exact f5,
        by rw [nCh2_congr hKeepJ]; exact f6, ?_⟩
      rw [nCh2_congr hKeepJ]
      intro e2 he2
      by_cases he2k : e2.2 = k
      · have hebk : e2 = (b, k) := entry_eq_of_tgt f6 he2 (alook_mem hc2) (by rw [he2k])
        rw [hebk]
        show ok2 m' j k a b
        obtain ⟨q0, q1, q2, q3, q4, q5, q6⟩ := h2
        refine ⟨?_, ?_, ?_, ?_, ?_, ?_, ?_⟩
        · rw [hAtK]
          rfl
        · rw [hch1k]
          exact q1
        · rw [hch2k]
          exact q2
        · rw [hdk]
          exact q3
        · rw [hpk']
          exact q4
        · rw [hch3k]
          exact keysND_aerase q5 c
        · rw [hch3k]
          intro e3 he3
          have he3mem : e3 ∈ nCh3 m k := mem_aerase he3
          have h3e := q6 e3 he3mem
          have he3k : e3.2 ≠ k := by
            intro he'
            have hp3 := h3e.2.2.2.2.1
            rw [he', hpk] at hp3
            exact hkj (Option.some.inj hp3).symm
          have he3i : e3.2 ≠ i := by
            intro he'
            have hk1 : nKey m e3.2 = some (a, b, e3.1) := h3e.2.2.2.2.2
            have hk2 : nKey m i = some (a, b, c) := h3.2.2.2.2.2
            rw [he', hk2] at hk1
            have he3c : e3.1 = c :=
              (congrArg (fun t => t.2.2) (Option.some.inj hk1)).symm
            have hce3 : (c, e3.2) = e3 := by
              rw [← he3c]
            have hcmem : (c, e3.2) ∈ aerase (nCh3 m k) c := by
              rw [hce3]
              exact he3
            exact not_mem_of_alook_none (alook_aerase_self q5 c) e3.2 hcmem
          exact ok3_congr (hKeep e3.2 he3k he3i) h3e
      · have h2e := f7 e2 he2
        have hbad : ¬ (e2.2 = k ∨ e2.2 = i) := by
          rintro (h | h)
          · exact he2k h
          · have hp2 := h2e.2.2.2.2.1
            rw [h, hpi] at hp2
            exact hkj (Option.some.inj hp2)
        refine ok2_shield (fun x => x = k ∨ x = i) h2e ?_ hbad ?_
        · intro x r hx hnb
          rw [hKeep x (fun h => hnb (Or.inl h)) (fun h => hnb (Or.inr h))]
          exact hx
        · intro x hx
          rintro (he' | he')
          · rw [he', hpk] at hx
            have hej' := (Option.some.inj hx).symm
            have hpe2 := h2e.2.2.2.2.1
            rw [hej'] at hpe2
            rw [hpj] at hpe2
            exact Option.noConfusion hpe2
          · rw [he', hpi] at hx
            exact he2k (Option.some.inj hx).symm
    · have h1e := g7 e he
      have hpe : nParent m e.2 = none := h1e.2.2.2.2.1
      have hbad : ¬ (e.2 = k ∨ e.2 = i) := by
        rintro (h | h)
        · rw [h, hpk] at hpe
          exact Option.noConfusion hpe
        · rw [h, hpi] at hpe
          exact Option.noConfusion hpe
      refine ok1_shield (fun x => x = k ∨ x = i) h1e ?_ hbad ?_ ?_
      · intro x r hx hnb
        rw [hKeep x (fun h => hnb (Or.inl h)) (fun h => hnb (Or.inr h))]
        exact hx
      · intro x hx
        rintro (he' | he')
        · rw [he', hpk] at hx
          exact hej (Option.some.inj hx).symm
        · rw [he', hpi] at hx
          exact hbad (Or.inl (Option.some.inj hx).symm)
      · intro x q hx hq
        rintro (he' | he')
        · rw [he', hpk] at hx
          have hqj := Option.some.inj hx
          rw [← hqj, hpj] at hq
          exact Option.noConfusion hq
        · rw [he', hpi] at hx
          have hqk := Option.some.inj hx
          rw [← hqk, hpk] at hq
          exact hej (Option.some.inj hq).symm
  have hle := length_elems0_erase h0 hok0' (.k3 a b c) hgone hfr
  have hcle := count_le_length h0 (PKey.k3 a b c)
  have hInv' : Inv m' := ⟨hok0', by omega⟩
  have hsizeeq : m'.size + count m (.k3 a b c) = m.size := by omega
  exact ⟨m', hstate, hInv', hsizeeq, hroot', hfind', hgone, hfr⟩

/-- Effect of `erase` on a length-2 prefix that resolves: every payload under
the resolved depth-2 node is removed and its edge is detached from the
depth-1 parent. -/
theorem erase2_effect {m : MultiKeyMap α β γ ν} (hI : Inv m) {a : α} {b : β}
    {i : Nat} (hf : findNode m (.k2 a b) = some i) :
    ∃ m', erase m (.k2 a b) = some m' ∧ Inv m' ∧
      m'.size + count m (.k2 a b) = m.size ∧ m'.root = m.root ∧
      findNode m' (.k2 a b) = none ∧
      (∀ k', matchesK (.k2 a b) k' → mlookup m' k' = none) ∧
      (∀ k', ¬ matchesK (.k2 a b) k' → mlookup m' k' = mlookup m k') := by
  obtain ⟨h0, hsz⟩ := hI
  obtain ⟨j, hc1, hc2⟩ : ∃ j, child1 m m.root a = some j ∧ child2 m j b = some i := by
    rw [findNode_k2] at hf
    rw [Option.bind_eq_some] at hf
    obtain ⟨j, hj, hi⟩ := hf
    exact ⟨j, hj, hi⟩
  have hf' : findNode m (.k2 a b) = some i := by
    rw [findNode_k2, hc1]
    simp only [Option.some_bind]
    exact hc2
  have h1 := chain1 h0 hc1
  have h2 := chain2 h1 hc2
  obtain ⟨ri, hri⟩ := isSome_getN h2.1
  obtain ⟨rj, hrj⟩ := isSome_getN h1.1
  have hpi : nParent m i = some j := h2.2.2.2.2.1
  have hpj : nParent m j = none := h1.2.2.2.2.1
  have hproot : nParent m m.root = none := h0.2.2.2.2.1
  have hij : i ≠ j := ne_of_nParent (by rw [hpi, hpj]; simp)
  have hrooti : m.root ≠ i := ne_of_nParent (by rw [hproot, hpi]; simp)
  have hrootj : m.root ≠ j := by
    intro he
    have hch : nCh1 m j = [] := h1.2.1
    have hmem : (a, j) ∈ nCh1 m m.root := alook_mem hc1
    rw [he, hch] at hmem
    exact List.not_mem_nil _ hmem
  have hstate := erase2_state hf' hri (by rw [← nParent_of_getN hri]; exact hpi)
  obtain ⟨m', hm'⟩ : ∃ mm,
      modN (modN { m with size := m.size - (drainF m (iterFuel m) [i]).length }
        i (fun r => { r with ch1 := [], ch2 := [], ch3 := [] }))
        j (fun r => { r with ch2 := aerase r.ch2 b }) = mm := ⟨_, rfl⟩
  rw [hm'] at hstate
  have hKeep : ∀ x, x ≠ j → x ≠ i → getN m' x = getN m x := by
    intro x hxj hxi
    rw [← hm', getN_modN_ne _ _ (Ne.symm hxj), getN_modN_ne _ _ (Ne.symm hxi)]
    rfl
  have hri1 : getN { m with size := m.size - (drainF m (iterFuel m) [i]).length } i =
      some ri := hri
  have hrj2 : getN (modN { m with size := m.size - (drainF m (iterFuel m) [i]).length }
      i (fun r => { r with ch1 := [], ch2 := [], ch3 := [] })) j = some rj := by
    rw [getN_modN_ne _ _ hij]
    exact hrj
  have hAtJ : getN m' j = some { rj with ch2 := aerase rj.ch2 b } := by
    rw [← hm']
    exact getN_modN_self hrj2 _
  have hroot' : m'.root = m.root := by
    rw [← hm', modN_root, modN_root]
  have hcount : count m (.k2 a b) = (drainF m (iterFuel m) [i]).length := by
    unfold count
    rw [findElems_of_some hf']
  have hsize' : m'.size = m.size - count m (.k2 a b) := by
    rw [← hm', modN_size, modN_size, hcount]
  have hch2j : nCh2 m' j = aerase (nCh2 m j) b := by
    rw [nCh2_of_getN hAtJ, nCh2_of_getN hrj]
  have hch1j : nCh1 m' j = nCh1 m j := by rw [nCh1_of_getN hAtJ, nCh1_of_getN hrj]
  have hch3j : nCh3 m' j = nCh3 m j := by rw [nCh3_of_getN hAtJ, nCh3_of_getN hrj]
  have hdj : dataQ m' j = dataQ m j := by rw [dataQ_of_getN hAtJ, dataQ_of_getN hrj]
  have hpj' : nParent m' j = nParent m j := by
    rw [nParent_of_getN hAtJ, nParent_of_getN hrj]
  have hknd2 : keysND (nCh2 m j) := h1.2.2.2.2.2.1
  have htnd2 : tgtND (nCh2 m j) := h1.2.2.2.2.2.2.1
  have hchild1' : ∀ x, child1 m' m.root x = child1 m m.root x := by
    intro x
    unfold child1
    rw [nCh1_congr (hKeep m.root hrootj hrooti)]
  have hc2' : child2 m' j b = none := by
    unfold child2
    rw [hch2j]
    exact alook_aerase_self hknd2 b
  have hfind' : findNode m' (.k2 a b) = none := by
    rw [findNode_k2, hroot', hchild1', hc1]
    simp only [Option.some_bind]
    exact hc2'
  have hgone : ∀ k', matchesK (.k2 a b) k' → mlookup m' k' = none := by
    intro k' hmk
    obtain ⟨x, y, z⟩ := k'
    obtain ⟨hxa, hyb⟩ := hmk
    simp only at hxa hyb
    rw [mlookup_expand, hroot', hchild1', hxa, hc1]
    simp only [Option.some_bind]
    rw [hyb, hc2']
    rfl
  have hfr : ∀ k', ¬ matchesK (.k2 a b) k' → mlookup m' k' = mlookup m k' := by
    intro k' hmk
    obtain ⟨x, y, z⟩ := k'
    rw [mlookup_expand, mlookup_expand, hroot', hchild1']
    cases hj' : child1 m m.root x with
    | none => rfl
    | some j' =>
      simp only [Option.some_bind]
      have h1' := chain1 h0 hj'
      have hpj'' : nParent m j' = none := h1'.2.2.2.2.1
      have hj'i : j' ≠ i := ne_of_nParent (by rw [hpj'', hpi]; simp)
      by_cases hjj : j' = j
      · rw [hjj] at hj' h1'
        have hxa : x = a := by
          have e1 : (x, j) ∈ nCh1 m m.root := alook_mem hj'
          have e2 : (a, j) ∈ nCh1 m m.root := alook_mem hc1
          have htnd : tgtND (nCh1 m m.root) := h0.2.2.2.2.2.2.1
          exact congrArg Prod.fst (entry_eq_of_tgt htnd e1 e2 rfl)
        have hyb : y ≠ b := by
          intro he
          exact hmk ⟨hxa, he⟩
        have hch2eq : child2 m' j' y = child2 m j' y := by
          rw [hjj]
          unfold child2
          rw [hch2j]
          exact alook_aerase_ne _ hyb
        rw [hch2eq, hjj]
        cases hk' : child2 m j y with
        | none => rfl
        | some k'' =>
          simp only [Option.some_bind]
          have h2' := chain2 h1' hk'
          have hpk'' : nParent m k'' = some j := h2'.2.2.2.2.1
          have hk''i : k'' ≠ i := by
            intro he
            have e1 : (y, k'') ∈ nCh2 m j := alook_mem hk'
            have e2 : (b, i) ∈ nCh2 m j := alook_mem hc2
            rw [he] at e1
            exact hyb (congrArg Prod.fst (entry_eq_of_tgt htnd2 e1 e2 rfl))
          have hk''j : k'' ≠ j := by
            intro he
            rw [he, hpj] at hpk''
            exact Option.noConfusion hpk''
          have hch3eq : ∀ z', child3 m' k'' z' = child3 m k'' z' := by
            intro z'
            unfold child3
            rw [nCh3_congr (hKeep k'' hk''j hk''i)]
          rw [hch3eq]
          cases hl : child3 m k'' z with
          | none => rfl
          | some l =>
            simp only [Option.some_bind]
            have h3' := chain3 h2' hl
            have hpl : nParent m l = some k'' := h3'.2.2.2.2.1
            have hli : l ≠ i := by
              intro he
              rw [he, hpi] at hpl
              exact hk''j (Option.some.inj hpl).symm
            have hlj : l ≠ j := by
              intro he
              rw [he, hpj] at hpl
              exact Option.noConfusion hpl
            rw [dataQ_congr (hKeep l hlj hli)]
      · have hKj' : getN m' j' = getN m j' := hKeep j' hjj hj'i
        have hch2eq : ∀ y', child2 m' j' y' = child2 m j' y' := by
          intro y'
          unfold child2
          rw [nCh2_congr hKj']
        rw [hch2eq]
        cases hk' : child2 m j' y with
        | none => rfl
        | some k'' =>
          simp only [Option.some_bind]
          have h2' := chain2 h1' hk'
          have hpk'' : nParent m k'' = some j' := h2'.2.2.2.2.1
          have hk''i : k'' ≠ i := by
            intro he
            rw [he, hpi] at hpk''
            exact hjj (Option.some.inj hpk'').symm
          have hk''j : k'' ≠ j := by
            intro he
            rw [he, hpj] at hpk''
            exact Option.noConfusion hpk''
          have hch3eq : ∀ z', child3 m' k'' z' = child3 m k'' z' := by
            intro z'
            unfold child3
            rw [nCh3_congr (hKeep k'' hk''j hk''i)]
          rw [hch3eq]
          cases hl : child3 m k'' z with
          | none => rfl
          | some l =>
            simp only [Option.some_bind]
            have h3' := chain3 h2' hl
            have hpl : nParent m l = some k'' := h3'.2.2.2.2.1
            have hli : l ≠ i := by
              intro he
              rw [he, hpi] at hpl
              have := Option.some.inj hpl
              rw [← this, hpj] at hpk''
              exact Option.noConfusion hpk''
            have hlj : l ≠ j := by
              intro he
              rw [he, hpj] at hpl
              exact Option.noConfusion hpl
            rw [dataQ_congr (hKeep l hlj hli)]
  have hok0' : ok0 m' := by
    have hKr : getN m' m.root = getN m m.root := hKeep m.root hrootj hrooti
    obtain ⟨g0, g1, g2, g3, g4, g5, g6, g7⟩ := h0
    rw [show ok0 m' = ((getN m' m.root).isSome = true ∧ nCh2 m' m.root = [] ∧
        nCh3 m' m.root = [] ∧ (dataQ m' m.root).isNone = true ∧ nParent m' m.root = none ∧
        keysND (nCh1 m' m.root) ∧ tgtND (nCh1 m' m.root) ∧
        ∀ e ∈ nCh1 m' m.root, ok1 m' e.2 e.1) from by rw [ok0, hroot']]
    refine ⟨by rw [hKr]; exact g0, by rw [nCh2_congr hKr]; exact g1,
      by rw [nCh3_congr hKr]; exact g2, by rw [dataQ_congr hKr]; exact g3,
      by rw [nParent_congr hKr]; exact g4, by rw [nCh1_congr hKr]; exact g5,
      by rw [nCh1_congr hKr]; exact g6, ?_⟩
    rw [nCh1_congr hKr]
    intro e he
    by_cases hej : e.2 = j
    · have heaj : e = (a, j) := entry_eq_of_tgt g6 he (alook_mem hc1) (by rw [hej])
      rw [heaj]
      show ok1 m' j a
      obtain ⟨f0, f1, f2, f3, f4, f5, f6, f7⟩ := h1
      refine ⟨?_, ?_, ?_, ?_, ?_, ?_, ?_, ?_⟩
      · rw [hAtJ]
        rfl
      · rw [hch1j]
        exact f1
      · rw [hch3j]
        exact f2
      · rw [hdj]
        exact f3
      · rw [hpj']
        exact f4
      · rw [hch2j]
        exact keysND_aerase f5 b
      · rw [hch2j]
        exact tgtND_aerase f6 b
      · rw [hch2j]
        intro e2 he2
        have he2mem : e2 ∈ nCh2 m j := mem_aerase he2
        have h2e := f7 e2 he2mem
        have he2i : e2.2 ≠ i := by
          intro he'
          have he2b : e2 = (b, i) := entry_eq_of_tgt f6 he2mem (alook_mem hc2) (by rw [he'])
          rw [he2b] at he2
          exact not_mem_of_alook_none (alook_aerase_self f5 b) i he2
        have he2j : e2.2 ≠ j := by
          intro he'
          have hp2 := h2e.2.2.2.2.1
          rw [he', hpj] at hp2
          exact Option.noConfusion hp2
        refine ok2_shield (fun x => x = j ∨ x = i) h2e ?_ ?_ ?_
        · intro x r hx hnb
          rw [hKeep x (fun h => hnb (Or.inl h)) (fun h => hnb (Or.inr h))]
          exact hx
        · rintro (h | h)
          · exact he2j h
          · exact he2i h
        · intro x hx
          rintro (he' | he')
          · rw [he', hpj] at hx
            exact Option.noConfusion hx
          · rw [he', hpi] at hx
            exact he2j (Option.some.inj hx).symm
    · have h1e := g7 e he
      have hpe : nParent m e.2 = none := h1e.2.2.2.2.1
      have hbad : ¬ (e.2 = j ∨ e.2 = i) := by
        rintro (h | h)
        · exact hej h
        · rw [h, hpi] at hpe
          exact Option.noConfusion hpe
      refine ok1_shield (fun x => x = j ∨ x = i) h1e ?_ hbad ?_ ?_
      · intro x r hx hnb
        rw [hKeep x (fun h => hnb (Or.inl h)) (fun h => hnb (Or.inr h))]
        exact hx
      · intro x hx
        rintro (he' | he')
        · rw [he', hpj] at hx
          exact Option.noConfusion hx
        · rw [he', hpi] at hx
          exact hej (Option.some.inj hx).symm
      · intro x q hx hq
        rintro (he' | he')
        · rw [he', hpj] at hx
          exact Option.noConfusion hx
        · rw [he', hpi] at hx
          have hqj := Option.some.inj hx
          rw [← hqj, hpj] at hq
          exact Option.noConfusion hq
  have hle := length_elems0_erase h0 hok0' (.k2 a b) hgone hfr
  have hcle := count_le_length h0 (PKey.k2 a b)
  have hInv' : Inv m' := ⟨hok0', by omega⟩
  have hsizeeq : m'.size + count m (.k2 a b) = m.size := by omega
  exact ⟨m', hstate, hInv', hsizeeq, hroot', hfind', hgone, hfr⟩

/-- Effect of `erase` on a length-1 prefix that resolves: every payload under
the depth-1 node is removed and its children maps are cleared, but — because
the node's parent back-reference is null — the edge from the root is NOT
detached: the emptied node stays reachable. -/
theorem erase1_effect {m : MultiKeyMap α β γ ν} (hI : Inv m) {a : α}
    {i : Nat} (hf : findNode m (.k1 a) = some i) :
    ∃ m', erase m (.k1 a) = some m' ∧ Inv m' ∧
      m'.size + count m (.k1 a) = m.size ∧ m'.root = m.root ∧
      findNode m' (.k1 a) = some i ∧ findStack m' (.k1 a) = [] ∧ count m' (.k1 a) = 0 ∧
      (∀ k', matchesK (.k1 a) k' → mlookup m' k' = none) ∧
      (∀ k', ¬ matchesK (.k1 a) k' → mlookup m' k' = mlookup m k') := by
  obtain ⟨h0, hsz⟩ := hI
  have hc1 : child1 m m.root a = some i := by
    rw [findNode_k1] at hf
    exact hf
  have h1 := chain1 h0 hc1
  obtain ⟨ri, hri⟩ := isSome_getN h1.1
  have hpi : nParent m i = none := h1.2.2.2.2.1
  have hrooti : m.root ≠ i := by
    intro he
    have hch : nCh1 m i = [] := h1.2.1
    have hmem : (a, i) ∈ nCh1 m m.root := alook_mem hc1
    rw [he, hch] at hmem
    exact List.not_mem_nil _ hmem
  have hstate := erase1_state hf hri (by rw [← nParent_of_getN hri]; exact hpi)
  obtain ⟨m', hm'⟩ : ∃ mm,
      modN { m with size := m.size - (drainF m (iterFuel m) [i]).length }
        i (fun r => { r with ch1 := [], ch2 := [], ch3 := [] }) = mm := ⟨_, rfl⟩
  rw [hm'] at hstate
  have hKeep : ∀ x, x ≠ i → getN m' x = getN m x := by
    intro x hxi
    rw [← hm', getN_modN_ne _ _ (Ne.symm hxi)]
    rfl
  have hri1 : getN { m with size := m.size - (drainF m (iterFuel m) [i]).length } i =
      some ri := hri
  have hAtI : getN m' i = some { ri with ch1 := [], ch2 := [], ch3 := [] } := by
    rw [← hm']
    exact getN_modN_self hri1 _
  have hroot' : m'.root = m.root := by
    rw [← hm', modN_root]
  have hcount : count m (.k1 a) = (drainF m (iterFuel m) [i]).length := by
    unfold count
    rw [findElems_of_some hf]
  have hsize' : m'.size = m.size - count m (.k1 a) := by
    rw [← hm', modN_size, hcount]
  have hch1i : nCh1 m' i = [] := by rw [nCh1_of_getN hAtI]
  have hch2i : nCh2 m' i = [] := by rw [nCh2_of_getN hAtI]
  have hch3i : nCh3 m' i = [] := by rw [nCh3_of_getN hAtI]
  have hdi : dataQ m' i = dataQ m i := by rw [dataQ_of_getN hAtI, dataQ_of_getN hri]
  have hpin : nParent m' i = none := by
    rw [nParent_of_getN hAtI]
    rw [← nParent_of_getN hri]
    exact hpi
  have hdinone : dataQ m' i = none := by
    rw [hdi]
    exact Option.isNone_iff_eq_none.mp h1.2.2.2.1
  have hchild1' : ∀ x, child1 m' m.root x = child1 m m.root x := by
    intro x
    unfold child1
    rw [nCh1_congr (hKeep m.root hrooti)]
  have hfind' : findNode m' (.k1 a) = some i := by
    rw [findNode_k1, hroot', hchild1']
    exact hc1
  have hct : chTargets m' i = [] := by
    unfold chTargets
    rw [hch1i, hch2i, hch3i]
    rfl
  have hpush : pushKids m' i [] = [] := by
    unfold pushKids
    rw [hct]
    rfl
  have hstack : findStack m' (.k1 a) = [] := by
    rw [findStack_of_some hfind']
    show skipF m' (need0 m' + 1) [i] = []
    rw [skipF_succ_none hdinone, hpush]
    exact skipF_nil m' _
  have hcnt' : count m' (.k1 a) = 0 := by
    unfold count
    rw [findElems_of_some hfind']
    show (drainF m' (need0 m' + 1) [i]).length = 0
    rw [drainF_succ_none hdinone, hpush, drainF_nil]
    rfl
  have hc2i : ∀ y, child2 m' i y = none := by
    intro y
    unfold child2
    rw [hch2i]
    rfl
  have hgone : ∀ k', matchesK (.k1 a) k' → mlookup m' k' = none := by
    intro k' hmk
    obtain ⟨x, y, z⟩ := k'
    have hxa : x = a := hmk
    rw [mlookup_expand, hroot', hchild1', hxa, hc1]
    simp only [Option.some_bind]
    rw [hc2i]
    rfl
  have hfr : ∀ k', ¬ matchesK (.k1 a) k' → mlookup m' k' = mlookup m k' := by
    intro k' hmk
    obtain ⟨x, y, z⟩ := k'
    rw [mlookup_expand, mlookup_expand, hroot', hchild1']
    cases hj' : child1 m m.root x with
    | none => rfl
    | some j' =>
      simp only [Option.some_bind]
      have h1' := chain1 h0 hj'
      have hj'i : j' ≠ i := by
        intro he
        have e1 : (x, j') ∈ nCh1 m m.root := alook_mem hj'
        have e2 : (a, i) ∈ nCh1 m m.root := alook_mem hc1
        rw [he] at e1
        have htnd : tgtND (nCh1 m m.root) := h0.2.2.2.2.2.2.1
        exact hmk (show matchesK (.k1 a) (x, y, z) from
          congrArg Prod.fst (entry_eq_of_tgt htnd e1 e2 rfl))
      have hch2eq : ∀ y', child2 m' j' y' = child2 m j' y' := by
        intro y'
        unfold child2
        rw [nCh2_congr (hKeep j' hj'i)]
      rw [hch2eq]
      cases hk' : child2 m j' y with
      | none => rfl
      | some k'' =>
        simp only [Option.some_bind]
        have h2' := chain2 h1' hk'
        have hpk'' : nParent m k'' = some j' := h2'.2.2.2.2.1
        have hk''i : k'' ≠ i := by
          intro he
          rw [he, hpi] at hpk''
          exact Option.noConfusion hpk''
        have hch3eq : ∀ z', child3 m' k'' z' = child3 m k'' z' := by
          intro z'
          unfold child3
          rw [nCh3_congr (hKeep k'' hk''i)]
        rw [hch3eq]
        cases hl : child3 m k'' z with
        | none => rfl
        | some l =>
          simp only [Option.some_bind]
          have h3' := chain3 h2' hl
          have hpl : nParent m l = some k'' := h3'.2.2.2.2.1
          have hli : l ≠ i := by
            intro he
            rw [he, hpi] at hpl
            exact Option.noConfusion hpl
          rw [dataQ_congr (hKeep l hli)]
  have hok0' : ok0 m' := by
    have hKr : getN m' m.root = getN m m.root := hKeep m.root hrooti
    obtain ⟨g0, g1, g2, g3, g4, g5, g6, g7⟩ := h0
    rw [show ok0 m' = ((getN m' m.root).isSome = true ∧ nCh2 m' m.root = [] ∧
        nCh3 m' m.root = [] ∧ (dataQ m' m.root).isNone = true ∧ nParent m' m.root = none ∧
        keysND (nCh1 m' m.root) ∧ tgtND (nCh1 m' m.root) ∧
        ∀ e ∈ nCh1 m' m.root, ok1 m' e.2 e.1) from by rw [ok0, hroot']]
    refine ⟨by rw [hKr]; exact g0, by rw [nCh2_congr hKr]; exact g1,
      by rw [nCh3_congr hKr]; exact g2, by rw [dataQ_congr hKr]; exact g3,
      by rw [nParent_congr hKr]; exact g4, by rw [nCh1_congr hKr]; exact g5,
      by rw [nCh1_congr hKr]; exact g6, ?_⟩
    rw [nCh1_congr hKr]
    intro e he
    by_cases hei : e.2 = i
    · have heai : e = (a, i) := entry_eq_of_tgt g6 he (alook_mem hc1) (by rw [hei])
      rw [heai]
      show ok1 m' i a
      refine ⟨?_, hch1i, hch3i, ?_, hpin, ?_, ?_, ?_⟩
      · rw [hAtI]
        rfl
      · rw [hdinone]
        rfl
      · rw [hch2i]
        unfold keysND
        simp
      · rw [hch2i]
        unfold tgtND
        simp
      · rw [hch2i]
        intro e2 he2
        exact absurd he2 (List.not_mem_nil _)
    · have h1e := g7 e he
      refine ok1_shield (fun x => x = i) h1e ?_ hei ?_ ?_
      · intro x r hx hnb
        rw [hKeep x hnb]
        exact hx
      · intro x hx he'
        rw [he', hpi] at hx
        exact Option.noConfusion hx
      · intro x q hx hq he'
        rw [he', hpi] at hx
        exact Option.noConfusion hx
  have hle := length_elems0_erase h0 hok0' (.k1 a) hgone hfr
  have hcle := count_le_length h0 (PKey.k1 a)
  have hInv' : Inv m' := ⟨hok0', by omega⟩
  have hsizeeq : m'.size + count m (.k1 a) = m.size := by omega
  exact ⟨m', hstate, hInv', hsizeeq, hroot', hfind', hstack, hcnt', hgone, hfr⟩

end EraseEffect

/-! Bridges between the public-operation embeddings and the structural
lookup, and the characterization of range construction. -/

section Bridges

variable {α β γ ν : Type} [DecidableEq α] [DecidableEq β] [DecidableEq γ]

/-- `at`/`find` on a full key dereference to exactly the structurally stored
value: the iterator built on the resolved leaf starts at the leaf itself
because a leaf always carries its payload. -/
theorem atKey_fullK {m : MultiKeyMap α β γ ν} (h0 : ok0 m) (k : α × β × γ) :
    atKey m (fullK k) = mlookup m k := by
  cases hfn : findNode m (fullK k) with
  | none =>
    unfold atKey mlookup
    rw [findStack_of_none hfn, hfn]
    rfl
  | some i =>
    obtain ⟨a, b, c⟩ := k
    have hfn' : findNode m (.k3 a b c) = some i := hfn
    obtain ⟨j, kk, hc1, hc2, hc3, h1, h2, h3⟩ := findNode3_ok h0 hfn'
    obtain ⟨v, hv⟩ := dataQ_of_ok3 h3
    have hstack : findStack m (.k3 a b c) = [i] := by
      rw [findStack_of_some hfn']
      show skipF m (need0 m + 1) [i] = [i]
      rw [skipF_succ_some hv]
    have hstack2 : findStack m (fullK (a, b, c)) = [i] := hstack
    unfold atKey
    rw [hstack2]
    show (dataQ m i).map (fun kv => kv.2) = mlookup m (a, b, c)
    unfold mlookup
    rw [hfn]
    rfl

/-- `count` over a prefix is unchanged between two maps that agree on every
key except possibly one key the prefix does not match. -/
theorem count_congr {m m' : MultiKeyMap α β γ ν} (h0 : ok0 m) (h0' : ok0 m')
    {K : α × β × γ} (hfr : ∀ k' ≠ K, mlookup m' k' = mlookup m k')
    (p : PKey α β γ) (hp : ¬ matchesK p K) : count m' p = count m p := by
  have hnd : (findElems m p).Nodup := (ndKeys_findElems h0 p).of_map
  have hnd' : (findElems m' p).Nodup := (ndKeys_findElems h0' p).of_map
  have hperm : (findElems m' p).Perm (findElems m p) := by
    refine perm_of_mem_iff hnd' hnd ?_
    intro kv
    rw [mem_findElems h0' p kv, mem_findElems h0 p kv]
    by_cases hK : kv.1 = K
    · constructor
      · rintro ⟨-, hm⟩
        rw [hK] at hm
        exact absurd hm hp
      · rintro ⟨-, hm⟩
        rw [hK] at hm
        exact absurd hm hp
    · rw [hfr kv.1 hK]
  unfold count
  rw [hperm.length_eq]

theorem Inv_mkEmpty : Inv (mkEmpty : MultiKeyMap α β γ ν) := by
  constructor
  · refine ⟨rfl, rfl, rfl, rfl, rfl, ?_, ?_, ?_⟩
    · show keysND ([] : List (α × Nat))
      unfold keysND
      simp
    · show tgtND ([] : List (α × Nat))
      unfold tgtND
      simp
    · intro e he
      exact absurd he (List.not_mem_nil e)
  · rfl

theorem mlookup_mkEmpty (k : α × β × γ) :
    mlookup (mkEmpty : MultiKeyMap α β γ ν) k = (none : Option ν) := rfl

theorem assocFind_cons_self {K V : Type} [DecidableEq K] (k : K) (v : V)
    (t : List (K × V)) : assocFind ((k, v) :: t) k = some v := by
  unfold assocFind
  simp

theorem assocFind_cons_ne {K V : Type} [DecidableEq K] {x k : K} (h : x ≠ k) (v : V)
    (t : List (K × V)) : assocFind ((k, v) :: t) x = assocFind t x := by
  show (if x = k then some v else assocFind t x) = assocFind t x
  rw [if_neg h]

theorem assocFind_eq_none_iff {K V : Type} [DecidableEq K] (l : List (K × V)) (k : K) :
    assocFind l k = none ↔ k ∉ l.map Prod.fst := by
  induction l with
  | nil => simp [assocFind]
  | cons e t ih =>
    obtain ⟨ek, ev⟩ := e
    by_cases hk : k = ek
    · subst hk
      simp [assocFind]
    · rw [assocFind_cons_ne hk]
      simp only [List.map_cons, List.mem_cons]
      rw [ih]
      constructor
      · rintro hn (h | h)
        · exact hk h
        · exact hn h
      · intro hn h
        exact hn (Or.inr h)

theorem assocFind_mem_iff {K V : Type} [DecidableEq K] {l : List (K × V)}
    (hnd : (l.map Prod.fst).Nodup) (k : K) (v : V) :
    assocFind l k = some v ↔ (k, v) ∈ l := by
  induction l with
  | nil => simp [assocFind]
  | cons e t ih =>
    obtain ⟨ek, ev⟩ := e
    simp only [List.map_cons, List.nodup_cons] at hnd
    by_cases hk : k = ek
    · subst hk
      rw [assocFind_cons_self]
      simp only [List.mem_cons, Prod.mk.injEq, true_and]
      constructor
      · intro h
        exact Or.inl (Option.some.inj h).symm
      · rintro (h | h)
        · rw [h]
        · exact absurd (List.mem_map_of_mem Prod.fst h) hnd.1
    · rw [assocFind_cons_ne hk]
      rw [ih hnd.2]
      simp only [List.mem_cons, Prod.mk.injEq]
      constructor
      · intro h
        exact Or.inr h
      · rintro (⟨h, -⟩ | h)
        · exact absurd h hk
        · exact h

theorem assocFind_perm {K V : Type} [DecidableEq K] {l l' : List (K × V)}
    (hnd : (l.map Prod.fst).Nodup) (hp : l.Perm l') (k : K) :
    assocFind l k = assocFind l' k := by
  have hnd' : (l'.map Prod.fst).Nodup := ((hp.map Prod.fst).nodup_iff).mp hnd
  cases hv : assocFind l k with
  | none =>
    rw [assocFind_eq_none_iff] at hv
    have : k ∉ l'.map Prod.fst := fun h => hv ((hp.map Prod.fst).mem_iff.mpr h)
    exact ((assocFind_eq_none_iff l' k).mpr this).symm
  | some v =>
    rw [assocFind_mem_iff hnd] at hv
    exact ((assocFind_mem_iff hnd' k v).mpr (hp.mem_iff.mp hv)).symm

/-- Folding `insert` over a list: since `insert` never overwrites, the result
holds the original value where one existed and otherwise the first value the
list supplies for the key. -/
theorem foldl_insert_mlookup (l : List ((α × β × γ) × ν)) :
    ∀ m : MultiKeyMap α β γ ν, Inv m →
      Inv (l.foldl (fun m kv => (insert m kv.1 kv.2).1) m) ∧
      ∀ k, mlookup (l.foldl (fun m kv => (insert m kv.1 kv.2).1) m) k =
        (match mlookup m k with
          | some w => some w
          | none => assocFind l k) := by
  induction l with
  | nil =>
    intro m hI
    refine ⟨hI, ?_⟩
    intro k
    simp only [List.foldl_nil]
    cases mlookup m k <;> rfl
  | cons kv t ih =>
    obtain ⟨k0, v0⟩ := kv
    intro m hI
    simp only [List.foldl_cons]
    cases hk : mlookup m k0 with
    | none =>
      have h0 := hI.1
      obtain ⟨-, -, -, -, hml, hfr⟩ := insert_of_absent h0 hk v0
      have hI1 : Inv (insert m k0 v0).1 := insert_Inv hI k0 v0
      obtain ⟨hIf, hlook⟩ := ih (insert m k0 v0).1 hI1
      refine ⟨hIf, ?_⟩
      intro k
      rw [hlook k]
      by_cases hkk : k = k0
      · subst hkk
        rw [hml, hk, assocFind_cons_self]
      · rw [hfr k hkk, assocFind_cons_ne hkk]
    | some w =>
      have h0 := hI.1
      have heq := insert_of_present h0 hk v0
      rw [show (insert m k0 v0).1 = m from by rw [heq]]
      obtain ⟨hIf, hlook⟩ := ih m hI
      refine ⟨hIf, ?_⟩
      intro k
      rw [hlook k]
      by_cases hkk : k = k0
      · subst hkk
        rw [hk]
      · rw [assocFind_cons_ne hkk]

/-- Characterization of range construction: the built map is well-formed and
holds, at every key, the first value the list supplies for that key. -/
theorem ofList_mlookup (l : List ((α × β × γ) × ν)) :
    Inv (ofList l) ∧ ∀ k, mlookup (ofList l) k = assocFind l k := by
  obtain ⟨hI, hlook⟩ := foldl_insert_mlookup l mkEmpty Inv_mkEmpty
  refine ⟨hI, ?_⟩
  intro k
  rw [show ofList l = l.foldl (fun m kv => (insert m kv.1 kv.2).1) mkEmpty from rfl,
    hlook k, mlookup_mkEmpty]

theorem mergeGo_cons_eq (a b : MultiKeyMap α β γ ν) (kv : (α × β × γ) × ν)
    (rest : List ((α × β × γ) × ν)) :
    mergeGo a b (kv :: rest) =
      if (insert a kv.1 kv.2).2 then
        (match erase b (fullK kv.1) with
          | some b' => mergeGo (insert a kv.1 kv.2).1 b' rest
          | none => mergeGo (insert a kv.1 kv.2).1 b rest)
      else mergeGo a b rest := rfl

/-- Invariant of the merge loop over an up-front enumeration `l` of distinct
source keys whose entries all resolve in the source: in the final pair, keys
outside `l` keep both maps' values, a key of `l` ends in the destination with
the destination's old value when it had one (otherwise the moved value), and
remains in the source exactly when the destination already had the key. -/
theorem mergeGo_spec (l : List ((α × β × γ) × ν)) :
    ∀ a b : MultiKeyMap α β γ ν, Inv a → Inv b →
      (l.map Prod.fst).Nodup →
      (∀ kv ∈ l, mlookup b kv.1 = some kv.2) →
      Inv (mergeGo a b l).1 ∧ Inv (mergeGo a b l).2 ∧
      (∀ k, k ∉ l.map Prod.fst →
        mlookup (mergeGo a b l).1 k = mlookup a k ∧
        mlookup (mergeGo a b l).2 k = mlookup b k) ∧
      (∀ kv ∈ l,
        mlookup (mergeGo a b l).1 kv.1 =
          (match mlookup a kv.1 with
            | some w => some w
            | none => some kv.2) ∧
        mlookup (mergeGo a b l).2 kv.1 =
          (match mlookup a kv.1 with
            | some _ => some kv.2
            | none => none)) := by
  induction l with
  | nil =>
    intro a b hIa hIb hnd hl
    exact ⟨hIa, hIb, fun k _ => ⟨rfl, rfl⟩,
      fun kv hkv => absurd hkv (List.not_mem_nil _)⟩
  | cons kv0 t ih =>
    obtain ⟨k0, v0⟩ := kv0
    obtain ⟨x0, y0, z0⟩ := k0
    intro a b hIa hIb hnd hl
    simp only [List.map_cons, List.nodup_cons] at hnd
    obtain ⟨hk0nin, hndt⟩ := hnd
    have hbk0 : mlookup b (x0, y0, z0) = some v0 :=
      hl ((x0, y0, z0), v0) (List.mem_cons_self _ _)
    cases hak0 : mlookup a (x0, y0, z0) with
    | none =>
      have h0a := hIa.1
      obtain ⟨hflag, -, -, -, hml, hfr⟩ := insert_of_absent h0a hak0 v0
      obtain ⟨i, hfi⟩ : ∃ i, findNode b (.k3 x0 y0 z0) = some i := by
        unfold mlookup at hbk0
        rw [Option.map_eq_some'] at hbk0
        obtain ⟨kvv, hch, -⟩ := hbk0
        rw [Option.bind_eq_some] at hch
        obtain ⟨i, hfi, -⟩ := hch
        exact ⟨i, hfi⟩
      obtain ⟨b', herase, hIb', hsz', hroot', hfind', hgone', hfr'⟩ := erase3_effect hIb hfi
      have hred : mergeGo a b (((x0, y0, z0), v0) :: t) =
          mergeGo (insert a (x0, y0, z0) v0).1 b' t := by
        rw [mergeGo_cons_eq, hflag,
          show erase b (fullK ((x0, y0, z0), v0).1) = some b' from herase]
        rfl
      have hIa1 : Inv (insert a (x0, y0, z0) v0).1 := insert_Inv hIa _ v0
      have hlt : ∀ kv ∈ t, mlookup b' kv.1 = some kv.2 := by
        intro kv hkv
        have hne : kv.1 ≠ (x0, y0, z0) := by
          intro he
          exact hk0nin (by rw [← he]; exact List.mem_map_of_mem Prod.fst hkv)
        rw [hfr' kv.1 (by rw [matchesK3_iff]; exact hne)]
        exact hl kv (List.mem_cons_of_mem _ hkv)
      obtain ⟨hIf1, hIf2, hA, hB⟩ := ih (insert a (x0, y0, z0) v0).1 b' hIa1 hIb' hndt hlt
      rw [hred]
      refine ⟨hIf1, hIf2, ?_, ?_⟩
      · intro k hknin
        simp only [List.map_cons, List.mem_cons] at hknin
        have hkne : k ≠ (x0, y0, z0) := fun he => hknin (Or.inl he)
        have hknt : k ∉ t.map Prod.fst := fun h => hknin (Or.inr h)
        obtain ⟨hA1, hA2⟩ := hA k hknt
        rw [hA1, hA2]
        exact ⟨hfr k hkne, hfr' k (by rw [matchesK3_iff]; exact hkne)⟩
      · intro kv hkv
        rcases List.mem_cons.mp hkv with heq | hkvt
        · have hkv1 : kv.1 = (x0, y0, z0) := by rw [heq]
          have hkv2 : kv.2 = v0 := by rw [heq]
          rw [hkv1, hkv2]
          obtain ⟨hA1, hA2⟩ := hA (x0, y0, z0) hk0nin
          refine ⟨?_, ?_⟩
          · rw [hA1, hml, hak0]
          · rw [hA2, hgone' (x0, y0, z0) (by rw [matchesK3_iff]), hak0]
        · have hne : kv.1 ≠ (x0, y0, z0) := by
            intro he
            exact hk0nin (by rw [← he]; exact List.mem_map_of_mem Prod.fst hkvt)
          obtain ⟨hB1, hB2⟩ := hB kv hkvt
          refine ⟨?_, ?_⟩
          · rw [hB1, hfr kv.1 hne]
          · rw [hB2, hfr kv.1 hne]
    | some w =>
      have heqi := insert_of_present hIa.1 hak0 v0
      have hflag : (insert a (x0, y0, z0) v0).2 = false := by rw [heqi]
      have hred : mergeGo a b (((x0, y0, z0), v0) :: t) = mergeGo a b t := by
        rw [mergeGo_cons_eq, hflag]
        rfl
      have hlt : ∀ kv ∈ t, mlookup b kv.1 = some kv.2 := fun kv hkv =>
        hl kv (List.mem_cons_of_mem _ hkv)
      obtain ⟨hIf1, hIf2, hA, hB⟩ := ih a b hIa hIb hndt hlt
      rw [hred]
      refine ⟨hIf1, hIf2, ?_, ?_⟩
      · intro k hknin
        simp only [List.map_cons, List.mem_cons] at hknin
        exact hA k (fun h => hknin (Or.inr h))
      · intro kv hkv
        rcases List.mem_cons.mp hkv with heq | hkvt
        · have hkv1 : kv.1 = (x0, y0, z0) := by rw [heq]
          have hkv2 : kv.2 = v0 := by rw [heq]
          rw [hkv1, hkv2]
          obtain ⟨hA1, hA2⟩ := hA (x0, y0, z0) hk0nin
          refine ⟨?_, ?_⟩
          · rw [hA1, hak0]
          · rw [hA2, hbk0, hak0]
        · exact hB kv hkvt

/-- Merge semantics over the full enumeration of the source: the destination
ends with the union (its own values win), and the source keeps exactly the
entries whose keys the destination already had. -/
theorem merge_spec {a b : MultiKeyMap α β γ ν} (hIa : Inv a) (hIb : Inv b) :
    Inv (merge a b).1 ∧ Inv (merge a b).2 ∧
    (∀ k, mlookup (merge a b).1 k =
      (match mlookup a k with
        | some w => some w
        | none => mlookup b k)) ∧
    (∀ k, mlookup (merge a b).2 k =
      (match mlookup a k with
        | some _ => mlookup b k
        | none => none)) := by
  have hrootb : rootElems b = elems0 b := rootElems_eq hIb.1
  have hnd : ((elems0 b).map Prod.fst).Nodup := ndKeys0 hIb.1
  have hl : ∀ kv ∈ elems0 b, mlookup b kv.1 = some kv.2 := by
    intro kv hkv
    exact (mem_elems0_mlookup hIb.1 kv).mp hkv
  have hmg : merge a b = mergeGo a b (elems0 b) := by
    unfold merge
    rw [hrootb]
  obtain ⟨hIf1, hIf2, hA, hB⟩ := mergeGo_spec (elems0 b) a b hIa hIb hnd hl
  rw [hmg]
  refine ⟨hIf1, hIf2, ?_, ?_⟩
  · intro k
    cases hbk : mlookup b k with
    | none =>
      have hknin : k ∉ (elems0 b).map Prod.fst := by
        intro hmem
        obtain ⟨kv, hkv, hfst⟩ := List.mem_map.mp hmem
        have := (mem_elems0_mlookup hIb.1 kv).mp hkv
        rw [hfst] at this
        rw [this] at hbk
        exact Option.noConfusion hbk
      rw [(hA k hknin).1]
      cases mlookup a k <;> rfl
    | some v =>
      have hmem : (k, v) ∈ elems0 b := (mem_elems0_mlookup hIb.1 (k, v)).mpr hbk
      have := (hB (k, v) hmem).1
      rw [this]
  · intro k
    cases hbk : mlookup b k with
    | none =>
      have hknin : k ∉ (elems0 b).map Prod.fst := by
        intro hmem
        obtain ⟨kv, hkv, hfst⟩ := List.mem_map.mp hmem
        have := (mem_elems0_mlookup hIb.1 kv).mp hkv
        rw [hfst] at this
        rw [this] at hbk
        exact Option.noConfusion hbk
      rw [(hA k hknin).2, hbk]
      cases mlookup a k <;> rfl
    | some v =>
      have hmem : (k, v) ∈ elems0 b := (mem_elems0_mlookup hIb.1 (k, v)).mpr hbk
      have := (hB (k, v) hmem).2
      rw [this]

theorem findNode_none_of_mlookup_none {m : MultiKeyMap α β γ ν} (h0 : ok0 m)
    {K : α × β × γ} (hm : mlookup m K = none) : findNode m (fullK K) = none := by
  cases hfn : findNode m (fullK K) with
  | none => rfl
  | some i =>
    obtain ⟨x, y, z⟩ := K
    have hfn' : findNode m (.k3 x y z) = some i := hfn
    obtain ⟨j, k, -, -, -, -, -, h3⟩ := findNode3_ok h0 hfn'
    obtain ⟨v, hv⟩ := dataQ_of_ok3 h3
    unfold mlookup at hm
    rw [hfn, Option.some_bind, hv] at hm
    exact Option.noConfusion hm

theorem count_fullK_none {m : MultiKeyMap α β γ ν} (h0 : ok0 m)
    {K : α × β × γ} (hm : mlookup m K = none) : count m (fullK K) = 0 := by
  unfold count
  rw [findElems_of_none (findNode_none_of_mlookup_none h0 hm)]
  rfl

theorem count_fullK_some {m : MultiKeyMap α β γ ν} (h0 : ok0 m)
    {K : α × β × γ} {v : ν} (hm : mlookup m K = some v) : count m (fullK K) = 1 := by
  obtain ⟨i, hfn⟩ : ∃ i, findNode m (fullK K) = some i := by
    unfold mlookup at hm
    rw [Option.map_eq_some'] at hm
    obtain ⟨kvv, hch, -⟩ := hm
    rw [Option.bind_eq_some] at hch
    obtain ⟨i, hfi, -⟩ := hch
    exact ⟨i, hfi⟩
  obtain ⟨x, y, z⟩ := K
  have hfn' : findNode m (.k3 x y z) = some i := hfn
  obtain ⟨j, k, -, -, -, -, -, h3⟩ := findNode3_ok h0 hfn'
  unfold count
  rw [findElems_of_some hfn, drain_full3 h3]
  obtain ⟨w, hw⟩ := dataQ_of_ok3 h3
  rw [hw]
  rfl

/-- `operator==` holds exactly when the two well-formed maps store the same
value at every key: sizes then agree, and conversely equal sizes with the
source-side entry check pin down the whole contents. -/
theorem mkmEq_iff {x y : MultiKeyMap α β γ ν} (hx : Inv x) (hy : Inv y) :
    mkmEq x y ↔ ∀ k, mlookup x k = mlookup y k := by
  have hndx : (elems0 x).Nodup := (ndKeys0 hx.1).of_map
  have hndy : (elems0 y).Nodup := (ndKeys0 hy.1).of_map
  constructor
  · rintro ⟨hsz, hall⟩ k
    rw [rootElems_eq hy.1] at hall
    have hdir : ∀ k v, mlookup y k = some v → mlookup x k = some v := by
      intro k v hv
      have hmem : (k, v) ∈ elems0 y := (mem_elems0_mlookup hy.1 (k, v)).mpr hv
      have := hall (k, v) hmem
      rw [atKey_fullK hx.1] at this
      exact this
    have hlen : (elems0 x).length = (elems0 y).length := by
      rw [← hx.2, ← hy.2]
      exact hsz
    have hsub : elems0 y ⊆ elems0 x := by
      intro kv hkv
      rw [mem_elems0_mlookup hy.1] at hkv
      rw [mem_elems0_mlookup hx.1]
      exact hdir kv.1 kv.2 hkv
    have hperm : (elems0 y).Perm (elems0 x) :=
      (hndy.subperm hsub).perm_of_length_le (Nat.le_of_eq hlen)
    cases hxk : mlookup x k with
    | none =>
      cases hyk : mlookup y k with
      | none => rfl
      | some v =>
        rw [hdir k v hyk] at hxk
        exact Option.noConfusion hxk
    | some v =>
      have hmem : (k, v) ∈ elems0 x := (mem_elems0_mlookup hx.1 (k, v)).mpr hxk
      have hmy : (k, v) ∈ elems0 y := hperm.mem_iff.mpr hmem
      exact ((mem_elems0_mlookup hy.1 (k, v)).mp hmy).symm
  · intro hall
    constructor
    · rw [hx.2, hy.2]
      have hperm : (elems0 x).Perm (elems0 y) := by
        refine perm_of_mem_iff hndx hndy ?_
        intro kv
        rw [mem_elems0_mlookup hx.1, mem_elems0_mlookup hy.1, hall kv.1]
      exact hperm.length_eq
    · intro kv hkv
      rw [rootElems_eq hy.1] at hkv
      rw [atKey_fullK hx.1, hall kv.1]
      exact (mem_elems0_mlookup hy.1 kv).mp hkv

end Bridges

/-! The claims, stated over well-formed (`Inv`) states — every state the
public constructors and mutators produce satisfies `Inv` (`Inv_mkEmpty`,
`insert_Inv`, `opIndex_effect`, `erase{1,2,3}_effect`, `mergeGo_spec`). -/

section Claims

variable {α β γ ν : Type} [DecidableEq α] [DecidableEq β] [DecidableEq γ]

/-- C1: prefix-lookup completeness and soundness — for a well-formed map,
the iterator returned by `find(P)` enumerates exactly the stored pairs whose
full key extends the partial key `P`: every stored key with `P` as prefix
appears with its value, and nothing else appears. -/
theorem claimC1 {m : MultiKeyMap α β γ ν} (hI : Inv m) (p : PKey α β γ)
    (kv : (α × β × γ) × ν) :
    kv ∈ findElems m p ↔ mlookup m kv.1 = some kv.2 ∧ matchesK p kv.1 :=
  mem_findElems hI.1 p kv

theorem claimC1_wit :
    Inv (ofList [((5, 3, true), 1), ((5, 4, false), 2)] : MultiKeyMap Nat Nat Bool Nat) ∧
    (((5, 3, true), 1) ∈
        findElems (ofList [((5, 3, true), 1), ((5, 4, false), 2)] :
          MultiKeyMap Nat Nat Bool Nat) (.k1 5) ↔
      mlookup (ofList [((5, 3, true), 1), ((5, 4, false), 2)] :
          MultiKeyMap Nat Nat Bool Nat) (5, 3, true) = some 1 ∧
      matchesK (.k1 5) (5, 3, true)) :=
  ⟨by decide, claimC1 (by decide) (.k1 5) ((5, 3, true), 1)⟩

/-- C2: insert never overwrites — on a well-formed map, inserting at an
absent full key returns `true`, binds the key to the value and grows the size
by one; inserting at a key already bound to `v1` returns `false` and leaves
the stored value and the size unchanged. -/
theorem claimC2 {m : MultiKeyMap α β γ ν} (hI : Inv m) (K : α × β × γ) (v1 v2 : ν) :
    (mlookup m K = none →
      (insert m K v1).2 = true ∧ (insert m K v1).1.size = m.size + 1 ∧
      mlookup (insert m K v1).1 K = some v1) ∧
    (mlookup m K = some v1 →
      (insert m K v2).2 = false ∧ mlookup (insert m K v2).1 K = some v1 ∧
      (insert m K v2).1.size = m.size) := by
  constructor
  · intro hnone
    obtain ⟨hflag, hsize, -, -, hml, -⟩ := insert_of_absent hI.1 hnone v1
    exact ⟨hflag, hsize, hml⟩
  · intro hsome
    have h := insert_of_present hI.1 hsome v2
    rw [h]
    exact ⟨rfl, hsome, rfl⟩

theorem claimC2_wit :
    Inv (ofList [((5, 3, true), 1)] : MultiKeyMap Nat Nat Bool Nat) ∧
    ((mlookup (ofList [((5, 3, true), 1)] : MultiKeyMap Nat Nat Bool Nat) (5, 3, true) =
        none →
      (insert (ofList [((5, 3, true), 1)] : MultiKeyMap Nat Nat Bool Nat)
          (5, 3, true) 1).2 = true ∧
      (insert (ofList [((5, 3, true), 1)] : MultiKeyMap Nat Nat Bool Nat)
          (5, 3, true) 1).1.size =
        (ofList [((5, 3, true), 1)] : MultiKeyMap Nat Nat Bool Nat).size + 1 ∧
      mlookup (insert (ofList [((5, 3, true), 1)] : MultiKeyMap Nat Nat Bool Nat)
          (5, 3, true) 1).1 (5, 3, true) = some 1) ∧
    (mlookup (ofList [((5, 3, true), 1)] : MultiKeyMap Nat Nat Bool Nat) (5, 3, true) =
        some 1 →
      (insert (ofList [((5, 3, true), 1)] : MultiKeyMap Nat Nat Bool Nat)
          (5, 3, true) 2).2 = false ∧
      mlookup (insert (ofList [((5, 3, true), 1)] : MultiKeyMap Nat Nat Bool Nat)
          (5, 3, true) 2).1 (5, 3, true) = some 1 ∧
      (insert (ofList [((5, 3, true), 1)] : MultiKeyMap Nat Nat Bool Nat)
          (5, 3, true) 2).1.size =
        (ofList [((5, 3, true), 1)] : MultiKeyMap Nat Nat Bool Nat).size)) :=
  ⟨by decide, claimC2 (by decide) (5, 3, true) 1 2⟩

/-- C3 (amended): erase of a present prefix removes exactly the matching
payloads from the size, empties `find(P)`'s iteration and `count(P)`, and
leaves non-matching entries unchanged; the edge to the resolved node is
detached from its parent only for prefixes of length ≥ 2 — for a length-1
prefix the parent back-reference is null, so the root keeps its edge to the
(emptied) node, contrary to the original claim. -/
theorem claimC3 {m : MultiKeyMap α β γ ν} (hI : Inv m) {p : PKey α β γ} {i : Nat}
    (hfind : findNode m p = some i) :
    ∃ m', erase m p = some m' ∧
      m'.size + count m p = m.size ∧
      findStack m' p = [] ∧ count m' p = 0 ∧
      (∀ k', ¬ matchesK p k' → mlookup m' k' = mlookup m k') ∧
      (2 ≤ plen p → findNode m' p = none) ∧
      (plen p = 1 → findNode m' p = some i) := by
  cases p with
  | k1 a =>
    obtain ⟨m', he, hInv', hsz, hroot, hfn', hstack, hcnt, hgone, hfr⟩ :=
      erase1_effect hI hfind
    refine ⟨m', he, hsz, hstack, hcnt, hfr, ?_, fun _ => hfn'⟩
    intro h
    exact absurd h (by simp [plen])
  | k2 a b =>
    obtain ⟨m', he, hInv', hsz, hroot, hfn', hgone, hfr⟩ := erase2_effect hI hfind
    refine ⟨m', he, hsz, findStack_of_none hfn', ?_, hfr, fun _ => hfn', ?_⟩
    · unfold count
      rw [findElems_of_none hfn']
      rfl
    · intro h
      exact absurd h (by simp [plen])
  | k3 a b c =>
    obtain ⟨m', he, hInv', hsz, hroot, hfn', hgone, hfr⟩ := erase3_effect hI hfind
    refine ⟨m', he, hsz, findStack_of_none hfn', ?_, hfr, fun _ => hfn', ?_⟩
    · unfold count
      rw [findElems_of_none hfn']
      rfl
    · intro h
      exact absurd h (by simp [plen])

theorem claimC3_wit :
    Inv (ofList [((5, 3, true), 1), ((5, 3, false), 2), ((7, 4, true), 3)] :
      MultiKeyMap Nat Nat Bool Nat) ∧
    findNode (ofList [((5, 3, true), 1), ((5, 3, false), 2), ((7, 4, true), 3)] :
      MultiKeyMap Nat Nat Bool Nat) (.k2 5 3) = some 2 ∧
    (∃ m', erase (ofList [((5, 3, true), 1), ((5, 3, false), 2), ((7, 4, true), 3)] :
        MultiKeyMap Nat Nat Bool Nat) (.k2 5 3) = some m' ∧
      m'.size + count (ofList [((5, 3, true), 1), ((5, 3, false), 2), ((7, 4, true), 3)] :
        MultiKeyMap Nat Nat Bool Nat) (.k2 5 3) =
        (ofList [((5, 3, true), 1), ((5, 3, false), 2), ((7, 4, true), 3)] :
          MultiKeyMap Nat Nat Bool Nat).size ∧
      findStack m' (.k2 5 3) = [] ∧ count m' (.k2 5 3) = 0 ∧
      (∀ k', ¬ matchesK (.k2 5 3) k' →
        mlookup m' k' =
          mlookup (ofList [((5, 3, true), 1), ((5, 3, false), 2), ((7, 4, true), 3)] :
            MultiKeyMap Nat Nat Bool Nat) k') ∧
      (2 ≤ plen (PKey.k2 (5 : Nat) (3 : Nat) : PKey Nat Nat Bool) →
        findNode m' (.k2 5 3) = none) ∧
      (plen (PKey.k2 (5 : Nat) (3 : Nat) : PKey Nat Nat Bool) = 1 →
        findNode m' (.k2 5 3) = some 2)) :=
  ⟨by decide, by decide, claimC3 (by decide) (by decide)⟩

/-- C3, counterexample to the original claim: after erasing the present
length-1 prefix `5` from a singleton map, the erase succeeds but the root's
edge for component `5` is NOT removed — the walk still resolves the (emptied)
depth-1 node, because its parent back-reference was null. -/
theorem claimC3_cex :
    ((erase (ofList [((5, 3, true), 1)] : MultiKeyMap Nat Nat Bool Nat)
        (.k1 5)).bind (fun m' => findNode m' (.k1 5))) = some 1 := by decide

/-- C4: `at()` on a full key raises exactly when nothing is stored there —
the embedded `atKey` is `none` iff `count` of the key is zero — and otherwise
returns the stored value; `at` is a pure walk, so the map is unchanged. -/
theorem claimC4 {m : MultiKeyMap α β γ ν} (hI : Inv m) (K : α × β × γ) :
    (atKey m (fullK K) = none ↔ count m (fullK K) = 0) ∧
    (∀ v, mlookup m K = some v → atKey m (fullK K) = some v) := by
  have hbr := atKey_fullK hI.1 K
  constructor
  · constructor
    · intro hn
      rw [hbr] at hn
      exact count_fullK_none hI.1 hn
    · intro hc
      rw [hbr]
      cases hm : mlookup m K with
      | none => rfl
      | some v =>
        rw [count_fullK_some hI.1 hm] at hc
        exact absurd hc (by decide)
  · intro v hv
    rw [hbr]
    exact hv

theorem claimC4_wit :
    Inv (ofList [((5, 3, true), 1)] : MultiKeyMap Nat Nat Bool Nat) ∧
    ((atKey (ofList [((5, 3, true), 1)] : MultiKeyMap Nat Nat Bool Nat)
        (fullK (5, 3, true)) = none ↔
      count (ofList [((5, 3, true), 1)] : MultiKeyMap Nat Nat Bool Nat)
        (fullK (5, 3, true)) = 0) ∧
    (∀ v, mlookup (ofList [((5, 3, true), 1)] : MultiKeyMap Nat Nat Bool Nat)
        (5, 3, true) = some v →
      atKey (ofList [((5, 3, true), 1)] : MultiKeyMap Nat Nat Bool Nat)
        (fullK (5, 3, true)) = some v)) :=
  ⟨by decide, claimC4 (by decide) (5, 3, true)⟩

/-- C5: the spec says erase of an absent key is an empty result and no other
operation than `at` signals errors; in the code the erase of a key whose walk
fails dereferences a null `shared_ptr` (undefined behaviour, modelled as
`erase = none`) even on a well-formed nonempty map, while `find`, `count`
and `contains` do report empty/zero/false without error. -/
theorem claimC5 :
    erase (ofList [((5, 3, true), 1)] : MultiKeyMap Nat Nat Bool Nat) (.k1 9) = none ∧
    findStack (ofList [((5, 3, true), 1)] : MultiKeyMap Nat Nat Bool Nat) (.k1 9) = [] ∧
    count (ofList [((5, 3, true), 1)] : MultiKeyMap Nat Nat Bool Nat) (.k1 9) = 0 ∧
    ¬ contains (ofList [((5, 3, true), 1)] : MultiKeyMap Nat Nat Bool Nat) (.k1 9) := by
  decide

/-- C6: the claimed two-way edge recording fails at depth 1: after inserting
a first key, the root's forward edge for component `5` exists, but the
depth-1 node it reaches has a null parent back-reference (the creating walk's
`parent` variable is still null at that point), contrary to the claim; the
deeper nodes do get back-references. -/
theorem claimC6 :
    child1 (ofList [((5, 3, true), 1)] : MultiKeyMap Nat Nat Bool Nat)
      (ofList [((5, 3, true), 1)] : MultiKeyMap Nat Nat Bool Nat).root 5 = some 1 ∧
    nParent (ofList [((5, 3, true), 1)] : MultiKeyMap Nat Nat Bool Nat) 1 = none ∧
    nParent (ofList [((5, 3, true), 1)] : MultiKeyMap Nat Nat Bool Nat) 2 = some 1 ∧
    nParent (ofList [((5, 3, true), 1)] : MultiKeyMap Nat Nat Bool Nat) 3 = some 2 := by
  decide

/-- C7: merge semantics — after `a.merge(b)` the destination holds the union
of the two maps with `a`'s value winning on common keys, and the source
retains exactly its entries whose keys `a` already had. -/
theorem claimC7 {a b : MultiKeyMap α β γ ν} (hIa : Inv a) (hIb : Inv b) :
    (∀ k w, mlookup a k = some w → mlookup (merge a b).1 k = some w) ∧
    (∀ k, mlookup a k = none → mlookup (merge a b).1 k = mlookup b k) ∧
    (∀ k w, mlookup a k = some w → mlookup (merge a b).2 k = mlookup b k) ∧
    (∀ k, mlookup a k = none → mlookup (merge a b).2 k = none) := by
  obtain ⟨-, -, h1, h2⟩ := merge_spec hIa hIb
  refine ⟨?_, ?_, ?_, ?_⟩
  · intro k w hk
    have := h1 k
    rw [hk] at this
    exact this
  · intro k hk
    have := h1 k
    rw [hk] at this
    exact this
  · intro k w hk
    have := h2 k
    rw [hk] at this
    exact this
  · intro k hk
    have := h2 k
    rw [hk] at this
    exact this

theorem claimC7_wit :
    Inv (ofList [((1, 1, true), 10)] : MultiKeyMap Nat Nat Bool Nat) ∧
    Inv (ofList [((1, 1, true), 20), ((2, 2, false), 30)] : MultiKeyMap Nat Nat Bool Nat) ∧
    ((∀ k w, mlookup (ofList [((1, 1, true), 10)] : MultiKeyMap Nat Nat Bool Nat) k =
        some w →
      mlookup (merge (ofList [((1, 1, true), 10)] : MultiKeyMap Nat Nat Bool Nat)
        (ofList [((1, 1, true), 20), ((2, 2, false), 30)])).1 k = some w) ∧
    (∀ k, mlookup (ofList [((1, 1, true), 10)] : MultiKeyMap Nat Nat Bool Nat) k =
        none →
      mlookup (merge (ofList [((1, 1, true), 10)] : MultiKeyMap Nat Nat Bool Nat)
          (ofList [((1, 1, true), 20), ((2, 2, false), 30)])).1 k =
        mlookup (ofList [((1, 1, true), 20), ((2, 2, false), 30)] :
          MultiKeyMap Nat Nat Bool Nat) k) ∧
    (∀ k w, mlookup (ofList [((1, 1, true), 10)] : MultiKeyMap Nat Nat Bool Nat) k =
        some w →
      mlookup (merge (ofList [((1, 1, true), 10)] : MultiKeyMap Nat Nat Bool Nat)
          (ofList [((1, 1, true), 20), ((2, 2, false), 30)])).2 k =
        mlookup (ofList [((1, 1, true), 20), ((2, 2, false), 30)] :
          MultiKeyMap Nat Nat Bool Nat) k) ∧
    (∀ k, mlookup (ofList [((1, 1, true), 10)] : MultiKeyMap Nat Nat Bool Nat) k =
        none →
      mlookup (merge (ofList [((1, 1, true), 10)] : MultiKeyMap Nat Nat Bool Nat)
        (ofList [((1, 1, true), 20), ((2, 2, false), 30)])).2 k = none)) :=
  ⟨by decide, by decide,
    @claimC7 Nat Nat Bool Nat _ _ _
      (ofList [((1, 1, true), 10)])
      (ofList [((1, 1, true), 20), ((2, 2, false), 30)])
      (by decide) (by decide)⟩

/-- C8: equality is value-based and insertion-order independent — maps built
from permutations of the same duplicate-key-free pair list compare equal;
`==` holds exactly when sizes agree and every key resolves to the same value
in both; inserting one additional fresh pair into either side breaks it. -/
theorem claimC8 {l1 l2 : List ((α × β × γ) × ν)}
    (hnd : (l1.map Prod.fst).Nodup) (hp : l1.Perm l2)
    {kv : (α × β × γ) × ν} (hnew : kv.1 ∉ l1.map Prod.fst) :
    mkmEq (ofList l1) (ofList l2) ∧
    (∀ x y : MultiKeyMap α β γ ν, Inv x → Inv y →
      (mkmEq x y ↔ x.size = y.size ∧ ∀ k, mlookup x k = mlookup y k)) ∧
    ¬ mkmEq (insert (ofList l1) kv.1 kv.2).1 (ofList l2) ∧
    ¬ mkmEq (ofList l1) (insert (ofList l2) kv.1 kv.2).1 := by
  obtain ⟨hI1, hlook1⟩ := ofList_mlookup l1
  obtain ⟨hI2, hlook2⟩ := ofList_mlookup l2
  have halleq : ∀ k, mlookup (ofList l1) k = mlookup (ofList l2) k := by
    intro k
    rw [hlook1, hlook2]
    exact assocFind_perm hnd hp k
  have hEq : mkmEq (ofList l1) (ofList l2) := (mkmEq_iff hI1 hI2).mpr halleq
  have hab1 : mlookup (ofList l1) kv.1 = none := by
    rw [hlook1]
    exact (assocFind_eq_none_iff l1 kv.1).mpr hnew
  have hab2 : mlookup (ofList l2) kv.1 = none := by
    rw [hlook2]
    refine (assocFind_eq_none_iff l2 kv.1).mpr ?_
    intro h
    exact hnew ((hp.map Prod.fst).mem_iff.mpr h)
  obtain ⟨-, hsz1, -, -, -, -⟩ := insert_of_absent hI1.1 hab1 kv.2
  obtain ⟨-, hsz2, -, -, -, -⟩ := insert_of_absent hI2.1 hab2 kv.2
  have hszeq : (ofList l1).size = (ofList l2).size := hEq.1
  refine ⟨hEq, ?_, ?_, ?_⟩
  · intro x y hx hy
    constructor
    · intro h
      exact ⟨h.1, (mkmEq_iff hx hy).mp h⟩
    · rintro ⟨-, h⟩
      exact (mkmEq_iff hx hy).mpr h
  · intro hC
    have h1 := hC.1
    omega
  · intro hC
    have h1 := hC.1
    omega

theorem claimC8_wit :
    (([((1, 1, true), 10), ((2, 2, false), 20)] : List ((Nat × Nat × Bool) × Nat)).map
      Prod.fst).Nodup ∧
    ([((1, 1, true), 10), ((2, 2, false), 20)] :
      List ((Nat × Nat × Bool) × Nat)).Perm [((2, 2, false), 20), ((1, 1, true), 10)] ∧
    ((3, 3, true) : Nat × Nat × Bool) ∉
      (([((1, 1, true), 10), ((2, 2, false), 20)] : List ((Nat × Nat × Bool) × Nat)).map
        Prod.fst) ∧
    (mkmEq (ofList [((1, 1, true), 10), ((2, 2, false), 20)] :
        MultiKeyMap Nat Nat Bool Nat)
      (ofList [((2, 2, false), 20), ((1, 1, true), 10)]) ∧
    (∀ x y : MultiKeyMap Nat Nat Bool Nat, Inv x → Inv y →
      (mkmEq x y ↔ x.size = y.size ∧ ∀ k, mlookup x k = mlookup y k)) ∧
    ¬ mkmEq (insert (ofList [((1, 1, true), 10), ((2, 2, false), 20)] :
        MultiKeyMap Nat Nat Bool Nat) (3, 3, true) 30).1
      (ofList [((2, 2, false), 20), ((1, 1, true), 10)]) ∧
    ¬ mkmEq (ofList [((1, 1, true), 10), ((2, 2, false), 20)] :
        MultiKeyMap Nat Nat Bool Nat)
      (insert (ofList [((2, 2, false), 20), ((1, 1, true), 10)] :
        MultiKeyMap Nat Nat Bool Nat) (3, 3, true) 30).1) :=
  ⟨by decide, by decide, by decide,
    @claimC8 Nat Nat Bool Nat _ _ _
      [((1, 1, true), 10), ((2, 2, false), 20)]
      [((2, 2, false), 20), ((1, 1, true), 10)]
      (by decide) (by decide) ((3, 3, true), 30) (by decide)⟩

/-- C9: `operator[]` round-trip and size effect — after `map[K] = v`, `at(K)`
returns `v`; the assignment grows the size by one exactly when `K` was
absent and leaves it unchanged when present. -/
theorem claimC9 {m : MultiKeyMap α β γ ν} (hI : Inv m) (K : α × β × γ) (v : ν) :
    atKey (opIndexAssign m K v) (fullK K) = some v ∧
    (opIndexAssign m K v).size =
      (if (mlookup m K).isNone then m.size + 1 else m.size) := by
  obtain ⟨hI', hml, -, hsz⟩ := opIndex_effect hI K v
  refine ⟨?_, hsz⟩
  rw [atKey_fullK hI'.1]
  exact hml

theorem claimC9_wit :
    Inv (ofList [((5, 3, true), 1)] : MultiKeyMap Nat Nat Bool Nat) ∧
    (atKey (opIndexAssign (ofList [((5, 3, true), 1)] : MultiKeyMap Nat Nat Bool Nat)
        (5, 3, false) 7) (fullK (5, 3, false)) = some 7 ∧
    (opIndexAssign (ofList [((5, 3, true), 1)] : MultiKeyMap Nat Nat Bool Nat)
        (5, 3, false) 7).size =
      (if (mlookup (ofList [((5, 3, true), 1)] : MultiKeyMap Nat Nat Bool Nat)
          (5, 3, false)).isNone then
        (ofList [((5, 3, true), 1)] : MultiKeyMap Nat Nat Bool Nat).size + 1
      else (ofList [((5, 3, true), 1)] : MultiKeyMap Nat Nat Bool Nat).size)) :=
  ⟨by decide, claimC9 (by decide) (5, 3, false) 7⟩

/-- C10: frame property of insertion — inserting a fresh full key changes no
other stored entry: `at` on any other full key is unchanged, and `count` of
any prefix that is not a prefix of the new key is unchanged. -/
theorem claimC10 {m : MultiKeyMap α β γ ν} (hI : Inv m) {K : α × β × γ}
    (habs : mlookup m K = none) (v : ν) :
    (∀ K', K' ≠ K → atKey (insert m K v).1 (fullK K') = atKey m (fullK K')) ∧
    (∀ Q : PKey α β γ, ¬ matchesK Q K → count (insert m K v).1 Q = count m Q) := by
  obtain ⟨-, -, -, h0', -, hfr⟩ := insert_of_absent hI.1 habs v
  refine ⟨?_, ?_⟩
  · intro K' hne
    rw [atKey_fullK h0', atKey_fullK hI.1]
    exact hfr K' hne
  · intro Q hQ
    exact count_congr hI.1 h0' hfr Q hQ

theorem claimC10_wit :
    Inv (ofList [((5, 3, true), 1), ((7, 4, false), 2)] : MultiKeyMap Nat Nat Bool Nat) ∧
    mlookup (ofList [((5, 3, true), 1), ((7, 4, false), 2)] :
      MultiKeyMap Nat Nat Bool Nat) (6, 6, true) = none ∧
    ((∀ K', K' ≠ ((6, 6, true) : Nat × Nat × Bool) →
      atKey (insert (ofList [((5, 3, true), 1), ((7, 4, false), 2)] :
          MultiKeyMap Nat Nat Bool Nat) (6, 6, true) 9).1 (fullK K') =
        atKey (ofList [((5, 3, true), 1), ((7, 4, false), 2)] :
          MultiKeyMap Nat Nat Bool Nat) (fullK K')) ∧
    (∀ Q : PKey Nat Nat Bool, ¬ matchesK Q (6, 6, true) →
      count (insert (ofList [((5, 3, true), 1), ((7, 4, false), 2)] :
          MultiKeyMap Nat Nat Bool Nat) (6, 6, true) 9).1 Q =
        count (ofList [((5, 3, true), 1), ((7, 4, false), 2)] :
          MultiKeyMap Nat Nat Bool Nat) Q)) :=
  ⟨by decide, by decide, claimC10 (by decide) (by decide) 9⟩

end Claims

end MKMap
